import Mathlib

/-! # A verification development for proj_game.c / workq.h

A shallow embedding of the work-queue driven search of `proj_game.c`:
the `proj_space` record and its save/load codec, the engine registry,
the worker routine `engine_routine`, the branching step `branch` and the
control loop `control_thread_routine`.

Modelling conventions.
* Pointers are natural numbers, `NULL` is `0`.  The heap is a pair of typed
  partial maps (`items` for `proj_space` objects, `engines` for `engine_t`
  objects); dereferencing a pointer that is not live is the error
  `Err.fault`.
* `malloc` always succeeds and returns the address just above the
  allocation frontier `brk`; `free` makes the cell dead.
* C `int` and `long int` values are mathematical integers: the model
  describes the executions without signed overflow (which is undefined
  behaviour in C).  Only the on-disk image of a record is byte-accurate
  (LP64: 8-byte pointers and longs, 4-byte int followed by 4 bytes of
  padding).
* `while` loops take a fuel argument and end in `Err.out_of_fuel` when
  it is used up.
* `workq_add` and `workq_load_unload` live in `workq.c`, which is not
  among the sources: they are parameters (`WorkqOps`) of every function
  that calls them.
* Calls that are visible from outside a function (mutex operations,
  `workq_add`, `workq_load_unload`, `sleep`, the calls of `branch` and
  its report of a new best) are recorded in `State.trace`.
-/

namespace ProjGame

/-! ## Data model -/

abbrev Ptr := Nat

abbrev NULL : Ptr := 0

/-- The record `proj_space` of proj_game.c (lines 23-28). -/
structure proj_space where
  link : Ptr
  k : Int
  A : Fin 5 → Int
  minA : Fin 5 → Fin 2 → Int
deriving DecidableEq

/-- The record `engine_t` of proj_game.c (lines 46-52); the mutex
`my_list_mutex` is identified by the address of the engine. -/
structure engine_t where
  prev : Ptr
  next : Ptr
  thread_id : Nat
  list_first : Ptr
  list_last : Ptr
deriving DecidableEq

/-- The record `list_ends` of proj_game.c (lines 54-55). -/
structure list_ends where
  first : Ptr
  last : Ptr
deriving DecidableEq

/-- The part of `workq_t` (workq.h lines 43-58) that the model keeps:
the queue `first .. last` as the list of its `data` pointers, and the
integer fields. -/
structure workq_t where
  queue : List Ptr
  queue_length : Int
  file_counter : Int
  valid : Int
  quit : Int
  parallelism : Int
  counter : Int
  idle : Int
deriving DecidableEq

def NOCHANGE : Int := 0x5112012

def WORKQ_VALID : Int := 0xdec1992

def MAX_Q_LENGTH : Int := 100000

def NO_OF_THREADS : Int := 4

def CTRL_THREAD_WAIT_TIME : Nat := 1

/-- A stdio stream on a regular file: the bytes of the file and the
position of the cursor. -/
structure FILE where
  data : List Nat
  pos : Nat
deriving DecidableEq

/-- The mutexes of the program. -/
inductive Mutex where
  | engine_list_mutex
  | max_k_mutex
  | my_list_mutex (engine : Ptr)
deriving DecidableEq

/-- Externally visible calls, in program order. -/
inductive Event where
  | lock (m : Mutex)
  | unlock (m : Mutex)
  | workq_add (data : Ptr)
  | workq_load_unload (status : Int)
  | sleep (seconds : Nat)
  | branch (arg : proj_space)
  | new_max (k : Int) (A : List Int) (fractions : List (Int × Int))
deriving DecidableEq

/-- The diagnostics passed to `err_abort`. -/
inductive Diag where
  | pool_out_of_memory
  | mutex_initialisation
  | set_tsd
  | add_to_work_queue
  | file_dump
deriving DecidableEq

inductive Err where
  | fault
  | out_of_fuel
  | abort (status : Int) (what : Diag)
deriving DecidableEq

abbrev Res (α : Type) := Except Err α

/-- Global and heap state of the process. `engine_key t` is the value of
the thread-specific key `engine_key` in thread `t`. -/
structure State where
  items : Ptr → Option proj_space
  engines : Ptr → Option engine_t
  brk : Ptr
  engine_key : Nat → Ptr
  engine_list_head : Ptr
  max_k : Int
  workq : workq_t
  spill : FILE
  trace : List Event

/-- The two entry points of workq.c used by proj_game.c. -/
structure WorkqOps where
  workq_add : workq_t → Ptr → Int × workq_t
  workq_load_unload : State → Int × State

/-! ## Memory primitives -/

/-- Point update of a partial map. -/
def upd {α : Type} (h : Ptr → Option α) (p : Ptr) (v : Option α) : Ptr → Option α :=
  fun q => if q = p then v else h q

def State.item (s : State) (p : Ptr) : Res proj_space :=
  match s.items p with
  | some v => .ok v
  | none => .error .fault

def State.engine (s : State) (p : Ptr) : Res engine_t :=
  match s.engines p with
  | some v => .ok v
  | none => .error .fault

def State.set_item (s : State) (p : Ptr) (f : proj_space → proj_space) : Res State :=
  match s.items p with
  | some v => .ok { s with items := upd s.items p (some (f v)) }
  | none => .error .fault

def State.set_engine (s : State) (p : Ptr) (f : engine_t → engine_t) : Res State :=
  match s.engines p with
  | some v => .ok { s with engines := upd s.engines p (some (f v)) }
  | none => .error .fault

def State.emit (s : State) (e : Event) : State :=
  { s with trace := s.trace ++ [e] }

/-- The call `malloc (sizeof (proj_space))`: a fresh cell holding `junk`. -/
def State.malloc_item (s : State) (junk : proj_space) : Ptr × State :=
  (s.brk + 1, { s with items := upd s.items (s.brk + 1) (some junk), brk := s.brk + 1 })

/-- The call `malloc (sizeof (engine_t))`: a fresh cell holding `junk`. -/
def State.malloc_engine (s : State) (junk : engine_t) : Ptr × State :=
  (s.brk + 1, { s with engines := upd s.engines (s.brk + 1) (some junk), brk := s.brk + 1 })

def State.free_item (s : State) (p : Ptr) : Res State :=
  match s.items p with
  | some _ => .ok { s with items := upd s.items p none }
  | none => .error .fault

def State.free_engine (s : State) (p : Ptr) : Res State :=
  match s.engines p with
  | some _ => .ok { s with engines := upd s.engines p none }
  | none => .error .fault

/-- Content of a freshly allocated `proj_space` before it is written. -/
def junk_item : proj_space := ⟨0, 0, fun _ => 0, fun _ _ => 0⟩

/-! ## The record codec (proj_game.c lines 30-44) -/

/-- The `n` low bytes of `x`, least significant first. -/
def le_bytes : Nat → Nat → List Nat
  | 0, _ => []
  | n + 1, x => x % 256 :: le_bytes n (x / 256)

/-- Value of a little-endian byte string. -/
def le_value : List Nat → Nat
  | [] => 0
  | b :: bs => b + 256 * le_value bs

/-- Two's complement representation of `x` on `w` bits. -/
def to_unsigned (w : Nat) (x : Int) : Nat := (x % 2 ^ w).toNat

/-- Value of a `w`-bit two's complement pattern. -/
def to_signed (w : Nat) (u : Nat) : Int :=
  if u < 2 ^ (w - 1) then (u : Int) else (u : Int) - 2 ^ w

def sizeof_proj_space : Nat := 136

/-- The 15 `long int` members `A[0..4]`, `minA[0..4][0..1]` in memory order. -/
def proj_space.longs (r : proj_space) : List Int :=
  (List.finRange 5).map r.A ++
    (List.finRange 5).flatMap (fun i => (List.finRange 2).map (fun j => r.minA i j))

/-- Object representation of a record: `link` (8 bytes), `k` (4 bytes),
padding (4 bytes), then the 15 longs (8 bytes each). -/
def proj_space.bytes (r : proj_space) : List Nat :=
  le_bytes 8 r.link ++ le_bytes 4 (to_unsigned 32 r.k) ++ List.replicate 4 0 ++
    r.longs.flatMap (fun x => le_bytes 8 (to_unsigned 64 x))

/-- The unsigned value of the `n` bytes at offset `off`. -/
def word_at (bs : List Nat) (off n : Nat) : Nat := le_value ((bs.drop off).take n)

/-- The record whose object representation is `bs`. -/
def proj_space.of_bytes (bs : List Nat) : proj_space where
  link := word_at bs 0 8
  k := to_signed 32 (word_at bs 8 4)
  A := fun i => to_signed 64 (word_at bs (16 + 8 * i.val) 8)
  minA := fun i j => to_signed 64 (word_at bs (56 + 16 * i.val + 8 * j.val) 8)

/-- The values a C object of type `proj_space` can hold. -/
def proj_space.in_range (r : proj_space) : Prop :=
  r.link < 2 ^ 64 ∧ (-(2 : Int) ^ 31 ≤ r.k ∧ r.k < (2 : Int) ^ 31) ∧
    (∀ i, -(2 : Int) ^ 63 ≤ r.A i ∧ r.A i < (2 : Int) ^ 63) ∧
    (∀ i j, -(2 : Int) ^ 63 ≤ r.minA i j ∧ r.minA i j < (2 : Int) ^ 63)

instance (r : proj_space) : Decidable r.in_range := by
  unfold proj_space.in_range; infer_instance

/-- The call `fwrite_unlocked (buf, size, 1, file)` where `bytes` are the
`size` bytes of the buffer: the bytes replace what is at the cursor (the
file grows as needed) and the cursor moves past them. -/
def fwrite_unlocked (bytes : List Nat) (f : FILE) : Nat × FILE :=
  (1, { data := f.data.take f.pos ++ List.replicate (f.pos - f.data.length) 0 ++ bytes ++
                  f.data.drop (f.pos + bytes.length),
        pos := f.pos + bytes.length })

/-- The call `fread_unlocked (buf, size, 1, file)`: the bytes transferred,
the number of whole items read (0 or 1) and the stream afterwards.  A
short read transfers what is left and leaves the cursor at the end. -/
def fread_unlocked (size : Nat) (f : FILE) : List Nat × Nat × FILE :=
  if f.pos + size ≤ f.data.length then
    ((f.data.drop f.pos).take size, 1, { f with pos := f.pos + size })
  else
    (f.data.drop f.pos, 0, { f with pos := max f.pos f.data.length })

/-- proj_game.c lines 31-35. -/
def proj_space_save (arg : Ptr) (file : FILE) (s : State) : Res (FILE × State) := do
  let element ← s.item arg
  let (_, file) := fwrite_unlocked element.bytes file
  let s ← s.free_item arg
  return (file, s)

/-- proj_game.c lines 37-44.  A short read overwrites only the first
bytes of the new object, which is then dropped (the result is `NULL`). -/
def proj_space_load (file : FILE) (s : State) : Res (Ptr × FILE × State) := do
  let (element, s) := s.malloc_item junk_item
  let (bytes, read, file) := fread_unlocked sizeof_proj_space file
  let s ← s.set_item element
    (fun old => proj_space.of_bytes (bytes ++ old.bytes.drop bytes.length))
  if read ≠ 1 then
    return (NULL, file, s)
  else
    return (element, file, s)

/-! ## The engine registry (proj_game.c lines 57-60, 166-192, 206-234) -/

/-- What the calling thread contributes to `engine_routine`: its identity
(`pthread_self ()`), the indeterminate content of the object `malloc`
gives it, and the statuses that `pthread_mutex_init` and
`pthread_setspecific` return to it. -/
structure Thread where
  id : Nat
  junk : engine_t
  mutex_init_status : Int
  setspecific_status : Int

/-- proj_game.c lines 166-192: the destructor of `engine_key`. -/
def destructor (value_ptr : Ptr) (s : State) : Res State := do
  let engine := value_ptr
  let s := s.emit (.lock .engine_list_mutex)
  let e ← s.engine engine
  let s ←
    if e.next ≠ NULL ∧ e.prev ≠ NULL then do
      let s ← s.set_engine e.next (fun n => { n with prev := e.prev })
      let e ← s.engine engine
      s.set_engine e.prev (fun p => { p with next := e.next })
    else if e.next ≠ NULL then do
      let s ← s.set_engine e.next (fun n => { n with prev := NULL })
      let e ← s.engine engine
      pure { s with engine_list_head := e.next }
    else if e.prev ≠ NULL then
      s.set_engine e.prev (fun p => { p with next := NULL })
    else
      pure { s with engine_list_head := NULL }
  let s := s.emit (.unlock .engine_list_mutex)
  s.free_engine engine

/-- proj_game.c lines 206-234: find the engine of the calling thread,
creating and registering it on the first call.  Returns `engine`. -/
def engine_lookup (t : Thread) (s : State) : Res (Ptr × State) :=
  if s.engine_key t.id = NULL then do
    let (engine, s) := s.malloc_engine t.junk
    if t.mutex_init_status ≠ 0 then
      throw (.abort t.mutex_init_status .mutex_initialisation)
    let s := s.emit (.lock (.my_list_mutex engine))
    let s ← s.set_engine engine (fun e => { e with prev := NULL })
    let s := s.emit (.lock .engine_list_mutex)
    let s ←
      if s.engine_list_head = NULL then do
        let s := { s with engine_list_head := engine }
        s.set_engine engine (fun e => { e with next := NULL })
      else do
        let s ← s.set_engine engine (fun e => { e with next := s.engine_list_head })
        let s ← s.set_engine s.engine_list_head (fun h => { h with prev := engine })
        pure { s with engine_list_head := engine }
    let s := s.emit (.unlock .engine_list_mutex)
    if t.setspecific_status ≠ 0 then
      throw (.abort t.setspecific_status .set_tsd)
    let s := { s with engine_key := fun i => if i = t.id then engine else s.engine_key i }
    let s ← s.set_engine engine (fun e => { e with thread_id := t.id })
    let s := s.emit (.unlock (.my_list_mutex engine))
    pure (engine, s)
  else
    pure (s.engine_key t.id, s)

/-! ## The branching step (proj_game.c lines 73-160) -/

def ENOMEM : Int := 12

/-- A record without its position in a list. -/
def proj_space.payload (r : proj_space) : proj_space := { r with link := NULL }

/-- Lines 99-100: the flags of the indices that may be increased. -/
def branch_idx (arg : proj_space) : Int :=
  ((List.finRange 5).foldl
    (fun (acc : Int × Int) i =>
      (if arg.A i * arg.minA i 1 < arg.minA i 0 * (arg.k + 1) then acc.1 + acc.2 else acc.1,
        acc.2 * 2))
    (0, 1)).1

/-- Lines 106-107: `for (j = 0; s_temp; j++) s_temp &= s_temp - 1;`. -/
def count_bits : Nat → Int → Int → Res Int
  | 0, _, _ => .error .out_of_fuel
  | n + 1, s_temp, j =>
    if s_temp ≠ 0 then count_bits n (Int.land s_temp (s_temp - 1)) (j + 1) else .ok j

/-- Lines 111-117: copy `A` and increase the members selected by the
bits of `s` (`s` is never negative here, so `%` is the C remainder). -/
def bump (A : Fin 5 → Int) (s : Int) : Fin 5 → Int :=
  ((List.finRange 5).foldl
    (fun (acc : (Fin 5 → Int) × Int) i =>
      (if acc.2 % 2 ≠ 0 then Function.update acc.1 i (acc.1 i + 1) else acc.1, acc.2 >>> 1))
    (A, s)).1

/-- Lines 119-122. -/
def ordered (A : Fin 5 → Int) : Prop :=
  A 0 ≤ A 1 ∧ A 1 ≤ A 2 ∧ A 2 ≤ A 3 ∧ A 3 ≤ A 4

instance (A : Fin 5 → Int) : Decidable (ordered A) := by
  unfold ordered; infer_instance

/-- Lines 124-128: the new `minA`, from the parent and the new `A`. -/
def new_minA (arg : proj_space) (A : Fin 5 → Int) : Fin 5 → Fin 2 → Int :=
  fun i c =>
    let j := arg.minA i 0 * (arg.k + 1) < arg.minA i 1 * A i
    if c = 0 then (if j then arg.minA i 0 else A i)
    else (if j then arg.minA i 1 else arg.k + 1)

/-- The locals of `branch` that live across iterations of its main loop. -/
structure BranchVars where
  stack_ends : list_ends
  temp_element : Ptr

/-- Lines 132-139: put `temp_element` at the end of the new list and
allocate the next `temp_element`. -/
def append_element (v : BranchVars) (st : State) : Res (BranchVars × State) := do
  let st ←
    if v.stack_ends.first = NULL then pure st
    else st.set_item v.stack_ends.last (fun l => { l with link := v.temp_element })
  let first := if v.stack_ends.first = NULL then v.temp_element else v.stack_ends.first
  let (temp_element, st) := st.malloc_item junk_item
  if temp_element = NULL then
    throw (.abort ENOMEM .pool_out_of_memory)
  pure (⟨⟨first, v.temp_element⟩, temp_element⟩, st)

/-- Lines 104-141: the body of the loop over `s`. -/
def branch_step (arg : Ptr) (idx dmin dmax : Int) (s : Int) (v : BranchVars) (st : State) :
    Res (BranchVars × State) := do
  let j ← count_bits 8 s 0
  if Int.lor idx (~~~s) = -1 ∧ j ≤ dmax ∧ j ≥ dmin then
    let a ← st.item arg
    let st ← st.set_item v.temp_element (fun t => { t with A := bump a.A s })
    let t ← st.item v.temp_element
    if ordered t.A then
      let a ← st.item arg
      let st ← st.set_item v.temp_element
        (fun t => { t with minA := new_minA a t.A, k := a.k + 1, link := NULL })
      append_element v st
    else
      pure (v, st)
  else
    pure (v, st)

/-- Lines 103-142: the loop `for (s = 0; s < 32; s++)`, over the values
of `s` still to come. -/
def branch_loop (arg : Ptr) (idx dmin dmax : Int) :
    List Int → BranchVars → State → Res (BranchVars × State)
  | [], v, st => .ok (v, st)
  | s :: rest, v, st => do
    let (v, st) ← branch_step arg idx dmin dmax s v st
    branch_loop arg idx dmin dmax rest v st

/-- The values 0, 1, ..., 31 of the loop variable `s`. -/
def subsets : List Int := (List.range 32).map Int.ofNat

/-- Lines 147-155: the new value of `max_k` when a terminal item of
depth `k` is met. -/
def update_max_k (max_k k : Int) : Int := if max_k < k then k else max_k

/-- Lines 149-154: what is printed for a new best.  The denominator of
the third fraction is `minA[0][1]`, as in the source. -/
def report (a : proj_space) : Event :=
  .new_max a.k [a.A 0, a.A 1, a.A 2, a.A 3, a.A 4]
    [(a.minA 0 0, a.minA 0 1), (a.minA 1 0, a.minA 1 1), (a.minA 2 0, a.minA 0 1),
      (a.minA 3 0, a.minA 3 1), (a.minA 4 0, a.minA 4 1)]

/-- Lines 145-157: the statistics update for an item without children. -/
def record_terminal (arg : Ptr) (st : State) : Res State := do
  let st := st.emit (.lock .max_k_mutex)
  let a ← st.item arg
  let st :=
    if st.max_k < a.k then ({ st with max_k := a.k } : State).emit (report a) else st
  pure (st.emit (.unlock .max_k_mutex))

/-- Lines 143-159: release the spare element, update the statistics if
the list is empty, return the list. -/
def branch_finish (arg : Ptr) (v : BranchVars) (st : State) : Res (list_ends × State) := do
  let st ← st.free_item v.temp_element
  let st ← if v.stack_ends.first = NULL then record_terminal arg st else pure st
  pure (v.stack_ends, st)

/-- The calls `branch` makes for an item `x` without children when the
best so far is `max_k`. -/
def terminal_events (max_k : Int) (x : proj_space) : List Event :=
  [Event.lock .max_k_mutex] ++ (if max_k < x.k then [report x] else []) ++
    [Event.unlock .max_k_mutex]

/-- proj_game.c lines 73-160. -/
def branch (arg : Ptr) (st : State) : Res (list_ends × State) := do
  let (temp_element, st) := st.malloc_item junk_item
  if temp_element = NULL then
    throw (.abort ENOMEM .pool_out_of_memory)
  let a ← st.item arg
  let h := a.A 0 + a.A 1 + a.A 2 + a.A 3 + a.A 4
  let dmin := a.k + 3 - h
  let dmax := a.k + 4 - h
  let idx := branch_idx a
  let (v, st) ← branch_loop arg idx dmin dmax subsets ⟨⟨NULL, NULL⟩, temp_element⟩ st
  branch_finish arg v st

/-- The child that `branch` makes of `a` for the subset `s`, if any. -/
def child (a : proj_space) (s : Int) : Option proj_space :=
  match count_bits 8 s 0 with
  | .ok j =>
    if Int.lor (branch_idx a) (~~~s) = -1 ∧
        j ≤ a.k + 4 - (a.A 0 + a.A 1 + a.A 2 + a.A 3 + a.A 4) ∧
        j ≥ a.k + 3 - (a.A 0 + a.A 1 + a.A 2 + a.A 3 + a.A 4) then
      if ordered (bump a.A s) then
        some ⟨NULL, a.k + 1, bump a.A s, new_minA a (bump a.A s)⟩
      else none
    else none
  | .error _ => none

/-- The children of `a` in the order `branch` links them. -/
def branch_children (a : proj_space) : List proj_space := subsets.filterMap (child a)

/-- A stand-in for `branch` with prescribed children: it builds the list
of `children x` the way `branch` does (one `malloc` per node, linked in
order) and updates the statistics when there is none. -/
def stub_loop : List proj_space → BranchVars → State → Res (BranchVars × State)
  | [], v, st => .ok (v, st)
  | c :: rest, v, st => do
    let st ← st.set_item v.temp_element (fun _ => { c with link := NULL })
    let (v, st) ← append_element v st
    stub_loop rest v st

def branch_stub (children : proj_space → List proj_space) (arg : Ptr) (st : State) :
    Res (list_ends × State) := do
  let (temp_element, st) := st.malloc_item junk_item
  if temp_element = NULL then
    throw (.abort ENOMEM .pool_out_of_memory)
  let a ← st.item arg
  let (v, st) ← stub_loop (children a.payload) ⟨⟨NULL, NULL⟩, temp_element⟩ st
  branch_finish arg v st

/-! ## The worker routine (proj_game.c lines 198-255) -/

/-- Lines 235-239: the item from the queue becomes the whole backlog. -/
def engine_start (engine arg : Ptr) (s : State) : Res (Ptr × State) := do
  let s := s.emit (.lock (.my_list_mutex engine))
  let s ← s.set_engine engine (fun e => { e with list_first := arg })
  let s ← s.set_engine engine (fun e => { e with list_last := arg })
  let e ← s.engine engine
  let temp := e.list_first
  let s := s.emit (.unlock (.my_list_mutex engine))
  pure (temp, s)

/-- Lines 242-253: append the new list, drop the explored head. -/
def engine_advance (engine : Ptr) (new_list : list_ends) (s : State) : Res (Ptr × State) := do
  let s := s.emit (.lock (.my_list_mutex engine))
  let s ←
    if new_list.first ≠ NULL then do
      let e ← s.engine engine
      let s ← s.set_item e.list_last (fun l => { l with link := new_list.first })
      s.set_engine engine (fun e => { e with list_last := new_list.last })
    else pure s
  let e ← s.engine engine
  let first ← s.item e.list_first
  let temp := first.link
  let e ← s.engine engine
  let s ← s.free_item e.list_first
  let s ← s.set_engine engine (fun e => { e with list_first := temp })
  let s := s.emit (.unlock (.my_list_mutex engine))
  pure (temp, s)

/-- Lines 240-254: the loop `while (temp)`, for an expansion function
`br` in the place of `branch`.  Each call of `br` is recorded with the
payload of its argument. -/
def engine_loop (br : Ptr → State → Res (list_ends × State)) (engine : Ptr) :
    Nat → Ptr → State → Res State
  | 0, _, _ => .error .out_of_fuel
  | fuel + 1, temp, s =>
    if temp = NULL then .ok s
    else do
      let x ← s.item temp
      let s := s.emit (.branch x.payload)
      let (new_list, s) ← br temp s
      let (temp, s) ← engine_advance engine new_list s
      engine_loop br engine fuel temp s

/-- proj_game.c lines 198-255, for an expansion function `br` in the
place of `branch`. -/
def engine_routine_with (br : Ptr → State → Res (list_ends × State)) (t : Thread) (fuel : Nat)
    (arg : Ptr) (s : State) : Res State := do
  let (engine, s) ← engine_lookup t s
  let (temp, s) ← engine_start engine arg s
  engine_loop br engine fuel temp s

/-- proj_game.c lines 198-255. -/
def engine_routine (t : Thread) (fuel : Nat) (arg : Ptr) (s : State) : Res State :=
  engine_routine_with branch t fuel arg s

/-! ## The control loop (proj_game.c lines 262-319) -/

/-- A call of `workq_add (&workq, data)`. -/
def State.workq_add (ops : WorkqOps) (s : State) (data : Ptr) : Int × State :=
  let r := ops.workq_add s.workq data
  (r.1, { s with workq := r.2, trace := s.trace ++ [.workq_add data] })

/-- A call of `workq_load_unload (&workq)`. -/
def State.workq_load_unload (ops : WorkqOps) (s : State) : Int × State :=
  let r := ops.workq_load_unload s
  (r.1, { r.2 with trace := s.trace ++ [.workq_load_unload r.1] })

/-- The first space (lines 270-275). -/
def seed : proj_space := ⟨NULL, 2, fun _ => 1, fun _ j => if j = 0 then 1 else 2⟩

/-- Lines 269-285: seed the queue, wait, take the first snapshot of the
registry.  Returns `current_head`. -/
def control_init (ops : WorkqOps) (s : State) : Res (Ptr × State) := do
  let (element, s) := s.malloc_item junk_item
  let s ← s.set_item element (fun e => { e with link := NULL })
  let s ← s.set_item element (fun e => { e with A := seed.A, minA := seed.minA })
  let s ← s.set_item element (fun e => { e with k := 2 })
  let s := { s with max_k := 2 }
  let (status, s) := s.workq_add ops element
  if status ≠ 0 then
    throw (.abort status .add_to_work_queue)
  let s := s.emit (.sleep 1)
  let s := s.emit (.lock .engine_list_mutex)
  let current_head := s.engine_list_head
  let s := s.emit (.unlock .engine_list_mutex)
  pure (current_head, s)

/-- Lines 297-304: move everything behind the head of the backlog of
`current_engine` to the work queue. -/
def detach_loop (ops : WorkqOps) (current_engine : Ptr) : Nat → State → Res State
  | 0, _ => .error .out_of_fuel
  | fuel + 1, s => do
    let e ← s.engine current_engine
    let first ← s.item e.list_first
    if first.link ≠ NULL then
      let temp_element := first.link
      let t ← s.item temp_element
      let s ← s.set_item e.list_first (fun f => { f with link := t.link })
      let s ← s.set_item temp_element (fun t => { t with link := NULL })
      let (status, s) := s.workq_add ops temp_element
      if status ≠ 0 then
        throw (.abort status .add_to_work_queue)
      detach_loop ops current_engine fuel s
    else
      pure s

/-- Lines 292-310: the traversal of the registry from `current_engine`. -/
def redistribute (ops : WorkqOps) : Nat → Ptr → State → Res State
  | 0, _, _ => .error .out_of_fuel
  | fuel + 1, current_engine, s =>
    if current_engine = NULL then .ok s
    else do
      let _ ← s.engine current_engine
      let s := s.emit (.lock (.my_list_mutex current_engine))
      let e ← s.engine current_engine
      let s ← if e.list_first ≠ NULL then detach_loop ops current_engine fuel s else pure s
      let s ← s.set_engine current_engine (fun e => { e with list_last := e.list_first })
      let e ← s.engine current_engine
      let temp_engine := e.next
      let s := s.emit (.unlock (.my_list_mutex current_engine))
      redistribute ops fuel temp_engine s

/-- Lines 289-311: Scan and Redistribute.  Returns `current_head`. -/
def control_scan (ops : WorkqOps) (fuel : Nat) (s : State) : Res (Ptr × State) := do
  let s := s.emit (.lock .engine_list_mutex)
  let current_head := s.engine_list_head
  let current_engine := current_head
  let s ← redistribute ops fuel current_engine s
  let s := s.emit (.unlock .engine_list_mutex)
  pure (current_head, s)

/-- Lines 312-316: PersistenceCheck. -/
def control_persist (ops : WorkqOps) (s : State) : Res State :=
  let (status, s) := s.workq_load_unload ops
  if status = NOCHANGE then
    .ok (s.emit (.sleep CTRL_THREAD_WAIT_TIME))
  else if status ≠ 0 then
    .error (.abort status .file_dump)
  else
    .ok s

/-- Lines 289-316: the body of the loop `while (current_head != NULL)`. -/
def control_iteration (ops : WorkqOps) (fuel : Nat) (s : State) : Res (Ptr × State) := do
  let (current_head, s) ← control_scan ops fuel s
  let s ← control_persist ops s
  pure (current_head, s)

/-- One step of the control thread at the test of its loop (line 288):
`none` when the loop is left and the routine returns, otherwise the
configuration at the next test. -/
def control_step (ops : WorkqOps) (fuel : Nat) (c : Ptr × State) : Res (Option (Ptr × State)) :=
  if c.1 ≠ NULL then (control_iteration ops fuel c.2).map some else .ok none

/-- Lines 288-318: the loop, when no other thread runs in between. -/
def control_loop (ops : WorkqOps) : Nat → Ptr × State → Res State
  | 0, _ => .error .out_of_fuel
  | fuel + 1, c =>
    match control_step ops fuel c with
    | .ok none => .ok c.2
    | .ok (some c) => control_loop ops fuel c
    | .error e => .error e

/-- proj_game.c lines 262-319, when no other thread runs in between. -/
def control_thread_routine (ops : WorkqOps) (fuel : Nat) (s : State) : Res State := do
  let c ← control_init ops s
  control_loop ops fuel c

end ProjGame

namespace ProjGame

/-! ## Concrete states used to exercise the definitions -/

/-- A valid, empty work queue. -/
def empty_workq : workq_t := ⟨[], 0, 0, WORKQ_VALID, 0, NO_OF_THREADS, 0, 0⟩

/-- The state of the process before `control_thread_routine` starts. -/
def initial_state : State :=
  ⟨fun _ => none, fun _ => none, 0, fun _ => NULL, NULL, 0, empty_workq, ⟨[], 0⟩, []⟩

/-- The initial state with one live item `r` at address 1. -/
def one_item_state (r : proj_space) : State :=
  { initial_state with items := upd initial_state.items 1 (some r), brk := 1 }

end ProjGame

namespace ProjGame

/-! ## Well-formed lists in the heap -/

/-- Following `next` from `p` visits exactly the cells `L`, in this
order, and then reaches `NULL`. -/
def chain (next : Ptr → Option Ptr) : Ptr → List Ptr → Prop
  | p, [] => p = NULL
  | p, x :: rest =>
    p = x ∧ x ≠ NULL ∧
      match next x with
      | some n => chain next n rest
      | none => False

instance chain_decidable (next : Ptr → Option Ptr) :
    (p : Ptr) → (L : List Ptr) → Decidable (chain next p L)
  | p, [] => inferInstanceAs (Decidable (p = NULL))
  | p, x :: rest =>
    match h : next x with
    | some n =>
      have := chain_decidable next n rest
      decidable_of_iff (p = x ∧ x ≠ NULL ∧ chain next n rest) (by simp [chain, h])
    | none => isFalse (by simp [chain, h])

/-- The `link` member as a partial map on addresses. -/
def link_of (items : Ptr → Option proj_space) : Ptr → Option Ptr :=
  fun p => (items p).map (fun r => r.link)

/-- The `next` member as a partial map on addresses. -/
def next_of (engines : Ptr → Option engine_t) : Ptr → Option Ptr :=
  fun p => (engines p).map (fun e => e.next)

/-- The items `L` are the backlog that starts at `first`: a finite,
NULL-terminated list linked by `link`. -/
def backlog (items : Ptr → Option proj_space) (first : Ptr) (L : List Ptr) : Prop :=
  chain (link_of items) first L

instance (items : Ptr → Option proj_space) (first : Ptr) (L : List Ptr) :
    Decidable (backlog items first L) := by
  unfold backlog; infer_instance

/-- The engines `L` are the registry as seen from `p`: a doubly linked,
NULL-terminated list whose first element has `prev = before`. -/
def registry_from (engines : Ptr → Option engine_t) : Ptr → Ptr → List Ptr → Prop
  | _, p, [] => p = NULL
  | before, p, e :: rest =>
    p = e ∧ e ≠ NULL ∧
      match engines e with
      | some v => v.prev = before ∧ registry_from engines e v.next rest
      | none => False

instance registry_from_decidable (engines : Ptr → Option engine_t) :
    (before p : Ptr) → (L : List Ptr) → Decidable (registry_from engines before p L)
  | _, p, [] => inferInstanceAs (Decidable (p = NULL))
  | before, p, e :: rest =>
    match h : engines e with
    | some v =>
      have := registry_from_decidable engines e v.next rest
      decidable_of_iff (p = e ∧ e ≠ NULL ∧ v.prev = before ∧ registry_from engines e v.next rest)
        (by simp [registry_from, h])
    | none => isFalse (by simp [registry_from, h])

/-- The registry of the state is the well-formed list `L`. -/
def registry (s : State) (L : List Ptr) : Prop :=
  registry_from s.engines NULL s.engine_list_head L

instance (s : State) (L : List Ptr) : Decidable (registry s L) := by
  unfold registry; infer_instance

/-- Every address above the allocation frontier is dead. -/
def heap_ok (s : State) : Prop :=
  ∀ q, s.brk < q → s.items q = none ∧ s.engines q = none

end ProjGame

namespace ProjGame

/-! ## Closed forms of the effect of Redistribute -/

/-- The heap after the `link` of every item of `xs` is set to `NULL`. -/
def unlink_all (items : Ptr → Option proj_space) (xs : List Ptr) : Ptr → Option proj_space :=
  fun q => if q ∈ xs then (items q).map (fun r => { r with link := NULL }) else items q

/-- The heap after `list_last = list_first` in every engine of `L`. -/
def settle_all (engines : Ptr → Option engine_t) (L : List Ptr) : Ptr → Option engine_t :=
  fun q => if q ∈ L then (engines q).map (fun v => { v with list_last := v.list_first })
    else engines q

/-- The queue after `workq_add` of the items `xs`, in this order. -/
def add_all (ops : WorkqOps) (w : workq_t) (xs : List Ptr) : workq_t :=
  xs.foldl (fun w p => (ops.workq_add w p).2) w

/-- The calls Redistribute makes for an engine whose backlog is `b`. -/
def redistribute_events (engine : Ptr) (b : List Ptr) : List Event :=
  Event.lock (.my_list_mutex engine) :: b.tail.map Event.workq_add ++
    [Event.unlock (.my_list_mutex engine)]

end ProjGame

namespace ProjGame

/-- The item handed over by a `workq_add` call. -/
def Event.added : Event → Option Ptr
  | .workq_add p => some p
  | _ => none

/-- The record passed to `branch` by a call recorded in the trace. -/
def Event.branched : Event → Option proj_space
  | .branch x => some x
  | _ => none

end ProjGame

namespace ProjGame

/-- A sample of the queue operations for the examples: `workq_add`
appends to the queue and reports success, `workq_load_unload` reports
that nothing changed. -/
def sample_ops : WorkqOps where
  workq_add := fun w p =>
    (0, { w with queue := w.queue ++ [p], queue_length := w.queue_length + 1 })
  workq_load_unload := fun s => (NOCHANGE, s)

/-- A state with two registered engines: engine 10 (the head) has the
backlog 1, 2, 3 and engine 11 has the backlog 4. -/
def two_engines_state : State :=
  { initial_state with
    items := fun p =>
      if p = 1 then some { seed with link := 2 }
      else if p = 2 then some { seed with link := 3 }
      else if p = 3 then some seed
      else if p = 4 then some seed
      else none
    engines := fun p =>
      if p = 10 then some ⟨NULL, 11, 1, 1, 3⟩
      else if p = 11 then some ⟨10, NULL, 2, 4, 4⟩
      else none
    brk := 11
    engine_key := fun t => if t = 1 then 10 else if t = 2 then 11 else NULL
    engine_list_head := 10 }

/-- The backlogs of `two_engines_state`. -/
def two_engines_backlog (e : Ptr) : List Ptr :=
  if e = 10 then [1, 2, 3] else if e = 11 then [4] else []

end ProjGame

namespace ProjGame

/-- A thread that has not run `engine_routine` yet; the library calls
it makes succeed. -/
def new_thread : Thread := ⟨3, ⟨5, 5, 5, 5, 5⟩, 0, 0⟩

end ProjGame

namespace ProjGame

/-- The calls that the traversal of the registry can make. -/
def Event.by_redistribute : Event → Bool
  | .lock _ => true
  | .unlock _ => true
  | .workq_add _ => true
  | _ => false

/-- Nothing is left to do anywhere: every live Engine Context has an
empty backlog, the shared queue is empty and the spill file holds no
whole record at its cursor. -/
def quiescent (s : State) : Prop :=
  (∀ e v, s.engines e = some v → v.list_first = NULL) ∧ s.workq.queue = [] ∧
    s.spill.data.length - s.spill.pos < sizeof_proj_space

/-- Two registered engines whose backlogs are empty, an empty queue and
an empty spill file. -/
def idle_engines_state : State :=
  { initial_state with
    engines := fun p =>
      if p = 10 then some ⟨NULL, 11, 1, NULL, NULL⟩
      else if p = 11 then some ⟨10, NULL, 2, NULL, NULL⟩
      else none
    brk := 11
    engine_key := fun t => if t = 1 then 10 else if t = 2 then 11 else NULL
    engine_list_head := 10 }

end ProjGame

namespace ProjGame

/-- The state `two_engines_state` after one Scan and Redistribute. -/
def scanned_state : State :=
  match control_scan sample_ops 10 two_engines_state with
  | .ok c => c.2
  | .error _ => two_engines_state

/-- The state in which `control_thread_routine` first tests its loop
condition when no worker has registered during the initial `sleep (1)`. -/
def seeded_state : State :=
  match control_init sample_ops initial_state with
  | .ok c => c.2
  | .error _ => initial_state

end ProjGame

namespace ProjGame

/-! ## Vocabulary for the worker loop -/

/-- The payload of the record at `p`, if `p` is live. -/
def payload_at (items : Ptr → Option proj_space) (p : Ptr) : Option proj_space :=
  (items p).map proj_space.payload

/-- The items at depth `n` below the items `q`, from left to right. -/
def level (children : proj_space → List proj_space) : Nat → List proj_space → List proj_space
  | 0, q => q
  | n + 1, q => level children n (q.flatMap children)

/-- The items at depth less than `n` below the items `q`, level by
level: every node of the expansion trees rooted at `q`, once, when
`level children n q` is empty. -/
def levels (children : proj_space → List proj_space) : Nat → List proj_space → List proj_space
  | 0, _ => []
  | n + 1, q => q ++ levels children n (q.flatMap children)

/-- The expansion function `br` produces, for an item with payload `x`,
a fresh well-formed list of items whose payloads are `children x`, and
touches nothing else that the worker loop relies on. -/
def expands (br : Ptr → State → Res (list_ends × State))
    (children : proj_space → List proj_space) : Prop :=
  ∀ (s : State) (arg : Ptr) (x : proj_space), heap_ok s → s.items arg = some x →
    ∃ ends s2 cs, br arg s = .ok (ends, s2) ∧ heap_ok s2 ∧
      backlog s2.items ends.first cs ∧
      (cs ≠ [] → cs.getLast? = some ends.last) ∧
      cs.map (payload_at s2.items) = (children x.payload).map some ∧
      (∀ c ∈ cs, s.items c = none) ∧
      (∀ q, q ∉ cs → s2.items q = s.items q) ∧
      s2.engines = s.engines ∧
      s2.engine_key = s.engine_key ∧
      s2.trace.filterMap Event.branched = s.trace.filterMap Event.branched

/-- What holds between two iterations of the loop that builds the list
of children, started in `s0`: the cells `cs`, all allocated since `s0`,
form the list built so far and carry the payloads `ys`; `temp_element`
is a further new cell; nothing else has changed. -/
def build_inv (s0 st : State) (v : BranchVars) (cs : List Ptr) (ys : List proj_space) : Prop :=
  heap_ok st ∧ s0.brk < v.temp_element ∧ (∃ t, st.items v.temp_element = some t) ∧
    backlog st.items v.stack_ends.first cs ∧
    (cs ≠ [] → cs.getLast? = some v.stack_ends.last) ∧
    cs.map (payload_at st.items) = ys.map some ∧
    (∀ c ∈ cs, s0.brk < c ∧ c ≠ v.temp_element) ∧
    (∀ q, q ≤ s0.brk → st.items q = s0.items q) ∧
    (∀ q, s0.brk < q → q ∉ cs → q ≠ v.temp_element → st.items q = none) ∧
    { st with items := s0.items, brk := s0.brk } = s0

/-- What holds between two iterations of the worker loop of engine `e`:
its backlog is the list of cells `ps`, which carry the payloads `q`. -/
def worker_inv (s : State) (e : Ptr) (ps : List Ptr) (q : List proj_space) : Prop :=
  heap_ok s ∧ ∃ v, s.engines e = some v ∧ backlog s.items v.list_first ps ∧
    (ps ≠ [] → ps.getLast? = some v.list_last) ∧
    ps.map (payload_at s.items) = q.map some

/-- Scenario B: two children one level deeper for depth below 3, none
from depth 3 on. -/
def two_children (x : proj_space) : List proj_space :=
  if x.k < 3 then [{ x with link := NULL, k := x.k + 1 }, { x with link := NULL, k := x.k + 1 }]
  else []

/-- The seed of Scenario B: an item at depth 0. -/
def seed_b : proj_space := { seed with k := 0 }

end ProjGame

namespace ProjGame

/-! ## Vocabulary for the statistics -/

/-- The items of the expansion tree of `root`: `root` itself and the
children of the items of the tree. -/
inductive reachable (children : proj_space → List proj_space) (root : proj_space) :
    proj_space → Prop where
  | root : reachable children root root
  | child {x c : proj_space} : reachable children root x → c ∈ children x →
      reachable children root c

/-- An item of depth 10 that `branch` cannot expand: no subset of the
five indices is large enough. -/
def terminal_item : proj_space := { seed with k := 10 }

end ProjGame

namespace ProjGame

/-! ## Vocabulary for the exit test of the control loop -/

/-- The test of the loop condition in configuration `b` follows the one
in configuration `a`: an iteration started in `a` has read the head of
the registry under the registry lock, completed Redistribute and the
PersistenceCheck, and `b` holds the head it read and the state it left. -/
def control_next (ops : WorkqOps) (a b : Ptr × State) : Prop :=
  ∃ fuel s0, control_scan ops fuel a.2 = .ok (b.1, s0) ∧ b.1 = a.2.engine_list_head ∧
    control_persist ops s0 = .ok b.2

/-- Queue operations for an example in which the workers leave while the
control thread is inside `workq_load_unload`: during the call the
destructors of the engines 11 and 10 run (status 0); when they cannot run
because the engines are gone, the call reports that nothing changed. -/
def leaving_ops : WorkqOps where
  workq_add := sample_ops.workq_add
  workq_load_unload := fun s =>
    match destructor 11 s >>= destructor 10 with
    | .ok s2 => (0, s2)
    | .error _ => (NOCHANGE, s)

/-- The state in which `control_thread_routine` returns when it is
started in `two_engines_state` with the queue operations `leaving_ops`. -/
def left_state : State :=
  match control_thread_routine leaving_ops 10 two_engines_state with
  | .ok s => s
  | .error _ => two_engines_state

/-! ## One iteration of the worker loop -/

/-- Lines 241-253: the body of the loop `while (temp)`, for an expansion
function `br` in the place of `branch`.  Returns the new `temp`. -/
def engine_iteration (br : Ptr → State → Res (list_ends × State)) (engine temp : Ptr)
    (s : State) : Res (Ptr × State) := do
  let x ← s.item temp
  let s := s.emit (.branch x.payload)
  let (new_list, s) ← br temp s
  engine_advance engine new_list s

/-! ## Subsets of the five indices

The vocabulary in which the children of `branch` are described: a subset
`S` of the indices 0..4, its bitmask, the flagged indices `F`, the weights
raised on `S`, and the subsets for which there is a child. -/

/-- The subset of the indices 0..4 whose bitmask is `s`. -/
def subset_of_mask (s : Nat) : Finset (Fin 5) := Finset.univ.filter (fun i => s.testBit i.val)

/-- The bitmask of a subset: the sum of `2 ^ i` over its members. -/
def mask_of (S : Finset (Fin 5)) : Nat := S.sum (fun i => 2 ^ i.val)

/-- All subsets of the indices 0..4, in increasing order of bitmask. -/
def all_subsets : List (Finset (Fin 5)) := (List.range 32).map subset_of_mask

/-- The indices that may be increased:
`F = { i : A[i] * minA[i][1] < minA[i][0] * (k + 1) }`. -/
def flagged (a : proj_space) : Finset (Fin 5) :=
  Finset.univ.filter (fun i => a.A i * a.minA i 1 < a.minA i 0 * (a.k + 1))

/-- The weights `A'`: `A[i] + 1` for `i` in `S`, `A[i]` otherwise. -/
def raised (A : Fin 5 → Int) (S : Finset (Fin 5)) : Fin 5 → Int :=
  fun i => if i ∈ S then A i + 1 else A i

/-- The sum `h = A[0] + A[1] + A[2] + A[3] + A[4]`. -/
def weight_sum (A : Fin 5 → Int) : Int := A 0 + A 1 + A 2 + A 3 + A 4

/-- The subsets for which an item has a child: `S` is a subset of `F`,
`dmin <= |S| <= dmax`, and the raised weights are non-decreasing. -/
def admissible (a : proj_space) (S : Finset (Fin 5)) : Prop :=
  S ⊆ flagged a ∧ a.k + 3 - weight_sum a.A ≤ (S.card : Int) ∧
    (S.card : Int) ≤ a.k + 4 - weight_sum a.A ∧ ordered (raised a.A S)

instance (a : proj_space) (S : Finset (Fin 5)) : Decidable (admissible a S) := by
  unfold admissible; infer_instance

/-- The child of `a` for the subset `S`: the raised weights, depth
`k + 1`, the fractions of lines 124-128, no successor. -/
def child_for (a : proj_space) (S : Finset (Fin 5)) : proj_space :=
  ⟨NULL, a.k + 1, raised a.A S, new_minA a (raised a.A S)⟩

/-- The value of `idx` (lines 97-100) for given flags. -/
def idx_of_flags (b0 b1 b2 b3 b4 : Bool) : Int :=
  (cond b0 1 0) + (cond b1 2 0) + (cond b2 4 0) + (cond b3 8 0) + (cond b4 16 0)

/-- The subset with bitmask `n` lies within the flagged indices. -/
def within_flags (n : Nat) (b0 b1 b2 b3 b4 : Bool) : Bool :=
  (!n.testBit 0 || b0) && (!n.testBit 1 || b1) && (!n.testBit 2 || b2) &&
    (!n.testBit 3 || b3) && (!n.testBit 4 || b4)

/-- An item with the largest possible number of children: every index is
flagged, the weights stay in order whatever is raised, and `dmin = 2`. -/
def wide_item : proj_space :=
  ⟨NULL, 24, fun i => 2 * (i.val : Int) + 1, fun _ _ => 1⟩

/-! ## The mutexes a thread holds -/

/-- The mutexes a thread holds after it has made the calls `evs`, when
it held `held` before (the most recently taken first). -/
def held_after (held : List Mutex) : List Event → List Mutex
  | [] => held
  | .lock m :: evs => held_after (m :: held) evs
  | .unlock m :: evs => held_after (held.erase m) evs
  | _ :: evs => held_after held evs

/-- The calls `evs`, each with the mutexes the thread holds when it makes
the call. -/
def calls_with_held (held : List Mutex) : List Event → List (List Mutex × Event)
  | [] => []
  | ev :: evs => (held, ev) :: calls_with_held (held_after held [ev]) evs

/-- The mutex is the private lock of an Engine Context. -/
def Mutex.is_context : Mutex → Bool
  | .my_list_mutex _ => true
  | _ => false

/-- What holds at every call of Redistribute: the registry lock is held
and is neither taken nor released; a context lock is taken only when no
other context lock is held; a `workq_add` is made for an item behind the
head of the backlog of an engine while exactly the lock of this engine
and the registry lock are held. -/
def disciplined (L : List Ptr) (B : Ptr → List Ptr) (c : List Mutex × Event) : Prop :=
  Mutex.engine_list_mutex ∈ c.1 ∧ c.2 ≠ Event.lock .engine_list_mutex ∧
    c.2 ≠ Event.unlock .engine_list_mutex ∧
    (c.1.filter Mutex.is_context).length ≤ 1 ∧
    (∀ e, c.2 = Event.lock (.my_list_mutex e) → c.1 = [.engine_list_mutex]) ∧
    (∀ p, c.2 = Event.workq_add p →
      ∃ e ∈ L, p ∈ (B e).tail ∧ c.1 = [.my_list_mutex e, .engine_list_mutex])

/-! ## Examples for the report of a new best and for registration -/

/-- The members of a record as plain data: `link`, `k` and the 15 longs
in memory order. -/
def proj_space.key (r : proj_space) : Ptr × Int × List Int := (r.link, r.k, r.longs)

/-- The items `trail` are reached one from the other, starting from `x`,
each as the child for the subset with the given bitmask. -/
def trail_ok : proj_space → List (Int × proj_space) → Bool
  | _, [] => true
  | x, (s, y) :: rest =>
    decide (s ∈ subsets) && decide ((child x s).map proj_space.key = some y.key) &&
      trail_ok y rest

/-- An item without children in the expansion tree of the first space:
depth 11, weights (2, 2, 3, 3, 3). -/
def reached_terminal : proj_space :=
  ⟨NULL, 11, ![2, 2, 3, 3, 3], ![![1, 7], ![1, 6], ![2, 10], ![2, 9], ![2, 8]]⟩

/-- The way from the first space to `reached_terminal`: bitmasks and the
items they lead to. -/
def reached_terminal_trail : List (Int × proj_space) :=
  [(0, ⟨NULL, 3, ![1, 1, 1, 1, 1], ![![1, 3], ![1, 3], ![1, 3], ![1, 3], ![1, 3]]⟩),
    (16, ⟨NULL, 4, ![1, 1, 1, 1, 2], ![![1, 4], ![1, 4], ![1, 4], ![1, 4], ![1, 3]]⟩),
    (8, ⟨NULL, 5, ![1, 1, 1, 2, 2], ![![1, 5], ![1, 5], ![1, 5], ![1, 4], ![1, 3]]⟩),
    (4, ⟨NULL, 6, ![1, 1, 2, 2, 2], ![![1, 6], ![1, 6], ![1, 5], ![1, 4], ![2, 6]]⟩),
    (2, ⟨NULL, 7, ![1, 2, 2, 2, 2], ![![1, 7], ![1, 6], ![1, 5], ![1, 4], ![2, 7]]⟩),
    (1, ⟨NULL, 8, ![2, 2, 2, 2, 2], ![![1, 7], ![1, 6], ![1, 5], ![2, 8], ![2, 8]]⟩),
    (16, ⟨NULL, 9, ![2, 2, 2, 2, 3], ![![1, 7], ![1, 6], ![1, 5], ![2, 9], ![2, 8]]⟩),
    (8, ⟨NULL, 10, ![2, 2, 2, 3, 3], ![![1, 7], ![1, 6], ![2, 10], ![2, 9], ![2, 8]]⟩),
    (4, reached_terminal)]

/-- The state in which `reached_terminal` is alone in the heap, at
address 1, and the best so far is 2. -/
def reached_terminal_state : State := { one_item_state reached_terminal with max_k := 2 }

/-- The state right after a third thread has registered its context
(lines 206-234) in `two_engines_state`: it has released the lock of the
context and has not yet reached line 235. -/
def registered_state : State :=
  match engine_lookup new_thread two_engines_state with
  | .ok c => c.2
  | .error _ => two_engines_state

end ProjGame

namespace ProjGame

/-! ## The control thread over an abstract `workq_add`

The functions of lines 262-319 once more, with the two calls of
`workq_add` (lines 277 and 301) made through a parameter `add` that
receives the whole state at the moment of the call, and with the content
`junk` of the object that `malloc` returns at line 269 as a parameter.
With `real_add` for `add` and `junk_item` for `junk` they are the
functions above. -/

/-- The call `workq_add (&workq, data)` as a function of the state at the
moment of the call. -/
def real_add (ops : WorkqOps) : State → Ptr → Res (Int × State) :=
  fun s data => .ok (s.workq_add ops data)

/-- Lines 269-285 over an abstract `workq_add`. -/
def control_init_with (add : State → Ptr → Res (Int × State)) (junk : proj_space) (s : State) :
    Res (Ptr × State) := do
  let (element, s) := s.malloc_item junk
  let s ← s.set_item element (fun e => { e with link := NULL })
  let s ← s.set_item element (fun e => { e with A := seed.A, minA := seed.minA })
  let s ← s.set_item element (fun e => { e with k := 2 })
  let s := { s with max_k := 2 }
  let (status, s) ← add s element
  if status ≠ 0 then
    throw (.abort status .add_to_work_queue)
  let s := s.emit (.sleep 1)
  let s := s.emit (.lock .engine_list_mutex)
  let current_head := s.engine_list_head
  let s := s.emit (.unlock .engine_list_mutex)
  pure (current_head, s)

/-- Lines 297-304 over an abstract `workq_add`. -/
def detach_loop_with (add : State → Ptr → Res (Int × State)) (current_engine : Ptr) :
    Nat → State → Res State
  | 0, _ => .error .out_of_fuel
  | fuel + 1, s => do
    let e ← s.engine current_engine
    let first ← s.item e.list_first
    if first.link ≠ NULL then
      let temp_element := first.link
      let t ← s.item temp_element
      let s ← s.set_item e.list_first (fun f => { f with link := t.link })
      let s ← s.set_item temp_element (fun t => { t with link := NULL })
      let (status, s) ← add s temp_element
      if status ≠ 0 then
        throw (.abort status .add_to_work_queue)
      detach_loop_with add current_engine fuel s
    else
      pure s

/-- Lines 292-310 over an abstract `workq_add`. -/
def redistribute_with (add : State → Ptr → Res (Int × State)) : Nat → Ptr → State → Res State
  | 0, _, _ => .error .out_of_fuel
  | fuel + 1, current_engine, s =>
    if current_engine = NULL then .ok s
    else do
      let _ ← s.engine current_engine
      let s := s.emit (.lock (.my_list_mutex current_engine))
      let e ← s.engine current_engine
      let s ← if e.list_first ≠ NULL then detach_loop_with add current_engine fuel s else pure s
      let s ← s.set_engine current_engine (fun e => { e with list_last := e.list_first })
      let e ← s.engine current_engine
      let temp_engine := e.next
      let s := s.emit (.unlock (.my_list_mutex current_engine))
      redistribute_with add fuel temp_engine s

/-- Lines 289-311 over an abstract `workq_add`. -/
def control_scan_with (add : State → Ptr → Res (Int × State)) (fuel : Nat) (s : State) :
    Res (Ptr × State) := do
  let s := s.emit (.lock .engine_list_mutex)
  let current_head := s.engine_list_head
  let current_engine := current_head
  let s ← redistribute_with add fuel current_engine s
  let s := s.emit (.unlock .engine_list_mutex)
  pure (current_head, s)

/-- Lines 289-316 over an abstract `workq_add`. -/
def control_iteration_with (add : State → Ptr → Res (Int × State)) (ops : WorkqOps)
    (fuel : Nat) (s : State) : Res (Ptr × State) := do
  let (current_head, s) ← control_scan_with add fuel s
  let s ← control_persist ops s
  pure (current_head, s)

/-- Lines 288-318 over an abstract `workq_add`. -/
def control_loop_with (add : State → Ptr → Res (Int × State)) (ops : WorkqOps) :
    Nat → Ptr × State → Res State
  | 0, _ => .error .out_of_fuel
  | fuel + 1, c =>
    if c.1 ≠ NULL then do
      let c ← control_iteration_with add ops fuel c.2
      control_loop_with add ops fuel c
    else .ok c.2

/-- Lines 262-319 over an abstract `workq_add`. -/
def control_thread_routine_with (add : State → Ptr → Res (Int × State)) (junk : proj_space)
    (ops : WorkqOps) (fuel : Nat) (s : State) : Res State := do
  let c ← control_init_with add junk s
  control_loop_with add ops fuel c

/-- The items on which a `workq_add` is defined by what it does when the
item is live with `link = NULL` at the moment of the call: two such
functions agree when they agree on these calls. -/
def agree_on_unlinked (add1 add2 : State → Ptr → Res (Int × State)) : Prop :=
  ∀ (s : State) (data : Ptr) (r : proj_space), s.items data = some r → r.link = NULL →
    add1 s data = add2 s data

/-- A `workq_add` that refuses (with a fault) an item that is not live
with `link = NULL` at the moment of the call. -/
def asserting_add (ops : WorkqOps) : State → Ptr → Res (Int × State) :=
  fun s data =>
    match s.items data with
    | some r => if r.link = NULL then .ok (s.workq_add ops data) else .error .fault
    | none => .error .fault

/-! ## Redistribute when `workq_add` may fail -/

/-- The queue after `workq_add` of the items `xs`, in this order, or the
abort of the first call that returns a status other than 0 (lines
301-303). -/
def try_add_all (ops : WorkqOps) : workq_t → List Ptr → Res workq_t
  | w, [] => .ok w
  | w, p :: rest =>
    if (ops.workq_add w p).1 ≠ 0 then
      .error (.abort (ops.workq_add w p).1 .add_to_work_queue)
    else try_add_all ops (ops.workq_add w p).2 rest

/-- The state that a complete Scan and Redistribute leaves, on the
registry `L` with the backlogs `B`, when the queue has become `w`. -/
def after_scan (s : State) (L : List Ptr) (B : Ptr → List Ptr) (w : workq_t) : State :=
  { s with
    items := unlink_all s.items (L.flatMap B),
    engines := settle_all s.engines L,
    workq := w,
    trace := s.trace ++ [Event.lock .engine_list_mutex] ++
      (L.flatMap fun e => redistribute_events e (B e)) ++ [Event.unlock .engine_list_mutex] }

/-- Queue operations whose `workq_add` fails with status 7;
`workq_load_unload` reports that nothing changed. -/
def failing_add_ops : WorkqOps where
  workq_add := fun w _ => (7, w)
  workq_load_unload := fun s => (NOCHANGE, s)

/-- The event is a call of `workq_load_unload`. -/
def Event.is_load_unload : Event → Bool
  | .workq_load_unload _ => true
  | _ => false

/-! ## Runs of the program, step by step -/

end ProjGame

namespace ProjGame

/-! ## Basic facts about the memory primitives -/

@[simp] theorem upd_same {α : Type} (h : Ptr → Option α) (p : Ptr) (v : Option α) :
    upd h p v p = v := by simp [upd]

theorem upd_other {α : Type} (h : Ptr → Option α) (p q : Ptr) (v : Option α) (hq : q ≠ p) :
    upd h p v q = h q := by simp [upd, hq]

@[simp] theorem res_bind_ok {α β : Type} (a : α) (f : α → Res β) :
    (Except.ok a >>= f) = f a := rfl

@[simp] theorem res_bind_error {α β : Type} (e : Err) (f : α → Res β) :
    ((Except.error e : Res α) >>= f) = Except.error e := rfl

@[simp] theorem res_pure {α : Type} (a : α) : (pure a : Res α) = Except.ok a := rfl

@[simp] theorem res_throw {α : Type} (e : Err) : (throw e : Res α) = Except.error e := rfl

@[simp] theorem res_map_ok {α β : Type} (a : α) (f : α → β) :
    (f <$> (Except.ok a : Res α)) = Except.ok (f a) := rfl

theorem item_of_some {s : State} {p : Ptr} {v : proj_space} (h : s.items p = some v) :
    s.item p = .ok v := by simp [State.item, h]

theorem engine_of_some {s : State} {p : Ptr} {v : engine_t} (h : s.engines p = some v) :
    s.engine p = .ok v := by simp [State.engine, h]

theorem set_item_of_some {s : State} {p : Ptr} {v : proj_space} (h : s.items p = some v)
    (f : proj_space → proj_space) :
    s.set_item p f = .ok { s with items := upd s.items p (some (f v)) } := by
  simp [State.set_item, h]

theorem set_engine_of_some {s : State} {p : Ptr} {v : engine_t} (h : s.engines p = some v)
    (f : engine_t → engine_t) :
    s.set_engine p f = .ok { s with engines := upd s.engines p (some (f v)) } := by
  simp [State.set_engine, h]

theorem free_item_of_some {s : State} {p : Ptr} {v : proj_space} (h : s.items p = some v) :
    s.free_item p = .ok { s with items := upd s.items p none } := by
  simp [State.free_item, h]

theorem free_engine_of_some {s : State} {p : Ptr} {v : engine_t} (h : s.engines p = some v) :
    s.free_engine p = .ok { s with engines := upd s.engines p none } := by
  simp [State.free_engine, h]

end ProjGame

namespace ProjGame

/-! ## The record codec -/

theorem le_bytes_length (n x : Nat) : (le_bytes n x).length = n := by
  induction n generalizing x with
  | zero => rfl
  | succ n ih => simp [le_bytes, ih]

theorem le_value_le_bytes (n x : Nat) : le_value (le_bytes n x) = x % 256 ^ n := by
  induction n generalizing x with
  | zero => simp [le_bytes, le_value, Nat.mod_one]
  | succ n ih =>
    simp only [le_bytes, le_value, ih]
    rw [pow_succ, Nat.mul_comm (256 ^ n) 256, Nat.mod_mul, Nat.add_comm]

theorem to_signed_to_unsigned (w : Nat) (x : Int) (hw : 0 < w)
    (h1 : -(2 : Int) ^ (w - 1) ≤ x) (h2 : x < (2 : Int) ^ (w - 1)) :
    to_signed w (to_unsigned w x % 2 ^ w) = x := by
  obtain ⟨v, rfl⟩ : ∃ v, w = v + 1 := ⟨w - 1, by omega⟩
  simp only [Nat.add_sub_cancel] at h1 h2
  have hp : (2 : Int) ^ (v + 1) = 2 * 2 ^ v := by rw [pow_succ]; ring
  have hpos : (0 : Int) < 2 ^ v := by positivity
  have hnn : (0 : Int) ≤ x % 2 ^ (v + 1) := Int.emod_nonneg _ (by positivity)
  have hlt : x % 2 ^ (v + 1) < 2 ^ (v + 1) := Int.emod_lt_of_pos _ (by positivity)
  have hu : ((to_unsigned (v + 1) x : Nat) : Int) = x % 2 ^ (v + 1) := by
    unfold to_unsigned; exact Int.toNat_of_nonneg hnn
  have hmod : to_unsigned (v + 1) x % 2 ^ (v + 1) = to_unsigned (v + 1) x := by
    apply Nat.mod_eq_of_lt
    have : ((to_unsigned (v + 1) x : Nat) : Int) < ((2 ^ (v + 1) : Nat) : Int) := by
      rw [hu]; push_cast; exact hlt
    exact_mod_cast this
  rw [hmod]
  unfold to_signed
  simp only [Nat.add_sub_cancel]
  by_cases hx : 0 ≤ x
  · have hxm : x % 2 ^ (v + 1) = x := Int.emod_eq_of_lt hx (by rw [hp]; omega)
    have : to_unsigned (v + 1) x < 2 ^ v := by
      have : ((to_unsigned (v + 1) x : Nat) : Int) < ((2 ^ v : Nat) : Int) := by
        rw [hu, hxm]; push_cast; exact h2
      exact_mod_cast this
    rw [if_pos this, hu, hxm]
  · have hxm : x % 2 ^ (v + 1) = x + 2 ^ (v + 1) := by
      have : (x + 2 ^ (v + 1)) % 2 ^ (v + 1) = x % 2 ^ (v + 1) := by simp
      rw [← this]
      exact Int.emod_eq_of_lt (by rw [hp]; omega) (by omega)
    have : ¬ to_unsigned (v + 1) x < 2 ^ v := by
      intro hc
      have : ((to_unsigned (v + 1) x : Nat) : Int) < ((2 ^ v : Nat) : Int) := by exact_mod_cast hc
      rw [hu, hxm, hp] at this; push_cast at this; omega
    rw [if_neg this, hu, hxm]; ring

theorem word_at_chunk (pre post : List Nat) (n x off : Nat) (h : pre.length = off) :
    word_at (pre ++ (le_bytes n x ++ post)) off n = x % 256 ^ n := by
  subst h
  unfold word_at
  rw [List.drop_left, List.take_left' (le_bytes_length n x), le_value_le_bytes]

theorem finRange5 : List.finRange 5 = [0, 1, 2, 3, 4] := by decide
theorem finRange2 : List.finRange 2 = [0, 1] := by decide

theorem bytes_eq (r : proj_space) : r.bytes =
    le_bytes 8 r.link ++ (le_bytes 4 (to_unsigned 32 r.k) ++ (le_bytes 4 0 ++
    (le_bytes 8 (to_unsigned 64 (r.A 0)) ++ (le_bytes 8 (to_unsigned 64 (r.A 1)) ++
    (le_bytes 8 (to_unsigned 64 (r.A 2)) ++ (le_bytes 8 (to_unsigned 64 (r.A 3)) ++
    (le_bytes 8 (to_unsigned 64 (r.A 4)) ++
    (le_bytes 8 (to_unsigned 64 (r.minA 0 0)) ++ (le_bytes 8 (to_unsigned 64 (r.minA 0 1)) ++
    (le_bytes 8 (to_unsigned 64 (r.minA 1 0)) ++ (le_bytes 8 (to_unsigned 64 (r.minA 1 1)) ++
    (le_bytes 8 (to_unsigned 64 (r.minA 2 0)) ++ (le_bytes 8 (to_unsigned 64 (r.minA 2 1)) ++
    (le_bytes 8 (to_unsigned 64 (r.minA 3 0)) ++ (le_bytes 8 (to_unsigned 64 (r.minA 3 1)) ++
    (le_bytes 8 (to_unsigned 64 (r.minA 4 0)) ++ (le_bytes 8 (to_unsigned 64 (r.minA 4 1)) ++ []
    ))))))))))))))))) := by
  simp [proj_space.bytes, proj_space.longs, finRange5, finRange2, le_bytes]

theorem word_at_skip (m x : Nat) (rest : List Nat) (off n : Nat) (h : m ≤ off) :
    word_at (le_bytes m x ++ rest) off n = word_at rest (off - m) n := by
  unfold word_at
  rw [List.drop_append_eq_append_drop, le_bytes_length,
    List.drop_eq_nil_of_le (by rw [le_bytes_length]; exact h), List.nil_append]

theorem word_at_head (n x : Nat) (rest : List Nat) :
    word_at (le_bytes n x ++ rest) 0 n = x % 256 ^ n := by
  unfold word_at
  rw [List.drop_zero, List.take_left' (le_bytes_length n x), le_value_le_bytes]

theorem of_bytes_bytes (r : proj_space) (h : r.in_range) : proj_space.of_bytes r.bytes = r := by
  obtain ⟨hl, hk, hA, hM⟩ := h
  have p4 : (256 : Nat) ^ 4 = 2 ^ 32 := by norm_num
  have p8 : (256 : Nat) ^ 8 = 2 ^ 64 := by norm_num
  have s32 : ∀ x : Int, -(2 : Int) ^ 31 ≤ x → x < (2 : Int) ^ 31 →
      to_signed 32 (to_unsigned 32 x % 256 ^ 4) = x := by
    intro x a b
    rw [p4]
    exact to_signed_to_unsigned 32 x (by norm_num) a b
  have s64 : ∀ x : Int, -(2 : Int) ^ 63 ≤ x ∧ x < (2 : Int) ^ 63 →
      to_signed 64 (to_unsigned 64 x % 256 ^ 8) = x := by
    intro x a
    rw [p8]
    exact to_signed_to_unsigned 64 x (by norm_num) a.1 a.2
  have e1 : word_at r.bytes 0 8 = r.link := by
    rw [bytes_eq, word_at_head, p8]; exact Nat.mod_eq_of_lt hl
  have e2 : to_signed 32 (word_at r.bytes 8 4) = r.k := by
    rw [bytes_eq, word_at_skip _ _ _ _ _ (by norm_num), word_at_head]; exact s32 _ hk.1 hk.2
  have e3 : ∀ i : Fin 5, to_signed 64 (word_at r.bytes (16 + 8 * i.val) 8) = r.A i := by
    intro i
    rw [bytes_eq]
    fin_cases i <;>
      simp only [word_at_skip, word_at_head, Nat.reduceLeDiff, Nat.reduceSub, Nat.reduceAdd,
        Nat.reduceMul, Fin.val_zero, Fin.val_one, Fin.val_two, Fin.zero_eta, Fin.mk_one,
        Fin.reduceFinMk, Fin.isValue, Nat.le_refl] <;>
      exact s64 _ (hA _)
  have e4 : ∀ (i : Fin 5) (j : Fin 2),
      to_signed 64 (word_at r.bytes (56 + 16 * i.val + 8 * j.val) 8) = r.minA i j := by
    intro i j
    rw [bytes_eq]
    fin_cases i <;> fin_cases j <;>
      simp only [word_at_skip, word_at_head, Nat.reduceLeDiff, Nat.reduceSub, Nat.reduceAdd,
        Nat.reduceMul, Fin.val_zero, Fin.val_one, Fin.val_two, Fin.zero_eta, Fin.mk_one,
        Fin.reduceFinMk, Fin.isValue, Nat.le_refl] <;>
      exact s64 _ (hM _ _)
  cases r with
  | mk l k A M =>
    simp only [proj_space.of_bytes, proj_space.mk.injEq]
    exact ⟨e1, e2, funext e3, funext fun i => funext (e4 i)⟩

theorem bytes_length (r : proj_space) : r.bytes.length = sizeof_proj_space := by
  rw [bytes_eq]; simp [le_bytes_length, sizeof_proj_space]

theorem fwrite_window (bytes : List Nat) (f : FILE) :
    ((fwrite_unlocked bytes f).2.data.drop f.pos).take bytes.length = bytes := by
  have hl : (f.data.take f.pos ++ List.replicate (f.pos - f.data.length) 0).length = f.pos := by
    simp [List.length_take]; omega
  simp only [fwrite_unlocked, List.append_assoc]
  rw [← List.append_assoc, List.drop_left' hl, List.take_left' rfl]

end ProjGame

namespace ProjGame

/-! ## Linked lists in the heap -/

theorem chain_cons_iff (next : Ptr → Option Ptr) (p x : Ptr) (rest : List Ptr) :
    chain next p (x :: rest) ↔ p = x ∧ x ≠ NULL ∧ ∃ n, next x = some n ∧ chain next n rest := by
  simp only [chain]
  cases h : next x <;> simp

theorem chain_congr {next next2 : Ptr → Option Ptr} {p : Ptr} {L : List Ptr}
    (h : ∀ x ∈ L, next2 x = next x) (hc : chain next p L) : chain next2 p L := by
  induction L generalizing p with
  | nil => exact hc
  | cons x rest ih =>
    rw [chain_cons_iff] at hc ⊢
    obtain ⟨h1, h2, n, h3, h4⟩ := hc
    refine ⟨h1, h2, n, ?_, ih (fun y hy => h y (List.mem_cons_of_mem _ hy)) h4⟩
    rw [h x (List.mem_cons_self _ _)]; exact h3

theorem chain_functional {next : Ptr → Option Ptr} {p : Ptr} {L1 L2 : List Ptr}
    (h1 : chain next p L1) (h2 : chain next p L2) : L1 = L2 := by
  induction L1 generalizing p L2 with
  | nil =>
    cases L2 with
    | nil => rfl
    | cons y r =>
      rw [chain_cons_iff] at h2
      simp only [chain] at h1
      exact absurd (h2.1.symm.trans h1) h2.2.1
  | cons x rest ih =>
    rw [chain_cons_iff] at h1
    obtain ⟨a1, a2, n, a3, a4⟩ := h1
    cases L2 with
    | nil =>
      simp only [chain] at h2
      exact absurd (a1.symm.trans h2) a2
    | cons y r =>
      rw [chain_cons_iff] at h2
      obtain ⟨b1, _, m, b3, b4⟩ := h2
      have hxy : x = y := a1.symm.trans b1
      subst hxy
      rw [a3] at b3
      cases b3
      rw [ih a4 b4]

theorem chain_suffix {next : Ptr → Option Ptr} {p : Ptr} {L : List Ptr} (hc : chain next p L)
    {x : Ptr} (hx : x ∈ L) : ∃ a b, L = a ++ x :: b ∧ chain next x (x :: b) := by
  induction L generalizing p with
  | nil => cases hx
  | cons y rest ih =>
    by_cases hxy : x = y
    · subst hxy
      have h1 := ((chain_cons_iff _ _ _ _).1 hc).1
      subst h1
      exact ⟨[], rest, rfl, hc⟩
    · have hx2 : x ∈ rest := by
        cases hx with
        | head => exact absurd rfl hxy
        | tail _ h => exact h
      obtain ⟨_, _, n, _, h4⟩ := (chain_cons_iff _ _ _ _).1 hc
      obtain ⟨a, b, e, hb⟩ := ih h4 hx2
      exact ⟨y :: a, b, by rw [e]; rfl, hb⟩

theorem chain_nodup {next : Ptr → Option Ptr} {p : Ptr} {L : List Ptr} (hc : chain next p L) :
    L.Nodup := by
  induction L generalizing p with
  | nil => exact List.nodup_nil
  | cons x rest ih =>
    obtain ⟨_, _, n, h3, h4⟩ := (chain_cons_iff _ _ _ _).1 hc
    refine List.nodup_cons.2 ⟨?_, ih h4⟩
    intro hx
    obtain ⟨a, b, e, hb⟩ := chain_suffix h4 hx
    obtain ⟨_, _, m, c3, c4⟩ := (chain_cons_iff _ _ _ _).1 hb
    rw [h3] at c3
    cases c3
    have := chain_functional h4 c4
    have hl := congrArg List.length this
    rw [e] at hl
    simp at hl
    omega

theorem chain_ne_null {next : Ptr → Option Ptr} {p : Ptr} {L : List Ptr} (hc : chain next p L)
    {x : Ptr} (hx : x ∈ L) : x ≠ NULL := by
  obtain ⟨a, b, _, hb⟩ := chain_suffix hc hx
  exact ((chain_cons_iff _ _ _ _).1 hb).2.1

theorem chain_live {next : Ptr → Option Ptr} {p : Ptr} {L : List Ptr} (hc : chain next p L)
    {x : Ptr} (hx : x ∈ L) : ∃ n, next x = some n := by
  obtain ⟨a, b, _, hb⟩ := chain_suffix hc hx
  obtain ⟨_, _, n, h, _⟩ := (chain_cons_iff _ _ _ _).1 hb
  exact ⟨n, h⟩

/-- Linking a second list behind the last cell of a first one. -/
theorem chain_append {next next2 : Ptr → Option Ptr} {p q last : Ptr} {xs ys : List Ptr}
    (hx : chain next p (xs ++ [last])) (hy : chain next q ys)
    (hsame : ∀ x, x ≠ last → next2 x = next x) (hlast : next2 last = some q)
    (hdisj : last ∉ ys) : chain next2 p (xs ++ last :: ys) := by
  induction xs generalizing p with
  | nil =>
    simp only [List.nil_append] at hx ⊢
    obtain ⟨h1, h2, _, _, _⟩ := (chain_cons_iff _ _ _ _).1 hx
    refine (chain_cons_iff _ _ _ _).2 ⟨h1, h2, q, hlast, ?_⟩
    exact chain_congr (fun y hy => hsame y (fun e => hdisj (e ▸ hy))) hy
  | cons x rest ih =>
    have hnd := chain_nodup hx
    simp only [List.cons_append] at hx ⊢
    obtain ⟨h1, h2, n, h3, h4⟩ := (chain_cons_iff _ _ _ _).1 hx
    refine (chain_cons_iff _ _ _ _).2 ⟨h1, h2, n, ?_, ih h4⟩
    rw [hsame x]
    · exact h3
    · intro e
      subst e
      simp at hnd

end ProjGame

namespace ProjGame

/-! ## Redistribute -/

theorem backlog_cons_iff (items : Ptr → Option proj_space) (p x : Ptr) (rest : List Ptr) :
    backlog items p (x :: rest) ↔
      p = x ∧ x ≠ NULL ∧ ∃ r, items x = some r ∧ backlog items r.link rest := by
  unfold backlog
  rw [chain_cons_iff]
  constructor
  · rintro ⟨h1, h2, n, h3, h4⟩
    simp only [link_of] at h3
    cases hx : items x with
    | none => rw [hx] at h3; cases h3
    | some r =>
      rw [hx] at h3
      simp only [Option.map_some', Option.some.injEq] at h3
      exact ⟨h1, h2, r, rfl, by rw [h3]; exact h4⟩
  · rintro ⟨h1, h2, r, h3, h4⟩
    exact ⟨h1, h2, r.link, by simp [link_of, h3], h4⟩

theorem backlog_frame {items items2 : Ptr → Option proj_space} {p : Ptr} {L : List Ptr}
    (h : ∀ x ∈ L, items2 x = items x) (hc : backlog items p L) : backlog items2 p L :=
  chain_congr (fun x hx => by simp [link_of, h x hx]) hc

theorem unlink_all_nil (items : Ptr → Option proj_space) : unlink_all items [] = items := by
  funext q; simp [unlink_all]

theorem unlink_all_append (items : Ptr → Option proj_space) (xs ys : List Ptr) :
    unlink_all (unlink_all items xs) ys = unlink_all items (xs ++ ys) := by
  funext q
  by_cases h1 : q ∈ xs <;> by_cases h2 : q ∈ ys <;> simp [unlink_all, h1, h2]
  cases items q <;> rfl

theorem settle_all_nil (engines : Ptr → Option engine_t) : settle_all engines [] = engines := by
  funext q; simp [settle_all]

theorem detach_loop_spec (ops : WorkqOps) (hadd : ∀ w p, (ops.workq_add w p).1 = 0)
    (ce : Ptr) (v : engine_t) (x0 : Ptr) (hv : v.list_first = x0) :
    ∀ (rest : List Ptr) (s : State) (fuel : Nat), s.engines ce = some v →
      backlog s.items x0 (x0 :: rest) → rest.length < fuel →
      detach_loop ops ce fuel s = .ok
        { s with
          items := unlink_all s.items (x0 :: rest),
          workq := add_all ops s.workq rest,
          trace := s.trace ++ rest.map Event.workq_add } := by
  intro rest
  induction rest with
  | nil =>
    intro s fuel he hb hf
    obtain ⟨_, _, r0, h0, hn⟩ := (backlog_cons_iff _ _ _ _).1 hb
    have hl : r0.link = NULL := hn
    obtain ⟨fuel, rfl⟩ : ∃ f, fuel = f + 1 := ⟨fuel - 1, by omega⟩
    have hi : unlink_all s.items [x0] = s.items := by
      funext q
      by_cases hq : q = x0
      · subst hq
        simp only [unlink_all, List.mem_singleton, if_true, h0, Option.map_some']
        rw [← hl]
      · simp [unlink_all, hq]
    simp only [detach_loop, engine_of_some he, res_bind_ok, hv, item_of_some h0, hl]
    simp [hi, add_all]
  | cons x1 rest ih =>
    intro s fuel he hb hf
    have hnd : (x0 :: x1 :: rest).Nodup := chain_nodup hb
    obtain ⟨_, _, r0, h0, hb1⟩ := (backlog_cons_iff _ _ _ _).1 hb
    obtain ⟨hl0, hx1, r1, h1, hb2⟩ := (backlog_cons_iff _ _ _ _).1 hb1
    obtain ⟨fuel, rfl⟩ : ∃ f, fuel = f + 1 := ⟨fuel - 1, by omega⟩
    have h01 : x0 ≠ x1 := by
      intro e; subst e; simp at hnd
    have hx1n : x1 ≠ 0 := hx1
    have h1' : upd s.items x0 (some { r0 with link := r1.link }) x1 = some r1 := by
      rw [upd_other _ _ _ _ (Ne.symm h01)]; exact h1
    simp only [detach_loop, engine_of_some he, res_bind_ok, hv, item_of_some h0, hl0,
      item_of_some h1, ne_eq, hx1n, not_false_eq_true, if_true,
      State.set_item, h0, h1', State.workq_add, hadd, not_true_eq_false, if_false, res_pure]
    have hb' : backlog (upd (upd s.items x0 (some { r0 with link := r1.link })) x1
        (some { r1 with link := NULL })) x0 (x0 :: rest) := by
      refine (backlog_cons_iff _ _ _ _).2 ⟨rfl, chain_ne_null hb (List.mem_cons_self _ _),
        { r0 with link := r1.link }, ?_, ?_⟩
      · rw [upd_other _ _ _ _ h01, upd_same]
      · refine backlog_frame ?_ hb2
        intro y hy
        have hy0 : y ≠ x0 := by
          intro e; subst e; simp [hy] at hnd
        have hy1 : y ≠ x1 := by
          intro e; subst e; simp [hy] at hnd
        rw [upd_other _ _ _ _ hy1, upd_other _ _ _ _ hy0]
    have := ih { s with
        items := upd (upd s.items x0 (some { r0 with link := r1.link })) x1
          (some { r1 with link := NULL }),
        workq := (ops.workq_add s.workq x1).2,
        trace := s.trace ++ [Event.workq_add x1] } fuel he hb' (by simpa using hf)
    rw [this]
    have hi : unlink_all (upd (upd s.items x0 (some { r0 with link := r1.link })) x1
        (some { r1 with link := NULL })) (x0 :: rest) = unlink_all s.items (x0 :: x1 :: rest) := by
      funext q
      by_cases hq0 : q = x0
      · subst hq0
        simp [unlink_all, upd_other _ _ _ _ h01, h0]
      · by_cases hq1 : q = x1
        · subst hq1
          have : q ∉ rest := by
            intro hm; simp [hm] at hnd
          simp [unlink_all, hq0, this, h1]
        · simp [unlink_all, hq0, hq1, upd_other _ _ _ _ hq1, upd_other _ _ _ _ hq0]
    simp [hi, add_all]

theorem detach_phase (ops : WorkqOps) (hadd : ∀ w p, (ops.workq_add w p).1 = 0)
    (ce : Ptr) (v : engine_t) (b : List Ptr) (s : State) (fuel : Nat)
    (he : s.engines ce = some v) (hb : backlog s.items v.list_first b) (hf : b.length ≤ fuel) :
    (if v.list_first ≠ NULL then detach_loop ops ce fuel s else pure s) = .ok
      { s with
        items := unlink_all s.items b,
        workq := add_all ops s.workq b.tail,
        trace := s.trace ++ b.tail.map Event.workq_add } := by
  cases b with
  | nil =>
    have : v.list_first = NULL := hb
    simp [this, unlink_all_nil, add_all]
  | cons x0 rest =>
    obtain ⟨h1, h2, _⟩ := (backlog_cons_iff _ _ _ _).1 hb
    rw [h1] at hb
    have h3 : v.list_first ≠ NULL := by rw [h1]; exact h2
    rw [if_pos h3, detach_loop_spec ops hadd ce v x0 h1 rest s fuel he hb (by simpa using hf)]
    rfl

theorem next_of_settle (engines : Ptr → Option engine_t) (e : Ptr) (v : engine_t)
    (he : engines e = some v) :
    next_of (upd engines e (some { v with list_last := v.list_first })) = next_of engines := by
  funext q
  by_cases hq : q = e
  · subst hq; simp [next_of, he]
  · simp [next_of, upd_other _ _ _ _ hq]

theorem redistribute_spec (ops : WorkqOps) (hadd : ∀ w p, (ops.workq_add w p).1 = 0)
    (B : Ptr → List Ptr) :
    ∀ (L : List Ptr) (s : State) (fuel : Nat) (ce : Ptr),
      chain (next_of s.engines) ce L →
      (∀ e ∈ L, ∃ v, s.engines e = some v ∧ backlog s.items v.list_first (B e)) →
      (L.flatMap B).Nodup → L.length + (L.flatMap B).length < fuel →
      redistribute ops fuel ce s = .ok
        { s with
          items := unlink_all s.items (L.flatMap B),
          engines := settle_all s.engines L,
          workq := add_all ops s.workq (L.flatMap fun e => (B e).tail),
          trace := s.trace ++ L.flatMap fun e => redistribute_events e (B e) } := by
  intro L
  induction L with
  | nil =>
    intro s fuel ce hc _ _ hf
    have : ce = NULL := hc
    obtain ⟨fuel, rfl⟩ : ∃ f, fuel = f + 1 := ⟨fuel - 1, by omega⟩
    simp [redistribute, this, unlink_all_nil, settle_all_nil, add_all]
  | cons e rest ih =>
    intro s fuel ce hc hB hnd hf
    have hLnd : (e :: rest).Nodup := chain_nodup hc
    obtain ⟨h1, h2, n, h3, h4⟩ := (chain_cons_iff _ _ _ _).1 hc
    subst h1
    obtain ⟨v, he, hb⟩ := hB ce (List.mem_cons_self _ _)
    have hn : v.next = n := by simpa [next_of, he] using h3
    subst hn
    obtain ⟨fuel, rfl⟩ : ∃ f, fuel = f + 1 := ⟨fuel - 1, by omega⟩
    simp only [List.flatMap_cons, List.length_cons, List.length_append] at hf hnd
    have hce : ¬ ce = 0 := h2
    have hph := detach_phase ops hadd ce v (B ce) (s.emit (.lock (.my_list_mutex ce))) fuel
      he hb (by omega)
    simp only [redistribute, hce, if_false, engine_of_some he, res_bind_ok]
    have he1 : (s.emit (.lock (.my_list_mutex ce))).engine ce = .ok v := engine_of_some he
    rw [he1]
    simp only [res_bind_ok]
    have hnd2 := List.nodup_append.1 hnd
    by_cases hlf : v.list_first ≠ NULL
    all_goals
      first
        | rw [if_pos hlf] at hph ⊢
        | rw [if_neg hlf] at hph ⊢
      rw [hph]
      simp only [res_bind_ok, State.set_engine, State.emit, he, State.engine, upd_same]
      rw [ih _ fuel v.next]
      · have hi : settle_all (upd s.engines ce (some { v with list_last := v.list_first })) rest
            = settle_all s.engines (ce :: rest) := by
          funext q
          by_cases hq : q = ce
          · subst hq
            have : q ∉ rest := (List.nodup_cons.1 hLnd).1
            simp [settle_all, this, he]
          · simp [settle_all, hq, upd_other _ _ _ _ hq]
        simp [hi, unlink_all_append, add_all, redistribute_events]
      · show chain (next_of (upd s.engines ce (some { v with list_last := v.list_first }))) v.next rest
        rw [next_of_settle _ _ _ he]; exact h4
      · intro e2 he2
        obtain ⟨v2, hv2, hb2⟩ := hB e2 (List.mem_cons_of_mem _ he2)
        have hne : e2 ≠ ce := by
          intro e; subst e; exact (List.nodup_cons.1 hLnd).1 he2
        refine ⟨v2, ?_, ?_⟩
        · show upd s.engines ce _ e2 = some v2
          rw [upd_other _ _ _ _ hne]; exact hv2
        · refine backlog_frame ?_ hb2
          intro y hy
          have : y ∉ B ce := fun hy1 =>
            hnd2.2.2 hy1 (List.mem_flatMap.2 ⟨e2, he2, hy⟩)
          simp [unlink_all, this]
      · exact hnd2.2.1
      · show rest.length + (rest.flatMap B).length < fuel
        omega

end ProjGame

namespace ProjGame

/-! ## The engine registry -/

theorem registry_from_cons_iff (engines : Ptr → Option engine_t) (before p e : Ptr)
    (rest : List Ptr) :
    registry_from engines before p (e :: rest) ↔
      p = e ∧ e ≠ NULL ∧ ∃ v, engines e = some v ∧ v.prev = before ∧
        registry_from engines e v.next rest := by
  simp only [registry_from]
  cases h : engines e <;> simp

theorem registry_from_chain {engines : Ptr → Option engine_t} {before p : Ptr} {L : List Ptr}
    (h : registry_from engines before p L) : chain (next_of engines) p L := by
  induction L generalizing before p with
  | nil => exact h
  | cons e rest ih =>
    obtain ⟨h1, h2, v, h3, _, h5⟩ := (registry_from_cons_iff _ _ _ _ _).1 h
    exact (chain_cons_iff _ _ _ _).2 ⟨h1, h2, v.next, by simp [next_of, h3], ih h5⟩

theorem registry_from_congr {engines engines2 : Ptr → Option engine_t} {before p : Ptr}
    {L : List Ptr}
    (h : ∀ x ∈ L, ∀ v, engines x = some v →
      ∃ v2, engines2 x = some v2 ∧ v2.prev = v.prev ∧ v2.next = v.next)
    (hr : registry_from engines before p L) : registry_from engines2 before p L := by
  induction L generalizing before p with
  | nil => exact hr
  | cons e rest ih =>
    obtain ⟨h1, h2, v, h3, h4, h5⟩ := (registry_from_cons_iff _ _ _ _ _).1 hr
    obtain ⟨v2, a, b, c⟩ := h e (List.mem_cons_self _ _) v h3
    refine (registry_from_cons_iff _ _ _ _ _).2 ⟨h1, h2, v2, a, by rw [b]; exact h4, ?_⟩
    rw [c]
    exact ih (fun x hx => h x (List.mem_cons_of_mem _ hx)) h5

theorem registry_from_live {engines : Ptr → Option engine_t} {before p : Ptr} {L : List Ptr}
    (h : registry_from engines before p L) {x : Ptr} (hx : x ∈ L) : ∃ v, engines x = some v := by
  obtain ⟨n, hn⟩ := chain_live (registry_from_chain h) hx
  cases he : engines x with
  | none => simp [next_of, he] at hn
  | some v => exact ⟨v, rfl⟩

theorem added_redistribute_events (B : Ptr → List Ptr) (L : List Ptr) :
    (L.flatMap fun e => redistribute_events e (B e)).filterMap Event.added =
      L.flatMap fun e => (B e).tail := by
  induction L with
  | nil => rfl
  | cons e rest ih =>
    simp only [List.flatMap_cons, List.filterMap_append, ih]
    congr 1
    simp only [redistribute_events, List.filterMap_cons, Event.added, List.filterMap_append,
      List.filterMap_nil, List.append_nil]
    induction (B e).tail with
    | nil => rfl
    | cons x xs ih2 => simp [List.filterMap_cons, Event.added, ih2]

theorem engine_lookup_again (t : Thread) (s : State) (h : s.engine_key t.id ≠ NULL) :
    engine_lookup t s = .ok (s.engine_key t.id, s) := by
  simp [engine_lookup, h]

theorem engine_lookup_new (s : State) (t : Thread) (hkey : s.engine_key t.id = NULL)
    (hinit : t.mutex_init_status = 0) (hset : t.setspecific_status = 0)
    (hfresh : s.engines (s.brk + 1) = none)
    (hhead : s.engine_list_head = NULL ∨ ∃ v, s.engines s.engine_list_head = some v) :
    ∃ s2, engine_lookup t s = .ok (s.brk + 1, s2) ∧
      s2.engine_list_head = s.brk + 1 ∧
      s2.engine_key = (fun i => if i = t.id then s.brk + 1 else s.engine_key i) ∧
      s2.engines (s.brk + 1) =
        some { t.junk with prev := NULL, next := s.engine_list_head, thread_id := t.id } ∧
      (∀ v, s.engine_list_head ≠ NULL → s.engines s.engine_list_head = some v →
        s2.engines s.engine_list_head = some { v with prev := s.brk + 1 }) ∧
      (∀ q, q ≠ s.brk + 1 → (q ≠ s.engine_list_head ∨ s.engine_list_head = NULL) →
        s2.engines q = s.engines q) ∧
      s2.items = s.items ∧ s2.brk = s.brk + 1 ∧ s2.max_k = s.max_k ∧ s2.workq = s.workq ∧
      s2.spill = s.spill ∧
      s2.trace = s.trace ++ [.lock (.my_list_mutex (s.brk + 1)), .lock .engine_list_mutex,
        .unlock .engine_list_mutex, .unlock (.my_list_mutex (s.brk + 1))] := by
  by_cases hh : s.engine_list_head = NULL
  · simp only [engine_lookup, hkey, hinit, hset, State.malloc_engine, State.set_engine,
      State.emit, hh, if_true, upd_same, res_bind_ok, res_pure, ne_eq, not_true_eq_false,
      if_false]
    refine ⟨_, rfl, rfl, rfl, by simp, ?_, ?_, rfl, rfl, rfl, rfl, rfl, by simp⟩
    · intro v hv
      exact hv.elim
    · intro q hq _
      simp [upd_other _ _ _ _ hq]
  · obtain ⟨v, hv⟩ := hhead.resolve_left hh
    have hne : s.engine_list_head ≠ s.brk + 1 := by
      intro e; rw [e, hfresh] at hv; cases hv
    have hh0 : ¬ s.engine_list_head = 0 := hh
    simp only [engine_lookup, hkey, hinit, hset, State.malloc_engine, State.set_engine,
      State.emit, hh0, if_true, upd_same, res_bind_ok, res_pure, ne_eq, not_true_eq_false,
      if_false, upd_other _ _ _ _ hne, upd_other _ _ _ _ (Ne.symm hne), hv]
    refine ⟨_, rfl, rfl, rfl, by simp [upd_other _ _ _ _ (Ne.symm hne)], ?_, ?_, rfl, rfl, rfl,
      rfl, rfl, by simp⟩
    · intro w _ hw
      cases hw
      simp [upd_other _ _ _ _ hne]
    · intro q hq hq2
      have hq3 : q ≠ s.engine_list_head := hq2.resolve_right (fun h => h)
      simp [upd_other _ _ _ _ hq, upd_other _ _ _ _ hq3]

theorem destructor_effect (s : State) (e : Ptr) (v : engine_t) (he : s.engines e = some v)
    (hn : v.next = NULL ∨ (v.next ≠ e ∧ ∃ w, s.engines v.next = some w))
    (hp : v.prev = NULL ∨ (v.prev ≠ e ∧ v.prev ≠ v.next ∧ ∃ u, s.engines v.prev = some u)) :
    ∃ s2, destructor e s = .ok s2 ∧ s2.engines e = none ∧
      (∀ w, v.next ≠ NULL → s.engines v.next = some w →
        s2.engines v.next = some { w with prev := v.prev }) ∧
      (∀ u, v.prev ≠ NULL → s.engines v.prev = some u →
        s2.engines v.prev = some { u with next := v.next }) ∧
      (∀ q, q ≠ e → (q ≠ v.next ∨ v.next = NULL) → (q ≠ v.prev ∨ v.prev = NULL) →
        s2.engines q = s.engines q) ∧
      s2.engine_list_head = (if v.prev = NULL then v.next else s.engine_list_head) ∧
      s2.items = s.items ∧ s2.brk = s.brk ∧ s2.engine_key = s.engine_key ∧
      s2.max_k = s.max_k ∧ s2.workq = s.workq ∧ s2.spill = s.spill ∧
      s2.trace = s.trace ++ [.lock .engine_list_mutex, .unlock .engine_list_mutex] := by
  by_cases hn0 : v.next = NULL <;> by_cases hp0 : v.prev = NULL
  · -- the only element
    simp only [destructor, State.engine, res_bind_ok, hn0, hp0, ne_eq, not_true_eq_false, and_self,
      if_false, res_pure, State.emit, State.free_engine, he]
    refine ⟨_, rfl, by simp, ?_, ?_, ?_, by simp, rfl, rfl, rfl, rfl, rfl, rfl, by simp⟩
    · intro w h; exact h.elim
    · intro u h; exact h.elim
    · intro q hq _ _; simp [upd_other _ _ _ _ hq]
  · -- the last element
    obtain ⟨hpe, _, u, hu⟩ := hp.resolve_left hp0
    have hp0' : ¬ v.prev = 0 := hp0
    simp only [destructor, State.engine, res_bind_ok, hn0, hp0', ne_eq, not_true_eq_false, false_and,
      and_false, not_false_eq_true, if_true, if_false, res_pure, State.emit, State.set_engine, hu,
      State.free_engine, upd_other _ _ _ _ (Ne.symm hpe), he]
    refine ⟨_, rfl, by simp, ?_, ?_, ?_, by simp [hp0'], rfl, rfl, rfl, rfl, rfl, rfl, by simp⟩
    · intro w h; exact h.elim
    · intro u2 _ hu2
      cases hu2
      simp [upd_other _ _ _ _ hpe]
    · intro q hq _ hq2
      have := hq2.resolve_right (fun h => h)
      simp [upd_other _ _ _ _ hq, upd_other _ _ _ _ this]
  · -- the first element
    obtain ⟨hne, w, hw⟩ := hn.resolve_left hn0
    have hn0' : ¬ v.next = 0 := hn0
    simp only [destructor, State.engine, res_bind_ok, hn0', hp0, ne_eq, not_true_eq_false, false_and,
      and_false, not_false_eq_true, if_true, if_false, res_pure, State.emit, State.set_engine, hw,
      State.free_engine, State.engine, upd_other _ _ _ _ (Ne.symm hne), he]
    refine ⟨_, rfl, by simp, ?_, ?_, ?_, by simp, rfl, rfl, rfl, rfl, rfl, rfl, by simp⟩
    · intro w2 _ hw2
      cases hw2
      simp [upd_other _ _ _ _ hne, hp0]
    · intro u h; exact h.elim
    · intro q hq hq2 _
      have := hq2.resolve_right (fun h => h)
      simp [upd_other _ _ _ _ hq, upd_other _ _ _ _ this]
  · -- in the middle
    obtain ⟨hne, w, hw⟩ := hn.resolve_left hn0
    obtain ⟨hpe, hpn, u, hu⟩ := hp.resolve_left hp0
    have hn0' : ¬ v.next = 0 := hn0
    have hp0' : ¬ v.prev = 0 := hp0
    simp only [destructor, State.engine, res_bind_ok, hn0', hp0', ne_eq, not_true_eq_false,
      not_false_eq_true, and_self, if_true, if_false, res_pure, State.emit, State.set_engine, hw,
      State.free_engine, State.engine, upd_other _ _ _ _ (Ne.symm hne), he,
      upd_other _ _ _ _ hpn, hu, upd_other _ _ _ _ (Ne.symm hpe)]
    refine ⟨_, rfl, by simp, ?_, ?_, ?_, by simp [hp0'], rfl, rfl, rfl, rfl, rfl, rfl, by simp⟩
    · intro w2 _ hw2
      cases hw2
      simp [upd_other _ _ _ _ hne, upd_other _ _ _ _ (Ne.symm hpn)]
    · intro u2 _ hu2
      cases hu2
      simp [upd_other _ _ _ _ hpe]
    · intro q hq hq2 hq3
      have h1 := hq2.resolve_right (fun h => h)
      have h2 := hq3.resolve_right (fun h => h)
      simp [upd_other _ _ _ _ hq, upd_other _ _ _ _ h1, upd_other _ _ _ _ h2]

theorem registry_from_head {engines : Ptr → Option engine_t} {before p y : Ptr} {r : List Ptr}
    (h : registry_from engines before p (y :: r)) : p = y :=
  ((registry_from_cons_iff _ _ _ _ _).1 h).1

theorem registry_split {engines : Ptr → Option engine_t} {e : Ptr} {c : List Ptr} :
    ∀ (a : List Ptr) (before p : Ptr), registry_from engines before p (a ++ e :: c) →
      ∃ v, engines e = some v ∧ v.prev = a.getLast?.getD before ∧
        registry_from engines e v.next c := by
  intro a
  induction a with
  | nil =>
    intro before p h
    obtain ⟨_, _, v, h3, h4, h5⟩ := (registry_from_cons_iff _ _ _ _ _).1 h
    exact ⟨v, h3, h4, h5⟩
  | cons x a ih =>
    intro before p h
    obtain ⟨_, _, vx, _, _, h5⟩ := (registry_from_cons_iff _ _ _ _ _).1 h
    obtain ⟨v, h6, h7, h8⟩ := ih x vx.next h5
    refine ⟨v, h6, ?_, h8⟩
    rw [h7, List.getLast?_cons]
    rfl

theorem registry_next_cases {engines : Ptr → Option engine_t} {e p : Ptr} {c : List Ptr}
    (h : registry_from engines e p c) : (c = [] ∧ p = NULL) ∨ (p ∈ c ∧ p ≠ NULL) := by
  cases c with
  | nil => exact Or.inl ⟨rfl, h⟩
  | cons y r =>
    obtain ⟨h1, h2, _⟩ := (registry_from_cons_iff _ _ _ _ _).1 h
    exact Or.inr ⟨by rw [h1]; exact List.mem_cons_self _ _, by rw [h1]; exact h2⟩

theorem getLast_getD_mem (a : List Ptr) (b : Ptr) (h : a ≠ []) : a.getLast?.getD b ∈ a := by
  cases hl : a.getLast? with
  | none => exact absurd (List.getLast?_eq_none_iff.1 hl) h
  | some u => exact List.mem_of_getLast?_eq_some hl

/-- Splicing around `e`: what the pointer surgery of `destructor` does to
a well-formed registry. -/
theorem registry_erase_mid {engines engines2 : Ptr → Option engine_t} {e : Ptr} {v : engine_t}
    (hb : ∀ w, v.next ≠ NULL → engines v.next = some w →
      engines2 v.next = some { w with prev := v.prev })
    (hc : ∀ u, v.prev ≠ NULL → engines v.prev = some u →
      engines2 v.prev = some { u with next := v.next })
    (hd : ∀ q, q ≠ e → (q ≠ v.next ∨ v.next = NULL) → (q ≠ v.prev ∨ v.prev = NULL) →
      engines2 q = engines q)
    (he : engines e = some v) (c : List Ptr) :
    ∀ (a : List Ptr) (before p : Ptr), registry_from engines before p (a ++ e :: c) →
      (before :: (a ++ e :: c)).Nodup →
      registry_from engines2 before (if a = [] then v.next else p) (a ++ c) := by
  intro a
  induction a with
  | nil =>
    intro before p h hnd
    obtain ⟨_, _, v1, h3, h4, h5⟩ := (registry_from_cons_iff _ _ _ _ _).1 h
    rw [he] at h3; cases h3
    simp only [List.nil_append, if_true] at hnd ⊢
    cases c with
    | nil => exact h5
    | cons y r =>
      obtain ⟨g1, g2, w, g3, g4, g5⟩ := (registry_from_cons_iff _ _ _ _ _).1 h5
      have hw := hb w (by rw [g1]; exact g2) (by rw [g1]; exact g3)
      rw [g1] at hw
      refine (registry_from_cons_iff _ _ _ _ _).2 ⟨g1, g2, _, hw, h4, ?_⟩
      refine registry_from_congr ?_ g5
      intro z hz u hu
      have hz1 : z ≠ e := by
        intro e1; subst e1; simp [hz] at hnd
      have hz2 : z ≠ v.next := by
        rw [g1]; intro e1; subst e1; simp [hz] at hnd
      have hz3 : z ≠ v.prev := by
        rw [h4]; intro e1; subst e1; simp [hz] at hnd
      exact ⟨u, by rw [hd z hz1 (Or.inl hz2) (Or.inl hz3)]; exact hu, rfl, rfl⟩
  | cons x a ih =>
    intro before p h hnd
    obtain ⟨h1, h2, vx, h3, h4, h5⟩ := (registry_from_cons_iff _ _ _ _ _).1 h
    have hnd1 : (x :: (a ++ e :: c)).Nodup := (List.nodup_cons.1 hnd).2
    have hxe : x ≠ e := by
      intro e1; subst e1; simp at hnd1
    have ih1 := ih x vx.next h5 hnd1
    obtain ⟨v1, k1, k2, k3⟩ := registry_split a x vx.next h5
    rw [he] at k1; cases k1
    have hxn : x ≠ v.next ∨ v.next = NULL := by
      rcases registry_next_cases k3 with ⟨_, g⟩ | ⟨g, _⟩
      · exact Or.inr g
      · left; intro e1; rw [← e1] at g; simp [g] at hnd1
    simp only [List.cons_append, reduceCtorEq, if_false]
    cases a with
    | nil =>
      simp only [List.getLast?_nil, Option.getD_none] at k2
      have hx := hc vx (by rw [k2]; exact h2) (by rw [k2]; exact h3)
      rw [k2] at hx
      refine (registry_from_cons_iff _ _ _ _ _).2 ⟨h1, h2, _, hx, h4, ?_⟩
      simpa using ih1
    | cons y a2 =>
      have hpm : v.prev ∈ y :: a2 := by
        rw [k2]; exact getLast_getD_mem _ _ (by simp)
      have hxp : x ≠ v.prev := by
        intro e1; rw [← e1] at hpm
        have : x ∈ (y :: a2) ++ e :: c := List.mem_append_left _ hpm
        exact (List.nodup_cons.1 hnd1).1 this
      have hx : engines2 x = some vx := by
        rw [hd x hxe hxn (Or.inl hxp)]; exact h3
      refine (registry_from_cons_iff _ _ _ _ _).2 ⟨h1, h2, vx, hx, h4, ?_⟩
      simpa using ih1

end ProjGame

namespace ProjGame

/-! ## The control loop -/

theorem res_bind_eq_ok {α β : Type} {x : Res α} {f : α → Res β} {b : β}
    (h : (x >>= f) = .ok b) : ∃ a, x = .ok a ∧ f a = .ok b := by
  cases x with
  | error e => cases h
  | ok a => exact ⟨a, rfl, h⟩

theorem set_item_trace {s s2 : State} {p : Ptr} {f : proj_space → proj_space}
    (h : s.set_item p f = .ok s2) : s2.trace = s.trace := by
  unfold State.set_item at h
  cases hp : s.items p with
  | none => rw [hp] at h; cases h
  | some v => rw [hp] at h; cases h; rfl

theorem set_engine_trace {s s2 : State} {p : Ptr} {f : engine_t → engine_t}
    (h : s.set_engine p f = .ok s2) : s2.trace = s.trace := by
  unfold State.set_engine at h
  cases hp : s.engines p with
  | none => rw [hp] at h; cases h
  | some v => rw [hp] at h; cases h; rfl

theorem detach_loop_trace (ops : WorkqOps) (ce : Ptr) :
    ∀ (fuel : Nat) (s s2 : State), detach_loop ops ce fuel s = .ok s2 →
      ∃ evs, s2.trace = s.trace ++ evs ∧ ∀ ev ∈ evs, ev.by_redistribute = true := by
  intro fuel
  induction fuel with
  | zero => intro s s2 h; cases h
  | succ fuel ih =>
    intro s s2 h
    simp only [detach_loop] at h
    obtain ⟨e, _, h⟩ := res_bind_eq_ok h
    obtain ⟨first, _, h⟩ := res_bind_eq_ok h
    by_cases hl : first.link ≠ NULL
    · rw [if_pos hl] at h
      obtain ⟨t, _, h⟩ := res_bind_eq_ok h
      obtain ⟨sa, ha, h⟩ := res_bind_eq_ok h
      obtain ⟨sb, hb, h⟩ := res_bind_eq_ok h
      simp only [State.workq_add] at h
      by_cases hst : (ops.workq_add sb.workq first.link).1 ≠ 0
      · simp [hst] at h
      · simp only [hst, if_false, res_pure, res_bind_ok] at h
        obtain ⟨evs, h1, h2⟩ := ih _ _ h
        refine ⟨Event.workq_add first.link :: evs, ?_, ?_⟩
        · rw [h1]
          simp [set_item_trace hb, set_item_trace ha]
        · intro ev hev
          rcases List.mem_cons.1 hev with rfl | hev
          · rfl
          · exact h2 ev hev
    · rw [if_neg hl] at h
      cases h
      exact ⟨[], by simp, by simp⟩

theorem redistribute_trace (ops : WorkqOps) :
    ∀ (fuel : Nat) (ce : Ptr) (s s2 : State), redistribute ops fuel ce s = .ok s2 →
      ∃ evs, s2.trace = s.trace ++ evs ∧ ∀ ev ∈ evs, ev.by_redistribute = true := by
  intro fuel
  induction fuel with
  | zero => intro ce s s2 h; cases h
  | succ fuel ih =>
    intro ce s s2 h
    simp only [redistribute] at h
    by_cases hce : ce = NULL
    · rw [if_pos hce] at h
      cases h
      exact ⟨[], by simp, by simp⟩
    · rw [if_neg hce] at h
      obtain ⟨_, _, h⟩ := res_bind_eq_ok h
      obtain ⟨e, _, h⟩ := res_bind_eq_ok h
      have hX : ∃ sa,
          (if e.list_first ≠ NULL then
              detach_loop ops ce fuel (s.emit (.lock (.my_list_mutex ce)))
            else pure (s.emit (.lock (.my_list_mutex ce)))) = Except.ok sa ∧
          (do
            let s ← sa.set_engine ce (fun e => { e with list_last := e.list_first })
            let e ← s.engine ce
            redistribute ops fuel e.next (s.emit (.unlock (.my_list_mutex ce)))) =
            Except.ok s2 := by
        by_cases hl : e.list_first ≠ NULL
        · rw [if_pos hl] at h ⊢; exact res_bind_eq_ok h
        · rw [if_neg hl] at h ⊢; exact res_bind_eq_ok h
      obtain ⟨sa, ha, h⟩ := hX
      obtain ⟨sb, hb, h⟩ := res_bind_eq_ok h
      obtain ⟨e2, _, h⟩ := res_bind_eq_ok h
      obtain ⟨evs2, k1, k2⟩ := ih _ _ _ h
      have hsa : ∃ evs, sa.trace = (s.emit (.lock (.my_list_mutex ce))).trace ++ evs ∧
          ∀ ev ∈ evs, ev.by_redistribute = true := by
        by_cases hl : e.list_first ≠ NULL
        · rw [if_pos hl] at ha
          exact detach_loop_trace ops ce _ _ _ ha
        · rw [if_neg hl] at ha
          cases ha
          exact ⟨[], by simp, by simp⟩
      obtain ⟨evs1, j1, j2⟩ := hsa
      refine ⟨Event.lock (.my_list_mutex ce) :: evs1 ++
        Event.unlock (.my_list_mutex ce) :: evs2, ?_, ?_⟩
      · rw [k1]
        simp only [State.emit] at j1 ⊢
        rw [set_engine_trace hb, j1]
        simp
      · intro ev hev
        simp only [List.mem_append, List.mem_cons] at hev
        rcases hev with (rfl | hev) | rfl | hev
        · rfl
        · exact j2 ev hev
        · rfl
        · exact k2 ev hev

theorem control_scan_ok (ops : WorkqOps) (fuel : Nat) (s s1 : State) (head : Ptr)
    (h : control_scan ops fuel s = .ok (head, s1)) :
    head = s.engine_list_head ∧
      ∃ evs, s1.trace = s.trace ++ evs ∧ ∀ ev ∈ evs, ev.by_redistribute = true := by
  simp only [control_scan] at h
  obtain ⟨sa, ha, h⟩ := res_bind_eq_ok h
  cases h
  obtain ⟨evs, h1, h2⟩ := redistribute_trace ops _ _ _ _ ha
  refine ⟨rfl, Event.lock .engine_list_mutex :: evs ++ [Event.unlock .engine_list_mutex], ?_, ?_⟩
  · simp only [State.emit] at h1 ⊢
    rw [h1]; simp
  · intro ev hev
    simp only [List.mem_append, List.mem_cons, List.mem_singleton, List.not_mem_nil,
      or_false] at hev
    rcases hev with (rfl | hev) | rfl
    · rfl
    · exact h2 ev hev
    · rfl

theorem control_step_none_iff (ops : WorkqOps) (fuel : Nat) (c : Ptr × State) :
    control_step ops fuel c = .ok none ↔ c.1 = NULL := by
  unfold control_step
  by_cases h : c.1 = NULL
  · simp [h]
  · simp only [ne_eq, h, not_false_eq_true, if_true, iff_false]
    cases control_iteration ops fuel c.2 <;> simp [Functor.map, Except.map]

end ProjGame

namespace ProjGame

/-! ## Building the list of children -/

theorem backlog_first_null_iff {items : Ptr → Option proj_space} {p : Ptr} {cs : List Ptr}
    (h : backlog items p cs) : p = NULL ↔ cs = [] := by
  cases cs with
  | nil => exact ⟨fun _ => rfl, fun _ => h⟩
  | cons x r =>
    obtain ⟨h1, h2, _⟩ := (backlog_cons_iff _ _ _ _).1 h
    constructor
    · intro h0; exact absurd (h1.symm.trans h0) h2
    · intro h0; cases h0

theorem backlog_live {items : Ptr → Option proj_space} {p : Ptr} {cs : List Ptr}
    (h : backlog items p cs) {c : Ptr} (hc : c ∈ cs) : ∃ r, items c = some r := by
  obtain ⟨n, hn⟩ := chain_live h hc
  cases hr : items c with
  | none => simp [link_of, hr] at hn
  | some r => exact ⟨r, rfl⟩

theorem payload_at_upd_other (items : Ptr → Option proj_space) (p q : Ptr)
    (v : Option proj_space) (h : q ≠ p) : payload_at (upd items p v) q = payload_at items q := by
  simp [payload_at, upd_other _ _ _ _ h]

theorem live_le_brk {s : State} (h : heap_ok s) {p : Ptr} {r : proj_space}
    (hp : s.items p = some r) : p ≤ s.brk := by
  by_contra hlt
  have := (h p (Nat.lt_of_not_le hlt)).1
  rw [hp] at this; cases this

theorem nat_lt_succ_of_lt_of_le {a b c : Nat} (h1 : a < b) (h2 : b ≤ c) : a < c + 1 := by omega

theorem nat_ne_succ_of_le {a c : Nat} (h : a ≤ c) : a ≠ c + 1 := by omega

theorem nat_ne_of_le_of_lt {a b c : Nat} (h1 : a ≤ b) (h2 : b < c) : a ≠ c := by omega

theorem build_inv_set_temp {s0 st : State} {v : BranchVars} {cs : List Ptr}
    {ys : List proj_space} (hinv : build_inv s0 st v cs ys) (t2 : proj_space) :
    build_inv s0 { st with items := upd st.items v.temp_element (some t2) } v cs ys := by
  obtain ⟨h1, h2, ⟨t, h3⟩, h4, h5, h6, h7, h8, h9, h10⟩ := hinv
  have hle : v.temp_element ≤ st.brk := live_le_brk h1 h3
  refine ⟨?_, h2, ⟨t2, by simp⟩, ?_, h5, ?_, h7, ?_, ?_, h10⟩
  · intro q hq
    have hq2 : q ≠ v.temp_element := fun e => by
      rw [e] at hq; exact absurd hle (Nat.not_le_of_lt hq)
    exact ⟨by show upd _ _ _ _ = _; rw [upd_other _ _ _ _ hq2]; exact (h1 q hq).1, (h1 q hq).2⟩
  · refine backlog_frame ?_ h4
    intro c hc
    show upd _ _ _ _ = _
    rw [upd_other _ _ _ _ (h7 c hc).2]
  · rw [← h6]
    refine List.map_congr_left ?_
    intro c hc
    exact payload_at_upd_other _ _ _ _ (h7 c hc).2
  · intro q hq
    have hq2 : q ≠ v.temp_element := fun e => by
      rw [e] at hq; exact absurd h2 (Nat.not_lt_of_le hq)
    show upd _ _ _ _ = _
    rw [upd_other _ _ _ _ hq2]; exact h8 q hq
  · intro q hq hq2 hq3
    show upd _ _ _ _ = _
    rw [upd_other _ _ _ _ hq3]; exact h9 q hq hq2 hq3

theorem append_element_spec {s0 st : State} {v : BranchVars} {cs : List Ptr}
    {ys : List proj_space} (hinv : build_inv s0 st v cs ys) (y : proj_space)
    (hy : st.items v.temp_element = some y) (hl : y.link = NULL) :
    ∃ v2 st2, append_element v st = .ok (v2, st2) ∧
      build_inv s0 st2 v2 (cs ++ [v.temp_element]) (ys ++ [y.payload]) := by
  obtain ⟨h1, h2, _, h4, h5, h6, h7, h8, h9, h10⟩ := hinv
  have hle : v.temp_element ≤ st.brk := live_le_brk h1 hy
  have htn : v.temp_element ≠ NULL := by
    intro e; rw [e] at h2; exact Nat.not_lt_zero _ h2
  have hfresh : ∀ c, (∃ r, st.items c = some r) → c ≠ st.brk + 1 := by
    intro c ⟨r, hr⟩
    exact nat_ne_succ_of_le (live_le_brk h1 hr)
  by_cases hcs : cs = []
  · subst hcs
    have hf : v.stack_ends.first = NULL := h4
    refine ⟨⟨⟨v.temp_element, v.temp_element⟩, st.brk + 1⟩,
      { st with items := upd st.items (st.brk + 1) (some junk_item), brk := st.brk + 1 },
      by simp [append_element, hf, State.malloc_item], ?_⟩
    refine ⟨?_, ?_, ⟨junk_item, by simp⟩, ?_, ?_, ?_, ?_, ?_, ?_, ?_⟩
    · intro q hq
      have hq1 : st.brk < q := Nat.lt_of_succ_lt hq
      have hq2 : q ≠ st.brk + 1 := Nat.ne_of_gt hq
      exact ⟨by show upd _ _ _ _ = _; rw [upd_other _ _ _ _ hq2]; exact (h1 q hq1).1,
        (h1 q hq1).2⟩
    · exact nat_lt_succ_of_lt_of_le h2 hle
    · simp only [List.nil_append]
      refine (backlog_cons_iff _ _ _ _).2 ⟨rfl, htn, y, ?_, hl⟩
      show upd _ _ _ _ = _
      rw [upd_other _ _ _ _ (hfresh _ ⟨y, hy⟩)]; exact hy
    · intro _; simp
    · have hys : ys = [] := by
        have := h6.symm
        simpa using this
      subst hys
      simp only [List.nil_append, List.map_cons, List.map_nil, List.cons.injEq, and_true]
      rw [payload_at_upd_other _ _ _ _ (hfresh _ ⟨y, hy⟩)]
      simp [payload_at, hy]
    · intro c hc
      simp only [List.nil_append, List.mem_singleton] at hc
      subst hc
      exact ⟨h2, hfresh _ ⟨y, hy⟩⟩
    · intro q hq
      have hq2 : q ≠ st.brk + 1 := nat_ne_of_le_of_lt hq (nat_lt_succ_of_lt_of_le h2 hle)
      show upd _ _ _ _ = _
      rw [upd_other _ _ _ _ hq2]; exact h8 q hq
    · intro q hq hq2 hq3
      simp only [List.nil_append, List.mem_singleton] at hq2
      show upd _ _ _ _ = _
      rw [upd_other _ _ _ _ hq3]
      exact h9 q hq (by simp) hq2
    · exact h10
  · have hf : ¬ v.stack_ends.first = NULL := fun e => hcs ((backlog_first_null_iff h4).1 e)
    obtain ⟨xs, hxs⟩ := List.getLast?_eq_some_iff.1 (h5 hcs)
    have hlast_mem : v.stack_ends.last ∈ cs := by rw [hxs]; simp
    obtain ⟨l, hlive⟩ := backlog_live h4 hlast_mem
    have hlt : v.stack_ends.last ≠ v.temp_element := (h7 _ hlast_mem).2
    refine ⟨⟨⟨v.stack_ends.first, v.temp_element⟩, st.brk + 1⟩,
      { st with
        items := upd (upd st.items v.stack_ends.last (some { l with link := v.temp_element }))
          (st.brk + 1) (some junk_item),
        brk := st.brk + 1 },
      by simp [append_element, hf, State.malloc_item, State.set_item, hlive], ?_⟩
    have hy2 : upd st.items v.stack_ends.last (some { l with link := v.temp_element })
        v.temp_element = some y := by
      rw [upd_other _ _ _ _ (Ne.symm hlt)]; exact hy
    refine ⟨?_, ?_, ⟨junk_item, by simp⟩, ?_, ?_, ?_, ?_, ?_, ?_, ?_⟩
    · intro q hq
      have hq1 : st.brk < q := Nat.lt_of_succ_lt hq
      have hq2 : q ≠ st.brk + 1 := Nat.ne_of_gt hq
      have hq3 : q ≠ v.stack_ends.last := fun e =>
        absurd (live_le_brk h1 hlive) (by rw [← e]; exact Nat.not_le_of_lt hq1)
      exact ⟨by
        show upd _ _ _ _ = _
        rw [upd_other _ _ _ _ hq2, upd_other _ _ _ _ hq3]; exact (h1 q hq1).1, (h1 q hq1).2⟩
    · exact nat_lt_succ_of_lt_of_le h2 hle
    · have hbase : backlog (upd st.items v.stack_ends.last (some { l with link := v.temp_element }))
          v.stack_ends.first (xs ++ v.stack_ends.last :: [v.temp_element]) := by
        rw [hxs] at h4
        refine chain_append (q := v.temp_element) h4 ?_ ?_ ?_ ?_
        · exact (backlog_cons_iff _ _ _ _).2 ⟨rfl, htn, y, hy, hl⟩
        · intro x hx
          simp [link_of, upd_other _ _ _ _ hx]
        · simp [link_of]
        · simpa using hlt
      have hbase2 : backlog (upd st.items v.stack_ends.last
          (some { l with link := v.temp_element })) v.stack_ends.first
          (cs ++ [v.temp_element]) := by
        rw [hxs]; simpa using hbase
      refine backlog_frame ?_ hbase2
      intro c hc
      have hcl : ∃ r, st.items c = some r := by
        rcases List.mem_append.1 hc with g | g
        · exact backlog_live h4 g
        · simp only [List.mem_singleton] at g; subst g; exact ⟨y, hy⟩
      show upd _ _ _ _ = _
      rw [upd_other _ _ _ _ (hfresh c hcl)]
    · intro _; simp
    · simp only [List.map_append, List.map_cons, List.map_nil]
      congr 1
      · rw [← h6]
        refine List.map_congr_left ?_
        intro c hc
        rw [payload_at_upd_other _ _ _ _ (hfresh c (backlog_live h4 hc))]
        by_cases hcl : c = v.stack_ends.last
        · subst hcl
          simp [payload_at, hlive, proj_space.payload]
        · rw [payload_at_upd_other _ _ _ _ hcl]
      · rw [payload_at_upd_other _ _ _ _ (hfresh _ ⟨y, hy⟩),
          payload_at_upd_other _ _ _ _ (Ne.symm hlt)]
        simp [payload_at, hy]
    · intro c hc
      rcases List.mem_append.1 hc with g | g
      · exact ⟨(h7 c g).1, hfresh c (backlog_live h4 g)⟩
      · simp only [List.mem_singleton] at g; subst g
        exact ⟨h2, hfresh _ ⟨y, hy⟩⟩
    · intro q hq
      have hq2 : q ≠ st.brk + 1 := nat_ne_of_le_of_lt hq (nat_lt_succ_of_lt_of_le h2 hle)
      have hq3 : q ≠ v.stack_ends.last := nat_ne_of_le_of_lt hq (h7 _ hlast_mem).1
      show upd _ _ _ _ = _
      rw [upd_other _ _ _ _ hq2, upd_other _ _ _ _ hq3]; exact h8 q hq
    · intro q hq hq2 hq3
      simp only [List.mem_append, List.mem_singleton, not_or] at hq2
      have hq4 : q ≠ v.stack_ends.last := fun e => hq2.1 (e ▸ hlast_mem)
      show upd _ _ _ _ = _
      rw [upd_other _ _ _ _ hq3, upd_other _ _ _ _ hq4]
      exact h9 q hq hq2.1 hq2.2
    · exact h10

theorem payload_of_link_null (c : proj_space) (h : c.link = NULL) : c.payload = c := by
  cases c with
  | mk l k A M =>
    have hl : l = NULL := h
    subst hl
    rfl

theorem build_inv_init (s : State) (hheap : heap_ok s) :
    build_inv s { s with items := upd s.items (s.brk + 1) (some junk_item), brk := s.brk + 1 }
      ⟨⟨NULL, NULL⟩, s.brk + 1⟩ [] [] := by
  refine ⟨?_, Nat.lt_succ_self _, ⟨junk_item, by simp⟩, rfl, by simp, rfl, by simp, ?_, ?_, rfl⟩
  · intro q hq
    have hq1 : s.brk < q := Nat.lt_of_succ_lt hq
    have hq2 : q ≠ s.brk + 1 := Nat.ne_of_gt hq
    exact ⟨by show upd _ _ _ _ = _; rw [upd_other _ _ _ _ hq2]; exact (hheap q hq1).1,
      (hheap q hq1).2⟩
  · intro q hq
    show upd _ _ _ _ = _
    rw [upd_other _ _ _ _ (nat_ne_succ_of_le hq)]
  · intro q hq _ hq3
    show upd _ _ _ _ = _
    rw [upd_other _ _ _ _ hq3]
    exact (hheap q hq).1

theorem stub_loop_spec (s0 : State) :
    ∀ (ys2 : List proj_space) (st : State) (v : BranchVars) (cs : List Ptr)
      (ys : List proj_space), build_inv s0 st v cs ys → (∀ c ∈ ys2, c.link = NULL) →
      ∃ v2 st2 cs2, stub_loop ys2 v st = .ok (v2, st2) ∧
        build_inv s0 st2 v2 (cs ++ cs2) (ys ++ ys2) := by
  intro ys2
  induction ys2 with
  | nil =>
    intro st v cs ys hinv _
    exact ⟨v, st, [], rfl, by simpa using hinv⟩
  | cons c rest ih =>
    intro st v cs ys hinv hl
    obtain ⟨t, ht⟩ := hinv.2.2.1
    have hinv1 := build_inv_set_temp hinv { c with link := NULL }
    obtain ⟨v2, st2, e2, hinv2⟩ := append_element_spec hinv1 { c with link := NULL }
      (by simp) rfl
    have hp : ({ c with link := NULL } : proj_space).payload = c :=
      payload_of_link_null c (hl c (List.mem_cons_self _ _))
    rw [hp] at hinv2
    obtain ⟨v3, st3, cs3, e3, hinv3⟩ := ih st2 v2 _ _ hinv2
      (fun c hc => hl c (List.mem_cons_of_mem _ hc))
    refine ⟨v3, st3, v.temp_element :: cs3, ?_, by simpa using hinv3⟩
    simp only [stub_loop, State.set_item, ht, res_bind_ok, e2, e3]

theorem child_eq (x : proj_space) (s j : Int) (hj : count_bits 8 s 0 = .ok j) :
    child x s =
      if Int.lor (branch_idx x) (~~~s) = -1 ∧
          j ≤ x.k + 4 - (x.A 0 + x.A 1 + x.A 2 + x.A 3 + x.A 4) ∧
          j ≥ x.k + 3 - (x.A 0 + x.A 1 + x.A 2 + x.A 3 + x.A 4) then
        if ordered (bump x.A s) then
          some ⟨NULL, x.k + 1, bump x.A s, new_minA x (bump x.A s)⟩
        else none
      else none := by
  simp only [child, hj]

theorem branch_step_spec (s0 : State) (arg : Ptr) (x : proj_space)
    (hx : s0.items arg = some x) (harg : arg ≤ s0.brk) (s j : Int)
    (hj : count_bits 8 s 0 = .ok j) (st : State) (v : BranchVars) (cs : List Ptr)
    (ys : List proj_space) (hinv : build_inv s0 st v cs ys) :
    ∃ v2 st2 cs2,
      branch_step arg (branch_idx x) (x.k + 3 - (x.A 0 + x.A 1 + x.A 2 + x.A 3 + x.A 4))
        (x.k + 4 - (x.A 0 + x.A 1 + x.A 2 + x.A 3 + x.A 4)) s v st = .ok (v2, st2) ∧
      build_inv s0 st2 v2 (cs ++ cs2) (ys ++ (child x s).toList) := by
  obtain ⟨t, ht⟩ := hinv.2.2.1
  have hat : arg ≠ v.temp_element := nat_ne_of_le_of_lt harg hinv.2.1
  have hxa : st.items arg = some x := by rw [hinv.2.2.2.2.2.2.2.1 arg harg]; exact hx
  rw [child_eq x s j hj]
  by_cases hc : Int.lor (branch_idx x) (~~~s) = -1 ∧
      j ≤ x.k + 4 - (x.A 0 + x.A 1 + x.A 2 + x.A 3 + x.A 4) ∧
      j ≥ x.k + 3 - (x.A 0 + x.A 1 + x.A 2 + x.A 3 + x.A 4)
  · have hinv1 := build_inv_set_temp hinv { t with A := bump x.A s }
    by_cases ho : ordered (bump x.A s)
    · have hinv2 := build_inv_set_temp hinv1
        ⟨NULL, x.k + 1, bump x.A s, new_minA x (bump x.A s)⟩
      obtain ⟨v2, st2, e2, hinv3⟩ := append_element_spec hinv2
        ⟨NULL, x.k + 1, bump x.A s, new_minA x (bump x.A s)⟩ (by simp) rfl
      refine ⟨v2, st2, [v.temp_element], ?_, ?_⟩
      · simp only [branch_step, hj, res_bind_ok, hc, and_self, if_true, State.item, hxa,
          State.set_item, ht, upd_same, ho, upd_other _ _ _ _ hat]
        exact e2
      · rw [if_pos hc, if_pos ho]
        simpa [proj_space.payload] using hinv3
    · refine ⟨v, ({ st with
          items := (upd st.items v.temp_element (some { t with A := bump x.A s })) } : State),
        [], ?_, ?_⟩
      · simp only [branch_step, hj, res_bind_ok, hc, and_self, if_true, State.item, hxa,
          State.set_item, ht, upd_same, ho, if_false, res_pure]
      · rw [if_pos hc, if_neg ho]
        simpa using hinv1
  · refine ⟨v, st, [], ?_, ?_⟩
    · simp only [branch_step, hj, res_bind_ok, hc, if_false, res_pure]
    · rw [if_neg hc]
      simpa using hinv

theorem branch_loop_spec (s0 : State) (arg : Ptr) (x : proj_space)
    (hx : s0.items arg = some x) (harg : arg ≤ s0.brk) :
    ∀ (ss : List Int), (∀ s ∈ ss, ∃ j, count_bits 8 s 0 = .ok j) →
      ∀ (st : State) (v : BranchVars) (cs : List Ptr) (ys : List proj_space),
        build_inv s0 st v cs ys →
        ∃ v2 st2 cs2,
          branch_loop arg (branch_idx x) (x.k + 3 - (x.A 0 + x.A 1 + x.A 2 + x.A 3 + x.A 4))
            (x.k + 4 - (x.A 0 + x.A 1 + x.A 2 + x.A 3 + x.A 4)) ss v st = .ok (v2, st2) ∧
          build_inv s0 st2 v2 (cs ++ cs2) (ys ++ ss.filterMap (child x)) := by
  intro ss
  induction ss with
  | nil =>
    intro _ st v cs ys hinv
    exact ⟨v, st, [], rfl, by simpa using hinv⟩
  | cons s rest ih =>
    intro hss st v cs ys hinv
    obtain ⟨j, hj⟩ := hss s (List.mem_cons_self _ _)
    obtain ⟨v2, st2, cs2, e2, hinv2⟩ := branch_step_spec s0 arg x hx harg s j hj st v cs ys hinv
    obtain ⟨v3, st3, cs3, e3, hinv3⟩ := ih (fun s hs => hss s (List.mem_cons_of_mem _ hs))
      st2 v2 _ _ hinv2
    refine ⟨v3, st3, cs2 ++ cs3, ?_, ?_⟩
    · simp only [branch_loop, e2, res_bind_ok, e3]
    · have : ys ++ (child x s).toList ++ List.filterMap (child x) rest
          = ys ++ List.filterMap (child x) (s :: rest) := by
        cases hch : child x s <;> simp [List.filterMap_cons, hch]
      rw [← this, ← List.append_assoc]
      exact hinv3

theorem count_bits_subsets : ∀ s ∈ subsets, ∃ j, count_bits 8 s 0 = .ok j := by
  have h : ∀ i : Fin 32, (count_bits 8 (Int.ofNat i.val) 0).toOption.isSome = true := by
    decide!
  intro s hs
  simp only [subsets, List.mem_map, List.mem_range] at hs
  obtain ⟨i, hi, rfl⟩ := hs
  have := h ⟨i, hi⟩
  cases hc : count_bits 8 (Int.ofNat i) 0 with
  | error e => rw [hc] at this; cases this
  | ok j => exact ⟨j, rfl⟩

theorem map_some_eq_nil_iff {cs : List Ptr} {ys : List proj_space}
    {f : Ptr → Option proj_space} (h : cs.map f = ys.map some) : ys = [] ↔ cs = [] := by
  have := congrArg List.length h
  simp only [List.length_map] at this
  constructor
  · intro e; subst e; exact List.length_eq_zero.1 this
  · intro e; subst e; exact List.length_eq_zero.1 this.symm

theorem branch_finish_spec (s0 : State) (hheap : heap_ok s0) (arg : Ptr) (x : proj_space)
    (hx : s0.items arg = some x) (st : State) (v : BranchVars) (cs : List Ptr)
    (ys : List proj_space) (hinv : build_inv s0 st v cs ys) :
    ∃ s2, branch_finish arg v st = .ok (v.stack_ends, s2) ∧ heap_ok s2 ∧
      backlog s2.items v.stack_ends.first cs ∧
      (cs ≠ [] → cs.getLast? = some v.stack_ends.last) ∧
      cs.map (payload_at s2.items) = ys.map some ∧
      (∀ c ∈ cs, s0.items c = none) ∧
      (∀ q, q ∉ cs → s2.items q = s0.items q) ∧
      (v.stack_ends.first = NULL ↔ ys = []) ∧
      s2.max_k = (if ys = [] then update_max_k s0.max_k x.k else s0.max_k) ∧
      s2.trace = s0.trace ++ (if ys = [] then terminal_events s0.max_k x else []) ∧
      s2.engines = s0.engines ∧ s2.engine_key = s0.engine_key ∧
      s2.engine_list_head = s0.engine_list_head ∧ s2.workq = s0.workq ∧
      s2.spill = s0.spill ∧ s0.brk ≤ s2.brk := by
  obtain ⟨h1, h2, ⟨t, h3⟩, h4, h5, h6, h7, h8, h9, h10⟩ := hinv
  have harg : arg ≤ s0.brk := live_le_brk hheap hx
  have hat : arg ≠ v.temp_element := nat_ne_of_le_of_lt harg h2
  have hxa : st.items arg = some x := by rw [h8 arg harg]; exact hx
  have hnull : v.stack_ends.first = NULL ↔ ys = [] :=
    (backlog_first_null_iff h4).trans (map_some_eq_nil_iff h6).symm
  have hE : st.engines = s0.engines := by have := congrArg State.engines h10; exact this
  have hK : st.engine_key = s0.engine_key := by have := congrArg State.engine_key h10; exact this
  have hH : st.engine_list_head = s0.engine_list_head := by have := congrArg State.engine_list_head h10; exact this
  have hM : st.max_k = s0.max_k := by have := congrArg State.max_k h10; exact this
  have hW : st.workq = s0.workq := by have := congrArg State.workq h10; exact this
  have hS : st.spill = s0.spill := by have := congrArg State.spill h10; exact this
  have hT : st.trace = s0.trace := by have := congrArg State.trace h10; exact this
  have hbrk : s0.brk ≤ st.brk := Nat.le_of_lt (Nat.lt_of_lt_of_le h2 (live_le_brk h1 h3))
  have hheap2 : ∀ q, st.brk < q → upd st.items v.temp_element none q = none ∧
      st.engines q = none := by
    intro q hq
    refine ⟨?_, (h1 q hq).2⟩
    by_cases e : q = v.temp_element
    · rw [e]; simp
    · rw [upd_other _ _ _ _ e]; exact (h1 q hq).1
  have hback : backlog (upd st.items v.temp_element none) v.stack_ends.first cs := by
    refine backlog_frame ?_ h4
    intro c hc
    rw [upd_other _ _ _ _ (h7 c hc).2]
  have hpay : cs.map (payload_at (upd st.items v.temp_element none)) = ys.map some := by
    rw [← h6]
    refine List.map_congr_left ?_
    intro c hc
    exact payload_at_upd_other _ _ _ _ (h7 c hc).2
  have hnew : ∀ c ∈ cs, s0.items c = none := fun c hc => (hheap c (h7 c hc).1).1
  have hframe : ∀ q, q ∉ cs → upd st.items v.temp_element none q = s0.items q := by
    intro q hq
    by_cases e : q = v.temp_element
    · rw [e, upd_same]; exact ((hheap _ h2).1).symm
    · rw [upd_other _ _ _ _ e]
      by_cases hle : q ≤ s0.brk
      · exact h8 q hle
      · have hlt : s0.brk < q := Nat.lt_of_not_le hle
        rw [h9 q hlt hq e]; exact ((hheap q hlt).1).symm
  by_cases hys : ys = []
  · have hf : v.stack_ends.first = NULL := hnull.2 hys
    have hxa2 : upd st.items v.temp_element none arg = some x := by
      rw [upd_other _ _ _ _ hat]; exact hxa
    by_cases hlt : st.max_k < x.k
    · refine ⟨{ st with
          items := upd st.items v.temp_element none, max_k := x.k,
          trace := st.trace ++ [Event.lock .max_k_mutex] ++ [report x] ++
            [Event.unlock .max_k_mutex] }, ?_, hheap2, hback, h5, hpay, hnew, hframe, hnull, ?_,
        ?_, hE, hK, hH, hW, hS, hbrk⟩
      · simp [branch_finish, State.free_item, h3, hf, record_terminal, State.emit, State.item,
          hxa2, hlt]
      · rw [hM] at hlt
        simp [hys, update_max_k, hlt]
      · rw [hM] at hlt
        simp [hys, terminal_events, hlt, hT]
    · refine ⟨{ st with
          items := upd st.items v.temp_element none,
          trace := st.trace ++ [Event.lock .max_k_mutex] ++ [Event.unlock .max_k_mutex] }, ?_,
        hheap2, hback, h5, hpay, hnew, hframe, hnull, ?_, ?_, hE, hK, hH, hW, hS, hbrk⟩
      · simp [branch_finish, State.free_item, h3, hf, record_terminal, State.emit, State.item,
          hxa2, hlt]
      · rw [hM] at hlt
        simp [hys, update_max_k, hlt, hM]
      · rw [hM] at hlt
        simp [hys, terminal_events, hlt, hT]
  · have hf : ¬ v.stack_ends.first = NULL := fun e => hys (hnull.1 e)
    refine ⟨{ st with items := upd st.items v.temp_element none }, ?_, hheap2, hback, h5, hpay,
      hnew, hframe, hnull, ?_, ?_, hE, hK, hH, hW, hS, hbrk⟩
    · simp [branch_finish, State.free_item, h3, hf]
    · simp [hys, hM]
    · simp [hys, hT]

theorem branch_spec (s : State) (hheap : heap_ok s) (arg : Ptr) (x : proj_space)
    (hx : s.items arg = some x) :
    ∃ ends s2 cs, branch arg s = .ok (ends, s2) ∧ heap_ok s2 ∧
      backlog s2.items ends.first cs ∧
      (cs ≠ [] → cs.getLast? = some ends.last) ∧
      cs.map (payload_at s2.items) = (branch_children x).map some ∧
      (∀ c ∈ cs, s.items c = none) ∧
      (∀ q, q ∉ cs → s2.items q = s.items q) ∧
      (ends.first = NULL ↔ branch_children x = []) ∧
      s2.max_k = (if branch_children x = [] then update_max_k s.max_k x.k else s.max_k) ∧
      s2.trace = s.trace ++ (if branch_children x = [] then terminal_events s.max_k x else []) ∧
      s2.engines = s.engines ∧ s2.engine_key = s.engine_key ∧
      s2.engine_list_head = s.engine_list_head ∧ s2.workq = s.workq ∧
      s2.spill = s.spill ∧ s.brk ≤ s2.brk := by
  have harg : arg ≤ s.brk := live_le_brk hheap hx
  have hne : arg ≠ s.brk + 1 := nat_ne_succ_of_le harg
  obtain ⟨v2, st2, cs2, e2, hinv2⟩ := branch_loop_spec s arg x hx harg subsets count_bits_subsets
    _ _ _ _ (build_inv_init s hheap)
  obtain ⟨s3, e3, h⟩ := branch_finish_spec s hheap arg x hx st2 v2 _ _ hinv2
  refine ⟨v2.stack_ends, s3, cs2, ?_, ?_⟩
  · simp only [branch, State.malloc_item, Nat.add_one_ne_zero, if_false, State.item,
      upd_other _ _ _ _ hne, hx, res_bind_ok, res_pure]
    rw [e2]
    exact e3
  · simpa [branch_children] using h

theorem branch_stub_spec (children : proj_space → List proj_space)
    (hlink : ∀ y, ∀ c ∈ children y, c.link = NULL)
    (s : State) (hheap : heap_ok s) (arg : Ptr) (x : proj_space) (hx : s.items arg = some x) :
    ∃ ends s2 cs, branch_stub children arg s = .ok (ends, s2) ∧ heap_ok s2 ∧
      backlog s2.items ends.first cs ∧
      (cs ≠ [] → cs.getLast? = some ends.last) ∧
      cs.map (payload_at s2.items) = (children x.payload).map some ∧
      (∀ c ∈ cs, s.items c = none) ∧
      (∀ q, q ∉ cs → s2.items q = s.items q) ∧
      (ends.first = NULL ↔ children x.payload = []) ∧
      s2.max_k = (if children x.payload = [] then update_max_k s.max_k x.k else s.max_k) ∧
      s2.trace = s.trace ++ (if children x.payload = [] then terminal_events s.max_k x else []) ∧
      s2.engines = s.engines ∧ s2.engine_key = s.engine_key ∧
      s2.engine_list_head = s.engine_list_head ∧ s2.workq = s.workq ∧
      s2.spill = s.spill ∧ s.brk ≤ s2.brk := by
  have harg : arg ≤ s.brk := live_le_brk hheap hx
  have hne : arg ≠ s.brk + 1 := nat_ne_succ_of_le harg
  obtain ⟨v2, st2, cs2, e2, hinv2⟩ := stub_loop_spec s (children x.payload)
    _ _ _ _ (build_inv_init s hheap) (hlink _)
  obtain ⟨s3, e3, h⟩ := branch_finish_spec s hheap arg x hx st2 v2 _ _ hinv2
  refine ⟨v2.stack_ends, s3, cs2, ?_, ?_⟩
  · simp only [branch_stub, State.malloc_item, Nat.add_one_ne_zero, if_false, State.item,
      upd_other _ _ _ _ hne, hx, res_bind_ok, res_pure]
    rw [e2]
    exact e3
  · simpa using h

theorem branched_append_of_none (t evs : List Event)
    (h : ∀ ev ∈ evs, Event.branched ev = none) :
    (t ++ evs).filterMap Event.branched = t.filterMap Event.branched := by
  rw [List.filterMap_append]
  have : evs.filterMap Event.branched = [] := by
    induction evs with
    | nil => rfl
    | cons e r ih =>
      rw [List.filterMap_cons, h e (List.mem_cons_self _ _)]
      exact ih (fun ev hev => h ev (List.mem_cons_of_mem _ hev))
  rw [this, List.append_nil]

theorem terminal_events_branched (m : Int) (x : proj_space) :
    ∀ ev ∈ terminal_events m x, Event.branched ev = none := by
  intro ev hev
  simp only [terminal_events, List.mem_append, List.mem_singleton, List.mem_ite_nil_right] at hev
  rcases hev with (rfl | ⟨_, h⟩) | rfl
  · rfl
  · subst h; rfl
  · rfl

theorem child_payload (x : proj_space) (s : Int) : child x.payload s = child x s := rfl

theorem branch_children_payload (x : proj_space) :
    branch_children x.payload = branch_children x := rfl

theorem branch_expands : expands branch branch_children := by
  intro s arg x hheap hx
  obtain ⟨ends, s2, cs, h1, h2, h3, h4, h5, h6, h7, _, _, h10, h11, h12, _⟩ :=
    branch_spec s hheap arg x hx
  refine ⟨ends, s2, cs, h1, h2, h3, h4, ?_, h6, h7, h11, h12, ?_⟩
  · rw [branch_children_payload]; exact h5
  · rw [h10]
    apply branched_append_of_none
    split
    · exact terminal_events_branched _ _
    · simp

theorem branch_stub_expands (children : proj_space → List proj_space)
    (hlink : ∀ y, ∀ c ∈ children y, c.link = NULL) : expands (branch_stub children) children := by
  intro s arg x hheap hx
  obtain ⟨ends, s2, cs, h1, h2, h3, h4, h5, h6, h7, _, _, h10, h11, h12, _⟩ :=
    branch_stub_spec children hlink s hheap arg x hx
  refine ⟨ends, s2, cs, h1, h2, h3, h4, h5, h6, h7, h11, h12, ?_⟩
  rw [h10]
  apply branched_append_of_none
  split
  · exact terminal_events_branched _ _
  · simp

end ProjGame

namespace ProjGame

/-! ## The worker loop -/

theorem payload_at_link (items : Ptr → Option proj_space) (l : Ptr) (r : proj_space)
    (hl : items l = some r) (n : Ptr) (c : Ptr) :
    payload_at (upd items l (some { r with link := n })) c = payload_at items c := by
  by_cases h : c = l
  · subst h; simp [payload_at, hl, proj_space.payload]
  · exact payload_at_upd_other _ _ _ _ h

theorem engine_advance_spec (s1 : State) (e : Ptr) (v : engine_t) (ends : list_ends)
    (p0 : Ptr) (rest cs : List Ptr) (x : proj_space) (qr ys : List proj_space)
    (hheap : heap_ok s1) (hv : s1.engines e = some v) (hfirst : v.list_first = p0)
    (hb : backlog s1.items p0 (p0 :: rest))
    (hlast : (p0 :: rest).getLast? = some v.list_last)
    (hpay : (p0 :: rest).map (payload_at s1.items) = (x :: qr).map some)
    (hcs : backlog s1.items ends.first cs)
    (hcl : cs ≠ [] → cs.getLast? = some ends.last)
    (hcp : cs.map (payload_at s1.items) = ys.map some)
    (hdisj : ∀ c ∈ cs, c ∉ p0 :: rest) :
    ∃ temp s2 v2, engine_advance e ends s1 = .ok (temp, s2) ∧
      worker_inv s2 e (rest ++ cs) (qr ++ ys) ∧
      s2.engines e = some v2 ∧ v2.list_first = temp ∧
      s2.trace = s1.trace ++
        [Event.lock (.my_list_mutex e), Event.unlock (.my_list_mutex e)] ∧
      s2.engine_key = s1.engine_key ∧
      (∀ q, q ≠ e → s2.engines q = s1.engines q) ∧
      v2.prev = v.prev ∧ v2.next = v.next ∧ s2.engine_list_head = s1.engine_list_head := by
  have hp0 : p0 ≠ NULL := ((backlog_cons_iff _ _ _ _).1 hb).2.1
  have hpr : rest.map (payload_at s1.items) = qr.map some := by
    simp only [List.map_cons, List.cons.injEq] at hpay
    exact hpay.2
  by_cases hce : cs = []
  · subst hce
    have hf : ends.first = NULL := hcs
    have hys : ys = [] := (map_some_eq_nil_iff hcp).2 rfl
    subst hys
    obtain ⟨_, _, r0, h0, hb1⟩ := (backlog_cons_iff _ _ _ _).1 hb
    have hnd : (p0 :: rest).Nodup := chain_nodup hb
    have hp0r : p0 ∉ rest := (List.nodup_cons.1 hnd).1
    refine ⟨r0.link,
      { s1 with
        items := upd s1.items p0 none,
        engines := upd s1.engines e (some { v with list_first := r0.link }),
        trace := s1.trace ++ [Event.lock (.my_list_mutex e)] ++
          [Event.unlock (.my_list_mutex e)] },
      { v with list_first := r0.link }, ?_, ?_, by simp, rfl, by simp, rfl, ?_, rfl, rfl, rfl⟩
    · simp [engine_advance, hf, State.emit, State.engine, hv, hfirst, State.item, h0,
        State.free_item, State.set_engine]
    · refine ⟨?_, { v with list_first := r0.link }, by simp, ?_, ?_, ?_⟩
      · intro q hq
        refine ⟨?_, ?_⟩
        · show upd _ _ _ _ = _
          by_cases h : q = p0
          · rw [h]; simp
          · rw [upd_other _ _ _ _ h]; exact (hheap q hq).1
        · show upd _ _ _ _ = _
          have : q ≠ e := by
            intro h; rw [h] at hq
            have := (hheap e hq).2
            rw [hv] at this; cases this
          rw [upd_other _ _ _ _ this]; exact (hheap q hq).2
      · simp only [List.append_nil]
        refine backlog_frame ?_ hb1
        intro c hc
        show upd _ _ _ _ = _
        rw [upd_other _ _ _ _ (ne_of_mem_of_not_mem hc hp0r)]
      · intro hr
        simp only [List.append_nil] at hr ⊢
        cases rest with
        | nil => exact absurd rfl hr
        | cons y r => simpa using hlast
      · simp only [List.append_nil]
        rw [← hpr]
        refine List.map_congr_left ?_
        intro c hc
        exact payload_at_upd_other _ _ _ _ (ne_of_mem_of_not_mem hc hp0r)
    · intro q hq
      show upd _ _ _ _ = _
      rw [upd_other _ _ _ _ hq]
  · have hf : ¬ ends.first = NULL := fun h => hce ((backlog_first_null_iff hcs).1 h)
    obtain ⟨xs, hxs⟩ := List.getLast?_eq_some_iff.1 hlast
    have hlm : v.list_last ∈ p0 :: rest := by rw [hxs]; simp
    obtain ⟨l, hl⟩ := backlog_live hb hlm
    have hlcs : v.list_last ∉ cs := fun h => hdisj _ h hlm
    have hbig : backlog (upd s1.items v.list_last (some { l with link := ends.first })) p0
        ((p0 :: rest) ++ cs) := by
      rw [hxs] at hb ⊢
      have := @chain_append (link_of s1.items) (link_of (upd s1.items v.list_last
        (some { l with link := ends.first }))) p0 ends.first v.list_last xs cs hb hcs
        (fun y hy => by simp [link_of, upd_other _ _ _ _ hy]) (by simp [link_of]) hlcs
      simpa [backlog] using this
    simp only [List.cons_append] at hbig
    obtain ⟨_, _, r0, h0, hb1⟩ := (backlog_cons_iff _ _ _ _).1 hbig
    have hnd : (p0 :: (rest ++ cs)).Nodup := chain_nodup hbig
    have hp0r : p0 ∉ rest ++ cs := (List.nodup_cons.1 hnd).1
    refine ⟨r0.link,
      { s1 with
        items := upd (upd s1.items v.list_last (some { l with link := ends.first })) p0 none,
        engines := upd (upd s1.engines e (some { v with list_last := ends.last })) e
          (some { v with list_last := ends.last, list_first := r0.link }),
        trace := s1.trace ++ [Event.lock (.my_list_mutex e)] ++
          [Event.unlock (.my_list_mutex e)] },
      { v with list_last := ends.last, list_first := r0.link }, ?_, ?_, by simp, rfl, by simp,
      rfl, ?_, rfl, rfl, rfl⟩
    · simp [engine_advance, hf, State.emit, State.engine, hv, hfirst, State.item, h0,
        State.free_item, State.set_engine, State.set_item, hl]
    · refine ⟨?_, { v with list_last := ends.last, list_first := r0.link }, by simp, ?_, ?_, ?_⟩
      · intro q hq
        refine ⟨?_, ?_⟩
        · show upd _ _ _ _ = _
          by_cases h : q = p0
          · rw [h]; simp
          · rw [upd_other _ _ _ _ h]
            have : q ≠ v.list_last := by
              intro h2; rw [h2] at hq
              have := (hheap _ hq).1
              rw [hl] at this; cases this
            rw [upd_other _ _ _ _ this]; exact (hheap q hq).1
        · show upd _ _ _ _ = _
          have : q ≠ e := by
            intro h; rw [h] at hq
            have := (hheap e hq).2
            rw [hv] at this; cases this
          rw [upd_other _ _ _ _ this, upd_other _ _ _ _ this]; exact (hheap q hq).2
      · refine backlog_frame ?_ hb1
        intro c hc
        show upd _ _ _ _ = _
        rw [upd_other _ _ _ _ (ne_of_mem_of_not_mem hc hp0r)]
      · intro _
        rw [List.getLast?_append_of_ne_nil _ hce]
        exact hcl hce
      · simp only [List.map_append]
        congr 1
        · rw [← hpr]
          refine List.map_congr_left ?_
          intro c hc
          rw [payload_at_upd_other _ _ _ _
            (ne_of_mem_of_not_mem (List.mem_append_left _ hc) hp0r)]
          exact payload_at_link _ _ _ hl _ _
        · rw [← hcp]
          refine List.map_congr_left ?_
          intro c hc
          rw [payload_at_upd_other _ _ _ _
            (ne_of_mem_of_not_mem (List.mem_append_right _ hc) hp0r)]
          exact payload_at_link _ _ _ hl _ _
    · intro q hq
      show upd _ _ _ _ = _
      rw [upd_other _ _ _ _ hq, upd_other _ _ _ _ hq]

theorem branched_emit_branch (t : List Event) (x : proj_space) :
    (t ++ [Event.branch x]).filterMap Event.branched = t.filterMap Event.branched ++ [x] := by
  simp [List.filterMap_append, Event.branched]

theorem engine_loop_step (br : Ptr → State → Res (list_ends × State))
    (f : proj_space → List proj_space) (hbr : expands br f) (e : Ptr) (s : State)
    (p0 : Ptr) (rest : List Ptr) (x : proj_space) (qr : List proj_space)
    (hinv : worker_inv s e (p0 :: rest) (x :: qr)) :
    ∃ s2 ps2 v2, worker_inv s2 e ps2 (qr ++ f x) ∧ s2.engines e = some v2 ∧
      s2.trace.filterMap Event.branched = s.trace.filterMap Event.branched ++ [x] ∧
      s2.engine_key = s.engine_key ∧
      ∀ n, engine_loop br e (n + 1) p0 s = engine_loop br e n v2.list_first s2 := by
  obtain ⟨hheap, v, hv, hb, hlast, hpay⟩ := hinv
  obtain ⟨hf, hp0, r0, h0, _⟩ := (backlog_cons_iff _ _ _ _).1 hb
  rw [hf] at hb
  have hx : r0.payload = x := by
    simp only [List.map_cons, List.cons.injEq, payload_at, h0, Option.map_some',
      Option.some.injEq] at hpay
    exact hpay.1
  have hheap1 : heap_ok (s.emit (.branch r0.payload)) := hheap
  obtain ⟨ends, s1, cs, e1, g1, g2, g3, g4, g5, g6, g7, g8, g9⟩ :=
    hbr (s.emit (.branch r0.payload)) p0 r0 hheap1 h0
  have hold : ∀ c ∈ p0 :: rest, s1.items c = s.items c := by
    intro c hc
    refine g6 c ?_
    intro hcc
    obtain ⟨r, hr⟩ := backlog_live hb hc
    have := g5 c hcc
    rw [show (s.emit (.branch r0.payload)).items c = s.items c from rfl, hr] at this
    cases this
  have hb1 : backlog s1.items p0 (p0 :: rest) := backlog_frame hold hb
  have hpay1 : (p0 :: rest).map (payload_at s1.items) = (x :: qr).map some := by
    rw [← hpay]
    refine List.map_congr_left ?_
    intro c hc
    simp [payload_at, hold c hc]
  have hdisj : ∀ c ∈ cs, c ∉ p0 :: rest := by
    intro c hc hcp
    obtain ⟨r, hr⟩ := backlog_live hb hcp
    have := g5 c hc
    rw [show (s.emit (.branch r0.payload)).items c = s.items c from rfl, hr] at this
    cases this
  have hv1 : s1.engines e = some v := by rw [g7]; exact hv
  rw [hx] at g4
  obtain ⟨temp, s2, v2, e2, k1, k2, k3, k4, k5, _⟩ := engine_advance_spec s1 e v ends p0 rest cs x
    qr (f x) g1 hv1 hf hb1 (hlast (by simp)) hpay1 g2 g3 g4 hdisj
  refine ⟨s2, rest ++ cs, v2, k1, k2, ?_, ?_, ?_⟩
  · rw [k4]
    rw [branched_append_of_none _ _ (by
      intro ev hev
      simp only [List.mem_cons, List.mem_singleton, List.not_mem_nil, or_false] at hev
      rcases hev with rfl | rfl <;> rfl)]
    rw [g9, ← hx]
    exact branched_emit_branch _ _
  · rw [k5, g8]; rfl
  · intro n
    have hp0' : ¬ p0 = 0 := hp0
    simp only [engine_loop, hp0', if_false, State.item, h0, res_bind_ok, e1, e2, k3]

theorem worker_inv_cons {s : State} {e : Ptr} {ps : List Ptr} {x : proj_space}
    {q : List proj_space} (h : worker_inv s e ps (x :: q)) : ∃ p0 rest, ps = p0 :: rest := by
  obtain ⟨_, _, _, _, _, hpay⟩ := h
  cases ps with
  | nil => simp at hpay
  | cons p0 rest => exact ⟨p0, rest, rfl⟩

theorem engine_loop_segment (br : Ptr → State → Res (list_ends × State))
    (f : proj_space → List proj_space) (hbr : expands br f) (e : Ptr) :
    ∀ (r c : List proj_space) (ps : List Ptr) (s : State) (v : engine_t),
      worker_inv s e ps (r ++ c) → s.engines e = some v →
      ∃ s2 ps2 v2, worker_inv s2 e ps2 (c ++ r.flatMap f) ∧ s2.engines e = some v2 ∧
        s2.trace.filterMap Event.branched = s.trace.filterMap Event.branched ++ r ∧
        s2.engine_key = s.engine_key ∧
        ∀ n, engine_loop br e (r.length + n) v.list_first s =
          engine_loop br e n v2.list_first s2 := by
  intro r
  induction r with
  | nil =>
    intro c ps s v hinv hv
    exact ⟨s, ps, v, by simpa using hinv, hv, by simp, rfl, fun n => by simp⟩
  | cons x r ih =>
    intro c ps s v hinv hv
    obtain ⟨p0, rest, rfl⟩ := worker_inv_cons hinv
    have hfirst : v.list_first = p0 := by
      obtain ⟨_, v1, hv1, hb, _⟩ := hinv
      rw [hv] at hv1; cases hv1
      exact ((backlog_cons_iff _ _ _ _).1 hb).1
    obtain ⟨s1, ps1, v1, j1, j2, j3, j4, j5⟩ := engine_loop_step br f hbr e s p0 rest x (r ++ c)
      hinv
    rw [List.append_assoc] at j1
    obtain ⟨s2, ps2, v2, m1, m2, m3, m4, m5⟩ := ih (c ++ f x) ps1 s1 v1 j1 j2
    refine ⟨s2, ps2, v2, ?_, m2, ?_, ?_, ?_⟩
    · simpa [List.flatMap_cons, List.append_assoc] using m1
    · rw [m3, j3]; simp
    · rw [m4, j4]
    · intro n
      rw [hfirst, ← m5 n, ← j5]
      congr 1
      simp only [List.length_cons]
      omega

theorem engine_loop_levels (br : Ptr → State → Res (list_ends × State))
    (f : proj_space → List proj_space) (hbr : expands br f) (e : Ptr) :
    ∀ (d : Nat) (q : List proj_space) (ps : List Ptr) (s : State) (v : engine_t),
      worker_inv s e ps q → s.engines e = some v → level f d q = [] →
      ∃ s2 v2, s2.engines e = some v2 ∧ v2.list_first = NULL ∧ heap_ok s2 ∧
        s2.trace.filterMap Event.branched = s.trace.filterMap Event.branched ++ levels f d q ∧
        s2.engine_key = s.engine_key ∧
        ∀ n, engine_loop br e ((levels f d q).length + n + 1) v.list_first s = .ok s2 := by
  intro d
  induction d with
  | zero =>
    intro q ps s v hinv hv hl
    have hq : q = [] := hl
    subst hq
    obtain ⟨hheap, v1, hv1, hb, _, hpay⟩ := hinv
    rw [hv] at hv1; cases hv1
    have hps : ps = [] := by simpa using hpay
    subst hps
    have hf : v.list_first = NULL := hb
    exact ⟨s, v, hv, hf, hheap, by simp [levels], rfl, fun n => by simp [levels, engine_loop, hf]⟩
  | succ d ih =>
    intro q ps s v hinv hv hl
    obtain ⟨s1, ps1, v1, j1, j2, j3, j4, j5⟩ := engine_loop_segment br f hbr e q [] ps s v
      (by simpa using hinv) hv
    rw [List.nil_append] at j1
    obtain ⟨s2, v2, m1, m2, m3, m4, m5, m6⟩ := ih (q.flatMap f) ps1 s1 v1 j1 j2 hl
    refine ⟨s2, v2, m1, m2, m3, ?_, ?_, ?_⟩
    · rw [m4, j3]; simp [levels]
    · rw [m5, j4]
    · intro n
      rw [← m6 n, ← j5]
      congr 1
      simp only [levels, List.length_append]
      omega

theorem engine_live_le_brk {s : State} (h : heap_ok s) {p : Ptr} {v : engine_t}
    (hp : s.engines p = some v) : p ≤ s.brk := by
  by_contra hlt
  have := (h p (Nat.lt_of_not_le hlt)).2
  rw [hp] at this; cases this

theorem engine_start_spec (s1 : State) (e arg : Ptr) (v : engine_t) (x : proj_space)
    (hheap : heap_ok s1) (hv : s1.engines e = some v) (harg : arg ≠ NULL)
    (hx : s1.items arg = some x) (hlink : x.link = NULL) :
    ∃ s2 v2, engine_start e arg s1 = .ok (arg, s2) ∧ worker_inv s2 e [arg] [x] ∧
      s2.engines e = some v2 ∧ v2.list_first = arg ∧
      s2.trace.filterMap Event.branched = s1.trace.filterMap Event.branched ∧
      s2.engine_key = s1.engine_key := by
  refine ⟨{ s1 with
      engines := upd (upd s1.engines e (some { v with list_first := arg })) e
        (some { v with list_first := arg, list_last := arg }),
      trace := s1.trace ++ [Event.lock (.my_list_mutex e)] ++
        [Event.unlock (.my_list_mutex e)] },
    { v with list_first := arg, list_last := arg }, ?_, ?_, by simp, rfl, ?_, rfl⟩
  · simp [engine_start, State.emit, State.set_engine, hv, State.engine]
  · refine ⟨?_, { v with list_first := arg, list_last := arg }, by simp, ?_, by simp, ?_⟩
    · intro q hq
      have hqe : q ≠ e := Ne.symm (nat_ne_of_le_of_lt (engine_live_le_brk hheap hv) hq)
      exact ⟨(hheap q hq).1, by
        show upd _ _ _ _ = _
        rw [upd_other _ _ _ _ hqe, upd_other _ _ _ _ hqe]; exact (hheap q hq).2⟩
    · exact (backlog_cons_iff _ _ _ _).2 ⟨rfl, harg, x, hx, hlink⟩
    · simp [payload_at, hx, payload_of_link_null x hlink]
  · simp [List.filterMap_append, Event.branched]

theorem engine_lookup_spec (s : State) (t : Thread) (L : List Ptr) (hheap : heap_ok s)
    (hreg : registry s L)
    (hthread : (s.engine_key t.id = NULL ∧ t.mutex_init_status = 0 ∧ t.setspecific_status = 0) ∨
      (s.engine_key t.id ≠ NULL ∧ ∃ v, s.engines (s.engine_key t.id) = some v)) :
    ∃ e s1 v, engine_lookup t s = .ok (e, s1) ∧ heap_ok s1 ∧ s1.engines e = some v ∧
      s1.engine_key t.id = e ∧ e ≠ NULL ∧ s1.items = s.items ∧
      s1.trace.filterMap Event.branched = s.trace.filterMap Event.branched := by
  rcases hthread with ⟨hkey, hinit, hset⟩ | ⟨hkey, v, hv⟩
  · have hfresh : s.engines (s.brk + 1) = none := (hheap _ (Nat.lt_succ_self _)).2
    have hhead : s.engine_list_head = NULL ∨ ∃ v, s.engines s.engine_list_head = some v := by
      cases L with
      | nil => exact Or.inl hreg
      | cons h rest =>
        obtain ⟨h1, _, v, h3, _⟩ := (registry_from_cons_iff _ _ _ _ _).1 hreg
        exact Or.inr ⟨v, by rw [h1]; exact h3⟩
    obtain ⟨s1, e1, _, e3, e4, _, e6, e7, e8, _, _, _, e12⟩ :=
      engine_lookup_new s t hkey hinit hset hfresh hhead
    refine ⟨s.brk + 1, s1, _, e1, ?_, e4, by rw [e3]; simp, by simp, e7, ?_⟩
    · intro q hq
      rw [e8] at hq
      have hq1 : s.brk < q := Nat.lt_of_succ_lt hq
      have hq2 : q ≠ s.brk + 1 := Nat.ne_of_gt hq
      refine ⟨by rw [e7]; exact (hheap q hq1).1, ?_⟩
      rw [e6 q hq2 ?_]
      · exact (hheap q hq1).2
      · rcases hhead with h0 | ⟨w, hw⟩
        · exact Or.inr h0
        · exact Or.inl (Ne.symm (nat_ne_of_le_of_lt (engine_live_le_brk hheap hw) hq1))
    · rw [e12]
      apply branched_append_of_none
      intro ev hev
      simp only [List.mem_cons, List.mem_singleton, List.not_mem_nil, or_false] at hev
      rcases hev with rfl | rfl | rfl | rfl <;> rfl
  · exact ⟨s.engine_key t.id, s, v, engine_lookup_again t s hkey, hheap, hv, rfl, hkey, rfl, rfl⟩

theorem engine_routine_spec (br : Ptr → State → Res (list_ends × State))
    (f : proj_space → List proj_space) (hbr : expands br f) (t : Thread) (s : State)
    (L : List Ptr) (arg : Ptr) (x : proj_space) (d fuel : Nat)
    (hheap : heap_ok s) (hreg : registry s L)
    (hthread : (s.engine_key t.id = NULL ∧ t.mutex_init_status = 0 ∧ t.setspecific_status = 0) ∨
      (s.engine_key t.id ≠ NULL ∧ ∃ v, s.engines (s.engine_key t.id) = some v))
    (harg : arg ≠ NULL) (hx : s.items arg = some x) (hlink : x.link = NULL)
    (hfin : level f d [x] = []) (hfuel : (levels f d [x]).length < fuel) :
    ∃ s2, engine_routine_with br t fuel arg s = .ok s2 ∧
      s2.trace.filterMap Event.branched =
        s.trace.filterMap Event.branched ++ levels f d [x] ∧
      s2.engine_key t.id ≠ NULL ∧
      ∃ v, s2.engines (s2.engine_key t.id) = some v ∧ v.list_first = NULL := by
  obtain ⟨e, s1, v1, a1, a2, a3, a4, a5, a6, a7⟩ := engine_lookup_spec s t L hheap hreg hthread
  obtain ⟨s2, v2, b1, b2, b3, b4, b5, b6⟩ := engine_start_spec s1 e arg v1 x a2 a3 harg
    (by rw [a6]; exact hx) hlink
  obtain ⟨s3, v3, c1, c2, _, c4, c5, c6⟩ := engine_loop_levels br f hbr e d [x] [arg] s2 v2 b2 b3
    hfin
  obtain ⟨n, hn⟩ : ∃ n, fuel = (levels f d [x]).length + n + 1 :=
    ⟨fuel - (levels f d [x]).length - 1, by omega⟩
  have hkey : s3.engine_key t.id = e := by rw [c5, b6]; exact a4
  refine ⟨s3, ?_, ?_, by rw [hkey]; exact a5, v3, by rw [hkey]; exact c1, c2⟩
  · simp only [engine_routine_with, a1, res_bind_ok, b1]
    rw [hn, ← b4]
    exact c6 n
  · rw [c4, b5, a7]

/-! ## Levels and the expansion tree -/

theorem level_succ_flatMap (f : proj_space → List proj_space) :
    ∀ (n : Nat) (q : List proj_space), level f (n + 1) q = (level f n q).flatMap f := by
  intro n
  induction n with
  | zero => intro q; rfl
  | succ n ih =>
    intro q
    show level f (n + 1) (q.flatMap f) = (level f n (q.flatMap f)).flatMap f
    exact ih (q.flatMap f)

theorem level_nil (f : proj_space → List proj_space) : ∀ n : Nat, level f n [] = [] := by
  intro n
  induction n with
  | zero => rfl
  | succ n ih => exact ih

theorem level_empty_mono (f : proj_space → List proj_space) (q : List proj_space) (d : Nat)
    (h : level f d q = []) : ∀ n, d ≤ n → level f n q = [] := by
  intro n hn
  induction n with
  | zero =>
    have : d = 0 := Nat.le_zero.1 hn
    subst this; exact h
  | succ n ih =>
    by_cases hd : d = n + 1
    · subst hd; exact h
    · rw [level_succ_flatMap, ih (by omega)]
      rfl

theorem mem_levels_iff (f : proj_space → List proj_space) (y : proj_space) :
    ∀ (d : Nat) (q : List proj_space), y ∈ levels f d q ↔ ∃ i, i < d ∧ y ∈ level f i q := by
  intro d
  induction d with
  | zero => intro q; simp [levels]
  | succ d ih =>
    intro q
    simp only [levels, List.mem_append, ih]
    constructor
    · rintro (h | ⟨i, hi, h⟩)
      · exact ⟨0, Nat.succ_pos _, h⟩
      · exact ⟨i + 1, Nat.succ_lt_succ hi, h⟩
    · rintro ⟨i, hi, h⟩
      cases i with
      | zero => exact Or.inl h
      | succ i => exact Or.inr ⟨i, Nat.lt_of_succ_lt_succ hi, h⟩

theorem reachable_iff_mem_level (f : proj_space → List proj_space) (x y : proj_space) :
    reachable f x y ↔ ∃ n, y ∈ level f n [x] := by
  constructor
  · intro h
    induction h with
    | root => exact ⟨0, List.mem_singleton.2 rfl⟩
    | child _ hc ih =>
      obtain ⟨n, hn⟩ := ih
      exact ⟨n + 1, by rw [level_succ_flatMap]; exact List.mem_flatMap.2 ⟨_, hn, hc⟩⟩
  · rintro ⟨n, hn⟩
    induction n generalizing y with
    | zero =>
      have : y = x := List.mem_singleton.1 hn
      subst this; exact reachable.root
    | succ n ih =>
      rw [level_succ_flatMap] at hn
      obtain ⟨z, hz, hy⟩ := List.mem_flatMap.1 hn
      exact reachable.child (ih z hz) hy

theorem reachable_iff_mem_levels (f : proj_space → List proj_space) (x y : proj_space) (d : Nat)
    (hfin : level f d [x] = []) : reachable f x y ↔ y ∈ levels f d [x] := by
  rw [reachable_iff_mem_level, mem_levels_iff]
  constructor
  · rintro ⟨n, hn⟩
    refine ⟨n, ?_, hn⟩
    by_contra hlt
    rw [level_empty_mono f [x] d hfin n (Nat.le_of_not_lt hlt)] at hn
    cases hn
  · rintro ⟨i, _, h⟩
    exact ⟨i, h⟩

end ProjGame

namespace ProjGame

/-! ## The statistics -/

theorem reachable_depth (children : proj_space → List proj_space) (root : proj_space)
    (hd : ∀ x, ∀ c ∈ children x, x.k ≤ c.k) (x : proj_space)
    (h : reachable children root x) : root.k ≤ x.k := by
  induction h with
  | root => exact le_refl _
  | child _ hc ih => exact le_trans ih (hd _ _ hc)

theorem control_init_ok (ops : WorkqOps) (s s1 : State) (head : Ptr)
    (h : control_init ops s = .ok (head, s1)) :
    s1.max_k = 2 ∧ s1.items (s.brk + 1) = some seed ∧
      s1.workq = (ops.workq_add s.workq (s.brk + 1)).2 ∧ head = s.engine_list_head := by
  simp only [control_init, State.malloc_item, State.set_item, upd_same, res_bind_ok,
    State.workq_add, State.emit] at h
  split at h
  · cases h
  · simp only [res_pure, res_bind_ok, Except.ok.injEq, Prod.mk.injEq] at h
    obtain ⟨h1, h2⟩ := h
    subst h2
    exact ⟨rfl, by simp [seed, junk_item], rfl, h1.symm⟩

end ProjGame

namespace ProjGame

/-- Claim C1 (Redistribute).  Let the registry be the well-formed list `L`
and let every engine `e` of `L` have the well-formed backlog `B e`, the
backlogs being pairwise disjoint.  When no `workq_add` fails, the
traversal of lines 292-310 ends, and afterwards every engine of `L` has
`list_last = list_first` and its backlog is the first item of `B e` alone
(with `link = NULL`), or is still empty when `B e` is empty; the calls
made are, engine by engine in registry order, lock, one `workq_add` for
each item of `B e` behind the first, in list order, and unlock; every item
of a backlog is still live with its payload and `link = NULL`, every other
item is untouched, and the head together with the added items is `B e`. -/
theorem redistribute_keeps_heads (ops : WorkqOps) (s : State) (fuel : Nat) (L : List Ptr)
    (B : Ptr → List Ptr)
    (hreg : registry s L)
    (hback : ∀ e ∈ L, ∃ v, s.engines e = some v ∧ backlog s.items v.list_first (B e))
    (hsep : (L.flatMap B).Nodup)
    (hadd : ∀ w p, (ops.workq_add w p).1 = 0)
    (hfuel : L.length + (L.flatMap B).length < fuel) :
    ∃ s2, redistribute ops fuel s.engine_list_head s = .ok s2 ∧
      (∀ e ∈ L, ∃ v, s.engines e = some v ∧
        s2.engines e = some { v with list_last := v.list_first } ∧
        backlog s2.items v.list_first ((B e).take 1) ∧
        (B e).take 1 ++ (B e).tail = B e) ∧
      s2.trace = s.trace ++ L.flatMap (fun e => redistribute_events e (B e)) ∧
      (s2.trace.drop s.trace.length).filterMap Event.added = L.flatMap (fun e => (B e).tail) ∧
      s2.workq = add_all ops s.workq (L.flatMap fun e => (B e).tail) ∧
      (∀ p ∈ L.flatMap B, ∃ r, s.items p = some r ∧ s2.items p = some { r with link := NULL }) ∧
      (∀ p, p ∉ L.flatMap B → s2.items p = s.items p) ∧
      registry s2 L := by
  have hc := registry_from_chain hreg
  have hLnd := chain_nodup hc
  refine ⟨_, redistribute_spec ops hadd B L s fuel _ hc hback hsep hfuel, ?_, rfl, ?_, rfl, ?_, ?_,
    ?_⟩
  · intro e he
    obtain ⟨v, hv, hb⟩ := hback e he
    refine ⟨v, hv, by simp [settle_all, he, hv], ?_, ?_⟩
    · cases hbe : B e with
      | nil =>
        rw [hbe] at hb
        exact hb
      | cons x0 rest =>
        rw [hbe] at hb
        obtain ⟨h1, h2, r, h3, _⟩ := (backlog_cons_iff _ _ _ _).1 hb
        refine (backlog_cons_iff _ _ _ _).2 ⟨h1, h2, { r with link := NULL }, ?_, rfl⟩
        have hm : x0 ∈ L.flatMap B := List.mem_flatMap.2 ⟨e, he, by rw [hbe]; exact List.mem_cons_self _ _⟩
        simp [unlink_all, hm, h3]
    · cases B e <;> simp
  · simp [added_redistribute_events]
  · intro p hp
    obtain ⟨e, he, hpe⟩ := List.mem_flatMap.1 hp
    obtain ⟨v, hv, hb⟩ := hback e he
    obtain ⟨n, hn⟩ := chain_live hb hpe
    cases hr : s.items p with
    | none => simp [link_of, hr] at hn
    | some r => exact ⟨r, rfl, by simp [unlink_all, hp, hr]⟩
  · intro p hp
    simp [unlink_all, hp]
  · refine registry_from_congr ?_ hreg
    intro x hx v hv
    exact ⟨{ v with list_last := v.list_first }, by simp [settle_all, hx, hv], rfl, rfl⟩

/-- C1 on a registry of two engines with the backlogs 1, 2, 3 and 4. -/
theorem redistribute_keeps_heads_witness :
    registry two_engines_state [10, 11] ∧
    ∃ s2, redistribute sample_ops 10 two_engines_state.engine_list_head two_engines_state
        = .ok s2 ∧
      (∀ e ∈ [10, 11], ∃ v, two_engines_state.engines e = some v ∧
        s2.engines e = some { v with list_last := v.list_first } ∧
        backlog s2.items v.list_first ((two_engines_backlog e).take 1) ∧
        (two_engines_backlog e).take 1 ++ (two_engines_backlog e).tail = two_engines_backlog e) ∧
      s2.trace = two_engines_state.trace ++
        [10, 11].flatMap (fun e => redistribute_events e (two_engines_backlog e)) ∧
      (s2.trace.drop two_engines_state.trace.length).filterMap Event.added =
        [10, 11].flatMap (fun e => (two_engines_backlog e).tail) ∧
      s2.workq = add_all sample_ops two_engines_state.workq
        ([10, 11].flatMap fun e => (two_engines_backlog e).tail) ∧
      (∀ p ∈ [10, 11].flatMap two_engines_backlog, ∃ r, two_engines_state.items p = some r ∧
        s2.items p = some { r with link := NULL }) ∧
      (∀ p, p ∉ [10, 11].flatMap two_engines_backlog → s2.items p = two_engines_state.items p) ∧
      registry s2 [10, 11] :=
  ⟨by decide,
    redistribute_keeps_heads sample_ops two_engines_state 10 [10, 11] two_engines_backlog
      (by decide)
      (by
        intro e he
        simp only [List.mem_cons, List.mem_singleton, List.not_mem_nil, or_false] at he
        rcases he with rfl | rfl
        · exact ⟨_, rfl, by decide⟩
        · exact ⟨_, rfl, by decide⟩)
      (by decide) (fun _ _ => rfl) (by decide)⟩

end ProjGame

namespace ProjGame

/-- The heap of `one_item_state r` is well formed. -/
theorem one_item_heap_ok (r : proj_space) : heap_ok (one_item_state r) := by
  intro (q : Nat) hq
  have h : (1 : Nat) < q := hq
  have h1 : q ≠ 1 := by omega
  exact ⟨by show upd _ _ _ _ = _; rw [upd_other _ _ _ _ h1]; rfl, rfl⟩

/-- The children of Scenario B carry no link. -/
theorem two_children_link (y : proj_space) : ∀ c ∈ two_children y, c.link = NULL := by
  intro c hc
  unfold two_children at hc
  split at hc
  · simp only [List.mem_cons, List.mem_singleton, List.not_mem_nil, or_false, or_self] at hc
    subst hc; rfl
  · cases hc

/-- Claim C2 (no loss, no duplication in the worker loop).  Let `br` be
`branch`, or the stand-in `branch_stub f` for prescribed children `f`, and
let the expansion tree of the seed item `x` be finite: its level `d` is
empty.  In a well-formed state, for a seed with `link = NULL` (as every
item that comes from the queue) and a thread whose library calls succeed,
`engine_routine` returns when given enough fuel; the records passed to the
expansion function are, in this order, the levels 0, 1, ..., `d - 1` of
the tree, which hold every item reachable from the seed, that is every
node of the tree exactly once; and the backlog of the engine of the thread
is empty at the end. -/
theorem engine_routine_explores_tree (br : Ptr → State → Res (list_ends × State))
    (f : proj_space → List proj_space) (t : Thread) (s : State) (L : List Ptr) (arg : Ptr)
    (x : proj_space) (d fuel : Nat)
    (hbr : (br = branch ∧ f = branch_children) ∨
      (br = branch_stub f ∧ ∀ y, ∀ c ∈ f y, c.link = NULL))
    (hheap : heap_ok s) (hreg : registry s L)
    (hthread : (s.engine_key t.id = NULL ∧ t.mutex_init_status = 0 ∧ t.setspecific_status = 0) ∨
      (s.engine_key t.id ≠ NULL ∧ ∃ v, s.engines (s.engine_key t.id) = some v))
    (harg : arg ≠ NULL) (hx : s.items arg = some x) (hlink : x.link = NULL)
    (hfin : level f d [x] = []) (hfuel : (levels f d [x]).length < fuel) :
    (∀ y, reachable f x y ↔ y ∈ levels f d [x]) ∧
    ∃ s2, engine_routine_with br t fuel arg s = .ok s2 ∧
      s2.trace.filterMap Event.branched =
        s.trace.filterMap Event.branched ++ levels f d [x] ∧
      s2.engine_key t.id ≠ NULL ∧
      ∃ v, s2.engines (s2.engine_key t.id) = some v ∧ v.list_first = NULL := by
  have hexp : expands br f := by
    rcases hbr with ⟨rfl, rfl⟩ | ⟨rfl, hl⟩
    · exact branch_expands
    · exact branch_stub_expands f hl
  exact ⟨fun y => reachable_iff_mem_levels f x y d hfin,
    engine_routine_spec br f hexp t s L arg x d fuel hheap hreg hthread harg hx hlink hfin
      hfuel⟩

/-- Scenario B as an instance of C2: two children per item below depth
3 give 15 calls of the expansion function, 8 of them on items without
children. -/
theorem engine_routine_explores_tree_witness :
    heap_ok (one_item_state seed_b) ∧ level two_children 4 [seed_b] = [] ∧
    ∃ s2, engine_routine_with (branch_stub two_children) new_thread 16 1
        (one_item_state seed_b) = .ok s2 ∧
      s2.trace.filterMap Event.branched = levels two_children 4 [seed_b] ∧
      (s2.trace.filterMap Event.branched).length = 15 ∧
      ((s2.trace.filterMap Event.branched).filter (fun x => two_children x = [])).length = 8 ∧
      s2.engine_key new_thread.id ≠ NULL ∧
      ∃ v, s2.engines (s2.engine_key new_thread.id) = some v ∧ v.list_first = NULL := by
  obtain ⟨_, s2, h1, h2, h3, h4⟩ := engine_routine_explores_tree (branch_stub two_children)
    two_children new_thread (one_item_state seed_b) [] 1 seed_b 4 16
    (Or.inr ⟨rfl, two_children_link⟩) (one_item_heap_ok seed_b) (by decide)
    (Or.inl ⟨by decide, by decide, by decide⟩) (by decide) rfl rfl (by decide) (by decide)
  have h5 : s2.trace.filterMap Event.branched = levels two_children 4 [seed_b] := by
    rw [h2]; rfl
  refine ⟨one_item_heap_ok seed_b, by decide, s2, h1, h5, ?_, ?_, h3, h4⟩
  · rw [h5]; decide
  · rw [h5]; decide

/-- Claim C3 (statistics update rule).  In a well-formed heap, `branch`
on a live item of depth `k` returns; the list it returns is empty exactly
when the item has no children; then `max_k` becomes the larger of its old
value and `k`, and otherwise `max_k` is unchanged.  So `max_k` changes
only when the item has no children and `k` is strictly greater, and it
never decreases. -/
theorem branch_updates_max_k (s : State) (arg : Ptr) (x : proj_space) (hheap : heap_ok s)
    (hx : s.items arg = some x) :
    ∃ ends s2, branch arg s = .ok (ends, s2) ∧
      (ends.first = NULL ↔ branch_children x = []) ∧
      (ends.first = NULL → s2.max_k = max s.max_k x.k) ∧
      (ends.first ≠ NULL → s2.max_k = s.max_k) ∧
      (s2.max_k ≠ s.max_k → ends.first = NULL ∧ s.max_k < x.k ∧ s2.max_k = x.k) ∧
      s.max_k ≤ s2.max_k := by
  obtain ⟨ends, s2, cs, h1, _, _, _, _, _, _, h8, h9, _⟩ := branch_spec s hheap arg x hx
  refine ⟨ends, s2, h1, h8, ?_, ?_, ?_, ?_⟩
  · intro h
    rw [h9, if_pos (h8.1 h)]
    unfold update_max_k
    split
    · rw [max_eq_right (le_of_lt ‹_›)]
    · rw [max_eq_left (not_lt.1 ‹_›)]
  · intro h
    rw [h9, if_neg (fun e => h (h8.2 e))]
  · intro h
    by_cases he : branch_children x = []
    · rw [h9, if_pos he] at h ⊢
      unfold update_max_k at h ⊢
      by_cases hlt : s.max_k < x.k
      · rw [if_pos hlt]; exact ⟨h8.2 he, hlt, rfl⟩
      · rw [if_neg hlt] at h; exact absurd rfl h
    · rw [h9, if_neg he] at h; exact absurd rfl h
  · rw [h9]
    split
    · unfold update_max_k
      split
      · exact le_of_lt ‹_›
      · exact le_refl _
    · exact le_refl _

/-- C3 for an item of depth 10 without children, the best being 0. -/
theorem branch_updates_max_k_witness :
    heap_ok (one_item_state terminal_item) ∧
    (one_item_state terminal_item).items 1 = some terminal_item ∧
    ∃ ends s2, branch 1 (one_item_state terminal_item) = .ok (ends, s2) ∧
      (ends.first = NULL ↔ branch_children terminal_item = []) ∧
      (ends.first = NULL → s2.max_k = max (one_item_state terminal_item).max_k terminal_item.k) ∧
      (ends.first ≠ NULL → s2.max_k = (one_item_state terminal_item).max_k) ∧
      (s2.max_k ≠ (one_item_state terminal_item).max_k →
        ends.first = NULL ∧ (one_item_state terminal_item).max_k < terminal_item.k ∧
        s2.max_k = terminal_item.k) ∧
      (one_item_state terminal_item).max_k ≤ s2.max_k :=
  ⟨one_item_heap_ok terminal_item, rfl,
    branch_updates_max_k (one_item_state terminal_item) 1 terminal_item
      (one_item_heap_ok terminal_item) rfl⟩

end ProjGame

namespace ProjGame

end ProjGame

namespace ProjGame

/-- Claim C5 as stated fails in both directions.  When no worker has
registered during the initial `sleep (1)`, `control_thread_routine`
returns although the seed is still in the shared queue; and with two
registered engines whose backlogs are empty, an empty queue and an empty
spill file, the control loop does not return but starts another
iteration. -/
theorem termination_is_not_quiescence :
    (control_step sample_ops 1 (NULL, seeded_state) = .ok none ∧
      control_thread_routine sample_ops 1 initial_state = .ok seeded_state ∧
      seeded_state.workq.queue = [1] ∧ ¬ quiescent seeded_state) ∧
    (quiescent idle_engines_state ∧
      control_step sample_ops 10 (idle_engines_state.engine_list_head, idle_engines_state)
        ≠ .ok none) := by
  refine ⟨⟨rfl, rfl, rfl, ?_⟩, ?_, ?_⟩
  · intro h
    have : seeded_state.workq.queue = [] := h.2.1
    exact absurd this (by decide)
  · refine ⟨?_, rfl, by decide⟩
    intro e v h
    have h2 : (if e = 10 then some (⟨NULL, 11, 1, NULL, NULL⟩ : engine_t)
        else if e = 11 then some ⟨10, NULL, 2, NULL, NULL⟩ else none) = some v := h
    by_cases h10 : e = 10
    · rw [if_pos h10] at h2; cases h2; rfl
    · by_cases h11 : e = 11
      · rw [if_neg h10, if_pos h11] at h2; cases h2; rfl
      · rw [if_neg h10, if_neg h11] at h2; cases h2
  · intro h
    have h2 : idle_engines_state.engine_list_head = NULL :=
      (control_step_none_iff sample_ops 10 _).1 h
    revert h2
    decide

/-- Claim C5 as amended.  At the test of its loop the control thread
returns exactly when the registry head it read last (at the previous Scan,
or after the initial sleep) is `NULL`, that is when the registry was empty
at that reading; when it goes on, the head it carries to the next test is
the value of `engine_list_head` read under the registry lock at this Scan.
Neither the backlogs, nor the queue, nor the spill file are consulted. -/
theorem control_returns_iff_snapshot_null (ops : WorkqOps) (fuel : Nat) (c : Ptr × State) :
    (control_step ops fuel c = .ok none ↔ c.1 = NULL) ∧
    (∀ head s1, control_step ops fuel c = .ok (some (head, s1)) →
      c.1 ≠ NULL ∧ ∃ s0, control_scan ops fuel c.2 = .ok (head, s0) ∧
        head = c.2.engine_list_head ∧ (head = NULL ↔ registry c.2 [])) ∧
    (∀ s head s1, control_init ops s = .ok (head, s1) →
      head = s.engine_list_head ∧ (head = NULL ↔ registry s [])) := by
  refine ⟨control_step_none_iff ops fuel c, ?_, ?_⟩
  rotate_left
  · intro s head s1 h
    simp only [control_init, State.malloc_item, State.set_item, upd_same, res_bind_ok,
      State.workq_add, State.emit] at h
    split at h
    · cases h
    · simp only [res_pure, res_bind_ok, Except.ok.injEq, Prod.mk.injEq] at h
      rw [← h.1]
      exact ⟨rfl, Iff.rfl⟩
  · intro head s1 h
    unfold control_step at h
    by_cases h0 : c.1 = NULL
    · simp [h0] at h
    · simp only [ne_eq, h0, not_false_eq_true, if_true] at h
      refine ⟨h0, ?_⟩
      cases hi : control_iteration ops fuel c.2 with
      | error e => rw [hi] at h; cases h
      | ok r =>
        rw [hi] at h
        have hr : r = (head, s1) := by
          simpa [Functor.map, Except.map] using h
        subst hr
        simp only [control_iteration] at hi
        obtain ⟨⟨hd, s0⟩, hs, hi⟩ := res_bind_eq_ok hi
        obtain ⟨sp, _, hi⟩ := res_bind_eq_ok hi
        cases hi
        have := (control_scan_ok ops fuel c.2 s0 hd hs).1
        refine ⟨s0, hs, this, ?_⟩
        rw [this]
        exact Iff.rfl

/-- C5 as amended, at the test that follows the initial sleep when no
worker has registered. -/
theorem control_returns_iff_snapshot_null_witness :
    (control_step sample_ops 1 (NULL, seeded_state) = .ok none ↔ (NULL, seeded_state).1 = NULL) ∧
    (∀ head s1, control_step sample_ops 1 (NULL, seeded_state) = .ok (some (head, s1)) →
      (NULL, seeded_state).1 ≠ NULL ∧
        ∃ s0, control_scan sample_ops 1 (NULL, seeded_state).2 = .ok (head, s0) ∧
        head = (NULL, seeded_state).2.engine_list_head ∧
        (head = NULL ↔ registry (NULL, seeded_state).2 [])) ∧
    (∀ s head s1, control_init sample_ops s = .ok (head, s1) →
      head = s.engine_list_head ∧ (head = NULL ↔ registry s [])) :=
  control_returns_iff_snapshot_null sample_ops 1 (NULL, seeded_state)

end ProjGame

namespace ProjGame

/-- Claim C6 (spill/reload round trip).  For every record `r` that a C
object of type `proj_space` can hold, stored at `arg`, and every file and
cursor position: `proj_space_save` succeeds, moves the cursor by exactly
`sizeof_proj_space` bytes, writes the object representation of `r` at the
old cursor and leaves the rest of the file as it was (padding a gap with
zero bytes when the cursor was beyond the end); `proj_space_load` on the
same file, with the cursor back at the start of what was written, returns
a new non-NULL object whose content is `r` (same `link`, `k`, `A` and
`minA`) and leaves the cursor behind the record. -/
theorem save_load_round_trip (s : State) (file : FILE) (arg : Ptr) (r : proj_space)
    (hr : s.items arg = some r) (hin : r.in_range) :
    ∃ file1 s1, proj_space_save arg file s = .ok (file1, s1) ∧
      file1.pos = file.pos + sizeof_proj_space ∧
      (file1.data.drop file.pos).take sizeof_proj_space = r.bytes ∧
      file1.data.take file.pos =
        file.data.take file.pos ++ List.replicate (file.pos - file.data.length) 0 ∧
      file1.data.drop file1.pos = file.data.drop file1.pos ∧
      ∃ element file2 s2,
        proj_space_load { file1 with pos := file.pos } s1 = .ok (element, file2, s2) ∧
        element ≠ NULL ∧ s2.items element = some r ∧ file2 = file1 := by
  have hlen := bytes_length r
  have hw := fwrite_window r.bytes file
  have hl : (file.data.take file.pos ++ List.replicate (file.pos - file.data.length) 0).length
      = file.pos := by
    simp [List.length_take]; omega
  refine ⟨(fwrite_unlocked r.bytes file).2, { s with items := upd s.items arg none }, ?_, ?_, ?_,
    ?_, ?_, ?_⟩
  · simp [proj_space_save, item_of_some hr, free_item_of_some hr]
  · simp [fwrite_unlocked, hlen]
  · rw [← hlen]; exact hw
  · simp only [fwrite_unlocked, List.append_assoc]
    rw [← List.append_assoc, List.take_left' hl]
  · simp only [fwrite_unlocked, List.append_assoc]
    rw [← List.append_assoc, ← List.append_assoc, List.drop_left']
    simp only [List.length_append, hl]
  · have hfit : file.pos + sizeof_proj_space ≤ (fwrite_unlocked r.bytes file).2.data.length := by
      simp [fwrite_unlocked, List.length_take, hlen]; omega
    refine ⟨s.brk + 1, (fwrite_unlocked r.bytes file).2,
      { s with items := upd (upd (upd s.items arg none) (s.brk + 1) (some junk_item)) (s.brk + 1)
                  (some r), brk := s.brk + 1 }, ?_, by simp, by simp, rfl⟩
    simp only [proj_space_load, State.malloc_item, fread_unlocked, hfit, if_true]
    rw [hlen] at hw
    have hj : List.drop r.bytes.length junk_item.bytes = [] := by
      apply List.drop_eq_nil_of_le; rw [bytes_length, bytes_length]
    simp only [State.set_item, upd_same, hw, hj, List.append_nil, of_bytes_bytes r hin]
    simp [fwrite_unlocked, hlen]

/-- The round trip of C6 for the first space written to an empty file. -/
theorem save_load_round_trip_witness :
    seed.in_range ∧
    ∃ file1 s1, proj_space_save 1 ⟨[], 0⟩ (one_item_state seed) = .ok (file1, s1) ∧
      file1.pos = 0 + sizeof_proj_space ∧
      (file1.data.drop 0).take sizeof_proj_space = seed.bytes ∧
      file1.data.take 0 = ([] : List Nat).take 0 ++ List.replicate (0 - 0) 0 ∧
      file1.data.drop file1.pos = ([] : List Nat).drop file1.pos ∧
      ∃ element file2 s2,
        proj_space_load { file1 with pos := 0 } s1 = .ok (element, file2, s2) ∧
        element ≠ NULL ∧ s2.items element = some seed ∧ file2 = file1 :=
  ⟨by decide, save_load_round_trip (one_item_state seed) ⟨[], 0⟩ 1 seed rfl (by decide)⟩

theorem proj_space_load_eq (file : FILE) (s : State) :
    proj_space_load file s = .ok
      (if file.pos + sizeof_proj_space ≤ file.data.length then s.brk + 1 else NULL,
        (fread_unlocked sizeof_proj_space file).2.2,
        { s with
          items := upd (upd s.items (s.brk + 1) (some junk_item)) (s.brk + 1)
            (some (proj_space.of_bytes ((fread_unlocked sizeof_proj_space file).1 ++
              junk_item.bytes.drop (fread_unlocked sizeof_proj_space file).1.length))),
          brk := s.brk + 1 }) := by
  by_cases hfit : file.pos + sizeof_proj_space ≤ file.data.length <;>
    simp [proj_space_load, State.malloc_item, fread_unlocked, hfit, State.set_item]

/-- Claim C10 (end of records).  For every file and every state,
`proj_space_load` returns; its result is `NULL` exactly when fewer than
`sizeof_proj_space` bytes remain at the cursor; otherwise it returns a new
object holding the record made of the next `sizeof_proj_space` bytes, the
cursor has advanced by exactly one record and the file content is
unchanged. -/
theorem load_end_of_records (file : FILE) (s : State) :
    ∃ element file1 s1, proj_space_load file s = .ok (element, file1, s1) ∧
      (element = NULL ↔ file.data.length - file.pos < sizeof_proj_space) ∧
      (element ≠ NULL →
        s1.items element =
          some (proj_space.of_bytes ((file.data.drop file.pos).take sizeof_proj_space)) ∧
        file1.pos = file.pos + sizeof_proj_space ∧ file1.data = file.data) := by
  refine ⟨_, _, _, proj_space_load_eq file s, ?_, ?_⟩
  · by_cases hfit : file.pos + sizeof_proj_space ≤ file.data.length
    · simp only [hfit, if_true]
      constructor
      · intro h; simp at h
      · intro h; omega
    · simp only [hfit, if_false, true_iff]
      have hs : sizeof_proj_space = 136 := rfl
      omega
  · by_cases hfit : file.pos + sizeof_proj_space ≤ file.data.length
    · intro _
      have hlen : ((file.data.drop file.pos).take sizeof_proj_space).length
          = junk_item.bytes.length := by
        rw [bytes_length]; simp [List.length_take]; omega
      simp only [hfit, if_true, fread_unlocked, upd_same, hlen, List.drop_length,
        List.append_nil, and_self]
    · simp only [hfit, if_false]
      intro h; exact absurd rfl h

end ProjGame

namespace ProjGame

/-- Claim C7 (registry insertion).  In a well-formed heap whose registry
is the well-formed list `L`, the first `engine_routine` call of a thread
without Engine Context (lines 206-234, the library calls succeeding)
allocates a fresh context `e`, not in `L`, and makes the registry
`e :: L`: `e.prev = NULL`, `e.next` is the old head, the old head has
`prev = e` when `L` is not empty and every other context is unchanged; `e`
becomes the thread-specific value of the thread, and a later call by the
same thread returns this context and changes nothing. -/
theorem engine_lookup_registers (s : State) (t : Thread) (L : List Ptr)
    (hreg : registry s L) (hheap : heap_ok s) (hkey : s.engine_key t.id = NULL)
    (hinit : t.mutex_init_status = 0) (hset : t.setspecific_status = 0) :
    ∃ e s2, engine_lookup t s = .ok (e, s2) ∧
      e ≠ NULL ∧ e ∉ L ∧ s.engines e = none ∧
      registry s2 (e :: L) ∧
      s2.engines e =
        some { t.junk with prev := NULL, next := s.engine_list_head, thread_id := t.id } ∧
      (∀ h v, L.head? = some h → s.engines h = some v →
        s2.engines h = some { v with prev := e }) ∧
      (∀ q, q ≠ e → L.head? ≠ some q → s2.engines q = s.engines q) ∧
      s2.engine_key t.id = e ∧
      engine_lookup t s2 = .ok (e, s2) ∧
      (∀ s3 : State, s3.engine_key t.id ≠ NULL →
        engine_lookup t s3 = .ok (s3.engine_key t.id, s3)) := by
  have hfresh : s.engines (s.brk + 1) = none := (hheap _ (Nat.lt_succ_self _)).2
  have hnotin : s.brk + 1 ∉ L := by
    intro hm
    obtain ⟨v, hv⟩ := registry_from_live hreg hm
    rw [hfresh] at hv; cases hv
  have hhead : s.engine_list_head = NULL ∨ ∃ v, s.engines s.engine_list_head = some v := by
    cases L with
    | nil => exact Or.inl hreg
    | cons h rest =>
      obtain ⟨h1, _, v, h3, _⟩ := (registry_from_cons_iff _ _ _ _ _).1 hreg
      exact Or.inr ⟨v, by rw [h1]; exact h3⟩
  obtain ⟨s2, e1, e2, e3, e4, e5, e6, _⟩ := engine_lookup_new s t hkey hinit hset hfresh hhead
  have hkey2 : s2.engine_key t.id = s.brk + 1 := by rw [e3]; simp
  refine ⟨s.brk + 1, s2, e1, by simp, hnotin, hfresh, ?_, e4, ?_, ?_, hkey2, ?_⟩
  · refine (registry_from_cons_iff _ _ _ _ _).2 ⟨e2, by simp, _, e4, rfl, ?_⟩
    cases L with
    | nil => exact hreg
    | cons h rest =>
      obtain ⟨h1, h2, v, h3, h4, h5⟩ := (registry_from_cons_iff _ _ _ _ _).1 hreg
      have hnd : (h :: rest).Nodup := chain_nodup (registry_from_chain hreg)
      refine (registry_from_cons_iff _ _ _ _ _).2 ⟨h1, h2, { v with prev := s.brk + 1 }, ?_,
        rfl, ?_⟩
      · have := e5 v (by rw [h1]; exact h2) (by rw [h1]; exact h3)
        rw [h1] at this; exact this
      · refine registry_from_congr ?_ h5
        intro x hx w hw
        have hx1 : x ≠ s.brk + 1 := fun e => hnotin (e ▸ List.mem_cons_of_mem _ hx)
        have hx2 : x ≠ s.engine_list_head := by
          rw [h1]; intro e; subst e; exact (List.nodup_cons.1 hnd).1 hx
        exact ⟨w, by rw [e6 x hx1 (Or.inl hx2)]; exact hw, rfl, rfl⟩
  · intro h v hh hv
    cases L with
    | nil => simp at hh
    | cons h0 rest =>
      simp only [List.head?_cons, Option.some.injEq] at hh
      subst hh
      obtain ⟨h1, h2, _⟩ := (registry_from_cons_iff _ _ _ _ _).1 hreg
      have := e5 v (by rw [h1]; exact h2) (by rw [h1]; exact hv)
      rw [h1] at this; exact this
  · intro q hq hq2
    refine e6 q hq ?_
    cases L with
    | nil => exact Or.inr hreg
    | cons h0 rest =>
      obtain ⟨h1, _⟩ := (registry_from_cons_iff _ _ _ _ _).1 hreg
      left
      rw [h1]
      intro e
      exact hq2 (by simp [e])
  · refine ⟨?_, fun s3 h3 => engine_lookup_again t s3 h3⟩
    have := engine_lookup_again t s2 (by rw [hkey2]; simp)
    rw [hkey2] at this
    exact this

/-- Claim C8 (registry removal).  For every well-formed registry `L` and
every context `e` of `L`, wherever it stands, `destructor (e)` succeeds
and leaves the well-formed registry `L.erase e`: the other contexts in
their order with consistent `prev`/`next` links and unchanged thread and
backlog members; `engine_list_head` is the next context when `e` was the
first one (`NULL` when it was the only one) and unchanged otherwise; `e`
is released and contexts outside the registry are untouched. -/
theorem destructor_removes (s : State) (L : List Ptr) (e : Ptr)
    (hreg : registry s L) (he : e ∈ L) :
    ∃ s2, destructor e s = .ok s2 ∧
      registry s2 (L.erase e) ∧
      s2.engines e = none ∧
      (L.head? = some e → s2.engine_list_head = (L.erase e).head?.getD NULL) ∧
      (L.head? ≠ some e → s2.engine_list_head = s.engine_list_head) ∧
      (∀ q ∈ L.erase e, ∃ w w2, s.engines q = some w ∧ s2.engines q = some w2 ∧
        w2.thread_id = w.thread_id ∧ w2.list_first = w.list_first ∧
        w2.list_last = w.list_last) ∧
      (∀ q, q ∉ L → s2.engines q = s.engines q) ∧
      s2.items = s.items := by
  obtain ⟨a, c, rfl⟩ := List.append_of_mem he
  have hnd : (a ++ e :: c).Nodup := chain_nodup (registry_from_chain hreg)
  have hnull : NULL ∉ a ++ e :: c := fun h => chain_ne_null (registry_from_chain hreg) h rfl
  have hea : e ∉ a := by
    intro h
    have := List.nodup_append.1 hnd
    exact this.2.2 h (List.mem_cons_self _ _)
  have hec : e ∉ c := by
    have := (List.nodup_append.1 hnd).2.1
    exact (List.nodup_cons.1 this).1
  have her : (a ++ e :: c).erase e = a ++ c := by
    rw [List.erase_append_right _ hea, List.erase_cons_head]
  obtain ⟨v, hv, hprev, hnext⟩ := registry_split a NULL s.engine_list_head hreg
  have hn : v.next = NULL ∨ (v.next ∈ c ∧ v.next ≠ NULL) := by
    rcases registry_next_cases hnext with ⟨_, g⟩ | g
    · exact Or.inl g
    · exact Or.inr g
  have hp : (a = [] ∧ v.prev = NULL) ∨ (v.prev ∈ a ∧ v.prev ≠ NULL) := by
    cases ha : a with
    | nil => left; subst ha; exact ⟨rfl, by simpa using hprev⟩
    | cons y a2 =>
      right
      have hm : v.prev ∈ a := by
        rw [hprev]; exact getLast_getD_mem _ _ (by rw [ha]; simp)
      rw [← ha]
      exact ⟨hm, fun h0 => hnull (by rw [← h0]; exact List.mem_append_left _ hm)⟩
  have hlive : ∀ q ∈ a ++ e :: c, ∃ w, s.engines q = some w := fun q hq =>
    registry_from_live hreg hq
  have hn2 : v.next = NULL ∨ (v.next ≠ e ∧ ∃ w, s.engines v.next = some w) := by
    rcases hn with g | ⟨g, _⟩
    · exact Or.inl g
    · exact Or.inr ⟨fun h => hec (h ▸ g),
        hlive _ (List.mem_append_right _ (List.mem_cons_of_mem _ g))⟩
  have hp2 : v.prev = NULL ∨ (v.prev ≠ e ∧ v.prev ≠ v.next ∧ ∃ u, s.engines v.prev = some u) := by
    rcases hp with ⟨_, g⟩ | ⟨g, g0⟩
    · exact Or.inl g
    · refine Or.inr ⟨fun h => hea (h ▸ g), ?_, hlive _ (List.mem_append_left _ g)⟩
      intro h
      rcases hn with g1 | ⟨g1, _⟩
      · exact g0 (h.trans g1)
      · rw [← h] at g1
        exact (List.nodup_append.1 hnd).2.2 g (List.mem_cons_of_mem _ g1)
  obtain ⟨s2, d1, d2, d3, d4, d5, d6, d7, _⟩ := destructor_effect s e v hv hn2 hp2
  have hreg2 := registry_erase_mid d3 d4 d5 hv c a NULL s.engine_list_head hreg
    (List.nodup_cons.2 ⟨hnull, hnd⟩)
  have hhead : s2.engine_list_head = if a = [] then v.next else s.engine_list_head := by
    rw [d6]
    rcases hp with ⟨g1, g2⟩ | ⟨g1, g2⟩
    · simp [g1, g2]
    · have : a ≠ [] := by
        intro h; rw [h] at g1; cases g1
      simp [this, g2]
  refine ⟨s2, d1, ?_, d2, ?_, ?_, ?_, ?_, d7⟩
  · rw [her]
    show registry_from s2.engines NULL s2.engine_list_head (a ++ c)
    rw [hhead]; exact hreg2
  · intro h
    have ha : a = [] := by
      cases a with
      | nil => rfl
      | cons y a2 =>
        simp only [List.cons_append, List.head?_cons, Option.some.injEq] at h
        subst h
        simp at hea
    rw [her, hhead, ha]
    simp only [if_true, List.nil_append]
    rcases registry_next_cases hnext with ⟨g1, g2⟩ | ⟨g1, _⟩
    · rw [g1, g2]; rfl
    · cases c with
      | nil => cases g1
      | cons y r =>
        rw [(registry_from_head hnext)]; rfl
  · intro h
    have ha : a ≠ [] := by
      intro h0; subst h0; simp at h
    rw [hhead, if_neg ha]
  · intro q hq
    rw [her] at hq
    have hqL : q ∈ a ++ e :: c := by
      rcases List.mem_append.1 hq with g | g
      · exact List.mem_append_left _ g
      · exact List.mem_append_right _ (List.mem_cons_of_mem _ g)
    have hqe : q ≠ e := by
      intro h; subst h
      rcases List.mem_append.1 hq with g | g
      · exact hea g
      · exact hec g
    have hq0 : q ≠ NULL := fun h => hnull (h ▸ hqL)
    obtain ⟨w, hw⟩ := hlive q hqL
    by_cases h1 : q = v.next
    · subst h1
      exact ⟨w, _, hw, d3 w hq0 hw, rfl, rfl, rfl⟩
    · by_cases h2 : q = v.prev
      · subst h2
        exact ⟨w, _, hw, d4 w hq0 hw, rfl, rfl, rfl⟩
      · exact ⟨w, w, hw, by rw [d5 q hqe (Or.inl h1) (Or.inl h2)]; exact hw, rfl, rfl, rfl⟩
  · intro q hq
    refine d5 q (fun h => hq (h ▸ he)) ?_ ?_
    · rcases hn with g | ⟨g, _⟩
      · exact Or.inr g
      · left; intro h; subst h
        exact hq (List.mem_append_right _ (List.mem_cons_of_mem _ g))
    · rcases hp with ⟨_, g⟩ | ⟨g, _⟩
      · exact Or.inr g
      · left; intro h; subst h
        exact hq (List.mem_append_left _ g)

/-- The heap of `two_engines_state` is well formed. -/
theorem two_engines_heap_ok : heap_ok two_engines_state := by
  intro (q : Nat) hq
  have h : (11 : Nat) < q := hq
  have h1 : ¬ q = 1 := by omega
  have h2 : ¬ q = 2 := by omega
  have h3 : ¬ q = 3 := by omega
  have h4 : ¬ q = 4 := by omega
  have h10 : ¬ q = 10 := by omega
  have h11 : ¬ q = 11 := by omega
  constructor
  · show (if q = 1 then _ else if q = 2 then _ else if q = 3 then _ else if q = 4 then _
      else none) = none
    rw [if_neg h1, if_neg h2, if_neg h3, if_neg h4]
  · show (if q = 10 then _ else if q = 11 then _ else none) = none
    rw [if_neg h10, if_neg h11]

/-- C7 for a third thread entering a registry of two engines. -/
theorem engine_lookup_registers_witness :
    registry two_engines_state [10, 11] ∧ two_engines_state.engine_key new_thread.id = NULL ∧
    ∃ e s2, engine_lookup new_thread two_engines_state = .ok (e, s2) ∧
      e ≠ NULL ∧ e ∉ [10, 11] ∧ two_engines_state.engines e = none ∧
      registry s2 (e :: [10, 11]) ∧
      s2.engines e =
        some { new_thread.junk with
          prev := NULL, next := two_engines_state.engine_list_head, thread_id := new_thread.id } ∧
      (∀ h v, [10, 11].head? = some h → two_engines_state.engines h = some v →
        s2.engines h = some { v with prev := e }) ∧
      (∀ q, q ≠ e → [10, 11].head? ≠ some q → s2.engines q = two_engines_state.engines q) ∧
      s2.engine_key new_thread.id = e ∧
      engine_lookup new_thread s2 = .ok (e, s2) ∧
      (∀ s3 : State, s3.engine_key new_thread.id ≠ NULL →
        engine_lookup new_thread s3 = .ok (s3.engine_key new_thread.id, s3)) :=
  ⟨by decide, by decide,
    engine_lookup_registers two_engines_state new_thread [10, 11] (by decide)
      two_engines_heap_ok (by decide) (by decide) (by decide)⟩

/-- C8 for the head of a registry of two engines. -/
theorem destructor_removes_witness :
    registry two_engines_state [10, 11] ∧ 10 ∈ [10, 11] ∧
    ∃ s2, destructor 10 two_engines_state = .ok s2 ∧
      registry s2 ([10, 11].erase 10) ∧
      s2.engines 10 = none ∧
      ([10, 11].head? = some 10 → s2.engine_list_head = ([10, 11].erase 10).head?.getD NULL) ∧
      ([10, 11].head? ≠ some 10 → s2.engine_list_head = two_engines_state.engine_list_head) ∧
      (∀ q ∈ [10, 11].erase 10, ∃ w w2, two_engines_state.engines q = some w ∧
        s2.engines q = some w2 ∧
        w2.thread_id = w.thread_id ∧ w2.list_first = w.list_first ∧
        w2.list_last = w.list_last) ∧
      (∀ q, q ∉ [10, 11] → s2.engines q = two_engines_state.engines q) ∧
      s2.items = two_engines_state.items :=
  ⟨by decide, by decide, destructor_removes two_engines_state [10, 11] 10 (by decide) (by decide)⟩

end ProjGame

namespace ProjGame

/-! ## The exit test of the control loop -/

theorem control_step_some (ops : WorkqOps) (fuel : Nat) (c c2 : Ptr × State)
    (h : control_step ops fuel c = .ok (some c2)) : c.1 ≠ NULL ∧ control_next ops c c2 := by
  unfold control_step at h
  by_cases h0 : c.1 = NULL
  · simp [h0] at h
  · simp only [ne_eq, h0, not_false_eq_true, if_true] at h
    refine ⟨h0, ?_⟩
    cases hi : control_iteration ops fuel c.2 with
    | error e => rw [hi] at h; cases h
    | ok r =>
      rw [hi] at h
      have hr : r = c2 := by
        simpa [Functor.map, Except.map] using h
      subst hr
      simp only [control_iteration] at hi
      obtain ⟨⟨hd, s0⟩, hs, hi⟩ := res_bind_eq_ok hi
      obtain ⟨sp, hp, hi⟩ := res_bind_eq_ok hi
      cases hi
      exact ⟨fuel, s0, hs, (control_scan_ok ops fuel c.2 s0 hd hs).1, hp⟩

theorem control_loop_tests (ops : WorkqOps) :
    ∀ (fuel : Nat) (c : Ptr × State) (s2 : State), control_loop ops fuel c = .ok s2 →
      ∃ tests : List (Ptr × State), tests.head? = some c ∧ tests.getLast? = some (NULL, s2) ∧
        (∀ t ∈ tests.dropLast, t.1 ≠ NULL) ∧ List.Chain' (control_next ops) tests := by
  intro fuel
  induction fuel with
  | zero => intro c s2 h; cases h
  | succ fuel ih =>
    intro c s2 h
    simp only [control_loop] at h
    cases hs : control_step ops fuel c with
    | error e => rw [hs] at h; cases h
    | ok r =>
      rw [hs] at h
      cases r with
      | none =>
        have h1 : c.1 = NULL := (control_step_none_iff ops fuel c).1 hs
        have h2 : c.2 = s2 := by simpa using h
        refine ⟨[c], rfl, ?_, by simp, List.chain'_singleton c⟩
        rw [← h1, ← h2]; rfl
      | some c2 =>
        obtain ⟨t2, k1, k2, k3, k4⟩ := ih c2 s2 h
        obtain ⟨g1, g2⟩ := control_step_some ops fuel c c2 hs
        cases t2 with
        | nil => cases k1
        | cons d rest =>
          have hd : d = c2 := by simpa using k1
          subst hd
          refine ⟨c :: d :: rest, rfl, ?_, ?_, ?_⟩
          · rw [List.getLast?_cons_cons]; exact k2
          · intro t ht
            rw [List.dropLast_cons₂] at ht
            rcases List.mem_cons.1 ht with rfl | ht
            · exact g1
            · exact k3 t ht
          · exact List.Chain'.cons g2 k4

/-- Claim C11 (termination signal).  In every run of
`control_thread_routine` that returns (no fatal error), the tests of the
loop condition form a sequence of configurations that starts with the
snapshot read under the registry lock after the initial sleep
(`engine_list_head` at that time); every test but the last finds a
non-NULL snapshot and is followed by a complete iteration whose Scan reads
`engine_list_head` anew under the registry lock; the last test finds the
snapshot NULL and the routine returns the state of that test.  The
decision to leave depends on the snapshot only: for any two states and any
two implementations of the queue operations, the loop is left from one
configuration exactly when it is left from the other with the same
snapshot, namely when the snapshot is NULL. -/
theorem control_exit_signal (ops : WorkqOps) (fuel : Nat) (s s2 : State)
    (hrun : control_thread_routine ops fuel s = .ok s2) :
    (∃ (s1 : State) (tests : List (Ptr × State)),
      control_init ops s = .ok (s.engine_list_head, s1) ∧
      tests.head? = some (s.engine_list_head, s1) ∧
      tests.getLast? = some (NULL, s2) ∧
      (∀ t ∈ tests.dropLast, t.1 ≠ NULL) ∧
      List.Chain' (control_next ops) tests) ∧
    (∀ (ops2 : WorkqOps) (fuel1 fuel2 : Nat) (head : Ptr) (sa sb : State),
      (control_step ops fuel1 (head, sa) = .ok none ↔ head = NULL) ∧
      (control_step ops fuel1 (head, sa) = .ok none ↔
        control_step ops2 fuel2 (head, sb) = .ok none) ∧
      (head ≠ NULL →
        control_step ops fuel1 (head, sa) = (control_iteration ops fuel1 sa).map some) ∧
      (head = NULL → control_loop ops (fuel1 + 1) (head, sa) = .ok sa)) := by
  constructor
  · simp only [control_thread_routine] at hrun
    obtain ⟨⟨head, s1⟩, hi, hl⟩ := res_bind_eq_ok hrun
    have hh : head = s.engine_list_head := by
      have h := hi
      simp only [control_init, State.malloc_item, State.set_item, upd_same, res_bind_ok,
        State.workq_add, State.emit] at h
      split at h
      · cases h
      · simp only [res_pure, res_bind_ok, Except.ok.injEq, Prod.mk.injEq] at h
        exact h.1.symm
    subst hh
    obtain ⟨tests, k1, k2, k3, k4⟩ := control_loop_tests ops fuel _ s2 hl
    exact ⟨s1, tests, hi, k1, k2, k3, k4⟩
  · intro ops2 fuel1 fuel2 head sa sb
    refine ⟨control_step_none_iff ops fuel1 (head, sa), ?_, ?_, ?_⟩
    · rw [control_step_none_iff, control_step_none_iff]
    · intro h
      simp [control_step, h]
    · intro h
      simp [control_loop, control_step, h]

/-- C11 on a run with two iterations: two workers are registered when the
control thread starts and leave during its first `workq_load_unload`; the
second iteration reads the empty registry and the third test leaves the
loop. -/
theorem control_exit_signal_witness :
    control_thread_routine leaving_ops 10 two_engines_state = .ok left_state ∧
    (∃ (s1 : State) (tests : List (Ptr × State)),
      control_init leaving_ops two_engines_state =
        .ok (two_engines_state.engine_list_head, s1) ∧
      tests.head? = some (two_engines_state.engine_list_head, s1) ∧
      tests.getLast? = some (NULL, left_state) ∧
      (∀ t ∈ tests.dropLast, t.1 ≠ NULL) ∧
      List.Chain' (control_next leaving_ops) tests) ∧
    (∀ (ops2 : WorkqOps) (fuel1 fuel2 : Nat) (head : Ptr) (sa sb : State),
      (control_step leaving_ops fuel1 (head, sa) = .ok none ↔ head = NULL) ∧
      (control_step leaving_ops fuel1 (head, sa) = .ok none ↔
        control_step ops2 fuel2 (head, sb) = .ok none) ∧
      (head ≠ NULL →
        control_step leaving_ops fuel1 (head, sa) =
          (control_iteration leaving_ops fuel1 sa).map some) ∧
      (head = NULL → control_loop leaving_ops (fuel1 + 1) (head, sa) = .ok sa)) :=
  ⟨rfl, control_exit_signal leaving_ops 10 two_engines_state left_state rfl⟩

end ProjGame

namespace ProjGame

/-! ## One iteration of the worker loop -/

theorem engine_loop_unfold (br : Ptr → State → Res (list_ends × State)) (e : Ptr) (n : Nat)
    (temp : Ptr) (s : State) :
    engine_loop br e (n + 1) temp s =
      if temp = NULL then .ok s
      else engine_iteration br e temp s >>= fun r => engine_loop br e n r.1 r.2 := by
  by_cases h : temp = NULL
  · simp [engine_loop, h]
  · simp only [engine_loop, h, if_false, engine_iteration, bind_assoc]

theorem backlog_head {items : Ptr → Option proj_space} {p : Ptr} {L : List Ptr}
    (h : backlog items p L) : p = L.head?.getD NULL := by
  cases L with
  | nil => exact h
  | cons x r => exact ((backlog_cons_iff _ _ _ _).1 h).1

theorem heap_ok_of_maps {s s2 : State} (h : heap_ok s) (hbrk : s2.brk = s.brk)
    (hi : ∀ q, s.items q = none → s2.items q = none)
    (he : ∀ q, s.engines q = none → s2.engines q = none) : heap_ok s2 := by
  intro q hq
  rw [hbrk] at hq
  exact ⟨hi q (h q hq).1, he q (h q hq).2⟩

theorem unlink_all_none (items : Ptr → Option proj_space) (xs : List Ptr) (q : Ptr)
    (h : items q = none) : unlink_all items xs q = none := by
  simp only [unlink_all]
  split <;> simp [h]

theorem settle_all_none (engines : Ptr → Option engine_t) (L : List Ptr) (q : Ptr)
    (h : engines q = none) : settle_all engines L q = none := by
  simp only [settle_all]
  split <;> simp [h]

theorem payload_at_unlink_all (items : Ptr → Option proj_space) (xs : List Ptr) (q : Ptr) :
    payload_at (unlink_all items xs) q = payload_at items q := by
  simp only [payload_at, unlink_all]
  split
  · cases items q <;> simp [proj_space.payload]
  · rfl

/-- What one iteration of the worker loop does to the backlog
`p0 :: rest`, for an expansion function that `expands`. -/
theorem engine_iteration_spec (br : Ptr → State → Res (list_ends × State))
    (f : proj_space → List proj_space) (hbr : expands br f) (e : Ptr) (s : State)
    (p0 : Ptr) (rest : List Ptr) (x : proj_space) (qr : List proj_space)
    (hinv : worker_inv s e (p0 :: rest) (x :: qr)) :
    ∃ temp s2 cs v2, engine_iteration br e p0 s = .ok (temp, s2) ∧
      worker_inv s2 e (rest ++ cs) (qr ++ f x) ∧
      cs.length = (f x).length ∧
      (∀ c ∈ cs, s.items c = none) ∧ p0 ∉ rest ++ cs ∧
      s2.engines e = some v2 ∧ v2.list_first = temp ∧ temp = (rest ++ cs).head?.getD NULL := by
  obtain ⟨hheap, v, hv, hb, hlast, hpay⟩ := hinv
  obtain ⟨hf, hp0, r0, h0, _⟩ := (backlog_cons_iff _ _ _ _).1 hb
  rw [hf] at hb
  have hx : r0.payload = x := by
    simp only [List.map_cons, List.cons.injEq, payload_at, h0, Option.map_some',
      Option.some.injEq] at hpay
    exact hpay.1
  have hheap1 : heap_ok (s.emit (.branch r0.payload)) := hheap
  obtain ⟨ends, s1, cs, e1, g1, g2, g3, g4, g5, g6, g7, g8, g9⟩ :=
    hbr (s.emit (.branch r0.payload)) p0 r0 hheap1 h0
  have hold : ∀ c ∈ p0 :: rest, s1.items c = s.items c := by
    intro c hc
    refine g6 c ?_
    intro hcc
    obtain ⟨r, hr⟩ := backlog_live hb hc
    have := g5 c hcc
    rw [show (s.emit (.branch r0.payload)).items c = s.items c from rfl, hr] at this
    cases this
  have hb1 : backlog s1.items p0 (p0 :: rest) := backlog_frame hold hb
  have hpay1 : (p0 :: rest).map (payload_at s1.items) = (x :: qr).map some := by
    rw [← hpay]
    refine List.map_congr_left ?_
    intro c hc
    simp [payload_at, hold c hc]
  have hdisj : ∀ c ∈ cs, c ∉ p0 :: rest := by
    intro c hc hcp
    obtain ⟨r, hr⟩ := backlog_live hb hcp
    have := g5 c hc
    rw [show (s.emit (.branch r0.payload)).items c = s.items c from rfl, hr] at this
    cases this
  have hv1 : s1.engines e = some v := by rw [g7]; exact hv
  rw [hx] at g4
  obtain ⟨temp, s2, v2, e2, k1, k2, k3, _⟩ := engine_advance_spec s1 e v ends p0 rest cs x
    qr (f x) g1 hv1 hf hb1 (hlast (by simp)) hpay1 g2 g3 g4 hdisj
  refine ⟨temp, s2, cs, v2, ?_, k1, ?_, ?_, ?_, k2, k3, ?_⟩
  · simp only [engine_iteration, State.item, h0, res_bind_ok, e1, e2]
  · have := congrArg List.length g4
    simpa using this
  · intro c hc
    exact g5 c hc
  · intro hm
    rcases List.mem_append.1 hm with hm | hm
    · have hnd := chain_nodup hb
      exact (List.nodup_cons.1 hnd).1 hm
    · exact hdisj p0 hm (List.mem_cons_self _ _)
  · obtain ⟨_, w, hw, hbw, _⟩ := k1
    rw [k2] at hw; cases hw
    rw [← k3]
    exact backlog_head hbw

/-- Claim C12 (worker iteration step).  Let the backlog of the calling
worker be the cells `p0 :: rest` with the payloads `x :: qr`.  One
iteration of the loop of `engine_routine` returns, and leaves the backlog
equal to the cells `rest` followed by new cells that carry the children
`branch_children x` in the order `branch` generated them; the explored
head is gone, and the item the loop explores next is the new head (`NULL`
when the new backlog is empty).  If, between the call of `branch` and the
append, the control loop runs Scan and Redistribute (which leaves this
backlog reduced to `p0` and hands `rest` to `workq_add`), the append
leaves the backlog equal to the new cells alone, again in the order
generated, and the next item explored is the first child. -/
theorem engine_iteration_fifo (ops : WorkqOps) (e : Ptr) (s : State) (p0 : Ptr)
    (rest : List Ptr) (x : proj_space) (qr : List proj_space)
    (hinv : worker_inv s e (p0 :: rest) (x :: qr)) :
    (∃ temp s2 cs v2, engine_iteration branch e p0 s = .ok (temp, s2) ∧
      worker_inv s2 e (rest ++ cs) (qr ++ branch_children x) ∧
      cs.length = (branch_children x).length ∧
      (∀ c ∈ cs, s.items c = none) ∧ p0 ∉ rest ++ cs ∧
      s2.engines e = some v2 ∧ v2.list_first = temp ∧ temp = (rest ++ cs).head?.getD NULL ∧
      ∀ n, engine_loop branch e (n + 1) p0 s = engine_loop branch e n temp s2) ∧
    (∀ (L : List Ptr) (B : Ptr → List Ptr) (fuel : Nat), registry s L → e ∈ L →
      B e = p0 :: rest →
      (∀ e2 ∈ L, ∃ v, s.engines e2 = some v ∧ backlog s.items v.list_first (B e2)) →
      (L.flatMap B).Nodup → (∀ w p, (ops.workq_add w p).1 = 0) →
      L.length + (L.flatMap B).length < fuel →
      ∃ ends s1 s2 temp s3 cs v3,
        branch p0 (s.emit (.branch x)) = .ok (ends, s1) ∧
        control_scan ops fuel s1 = .ok (s.engine_list_head, s2) ∧
        worker_inv s2 e [p0] [x] ∧
        (s2.trace.drop s1.trace.length).filterMap Event.added =
          L.flatMap (fun e2 => (B e2).tail) ∧
        engine_advance e ends s2 = .ok (temp, s3) ∧
        worker_inv s3 e cs (branch_children x) ∧
        s3.engines e = some v3 ∧ v3.list_first = temp ∧ temp = cs.head?.getD NULL) := by
  have hp0 : p0 ≠ NULL := by
    obtain ⟨_, v, _, hb, _⟩ := hinv
    exact ((backlog_cons_iff _ _ _ _).1 hb).2.1
  constructor
  · obtain ⟨temp, s2, cs, v2, h1, h2, h3, h4, h5, h6, h7, h8⟩ :=
      engine_iteration_spec branch branch_children branch_expands e s p0 rest x qr hinv
    refine ⟨temp, s2, cs, v2, h1, h2, h3, h4, h5, h6, h7, h8, ?_⟩
    intro n
    rw [engine_loop_unfold, if_neg hp0, h1]
    rfl
  · intro L B fuel hreg heL hBe hback hsep hadd hfuel
    obtain ⟨hheap, v, hv, hb, hlast, hpay⟩ := hinv
    obtain ⟨hf, _, r0, h0, _⟩ := (backlog_cons_iff _ _ _ _).1 hb
    rw [hf] at hb
    have hx : r0.payload = x := by
      simp only [List.map_cons, List.cons.injEq, payload_at, h0, Option.map_some',
        Option.some.injEq] at hpay
      exact hpay.1
    have hheap1 : heap_ok (s.emit (.branch x)) := hheap
    obtain ⟨ends, s1, cs, e1, g1, g2, g3, g4, g5, g6, _, _, _, g10, _, g12, _, _, g15⟩ :=
      branch_spec (s.emit (.branch x)) hheap1 p0 r0 h0
    have g5' : ∀ c ∈ cs, s.items c = none := g5
    have g6' : ∀ q, q ∉ cs → s1.items q = s.items q := g6
    have g10' : s1.engines = s.engines := g10
    have g12' : s1.engine_list_head = s.engine_list_head := g12
    have g4' : cs.map (payload_at s1.items) = (branch_children x).map some := by
      rw [← hx, branch_children_payload]; exact g4
    -- the backlogs are live in `s`, the new cells are not
    have hlive : ∀ p ∈ L.flatMap B, ∃ r, s.items p = some r := by
      intro p hp
      obtain ⟨e2, he2, hpe⟩ := List.mem_flatMap.1 hp
      obtain ⟨w, _, hbw⟩ := hback e2 he2
      exact backlog_live hbw hpe
    have hfresh : ∀ c ∈ cs, c ∉ L.flatMap B := by
      intro c hc hm
      obtain ⟨r, hr⟩ := hlive c hm
      rw [g5' c hc] at hr; cases hr
    have hsame : ∀ p ∈ L.flatMap B, s1.items p = s.items p := by
      intro p hp
      exact g6' p (fun hc => hfresh p hc hp)
    have hc1 : chain (next_of (s1.emit (.lock .engine_list_mutex)).engines)
        s1.engine_list_head L := by
      show chain (next_of s1.engines) s1.engine_list_head L
      rw [g10', g12']
      exact registry_from_chain hreg
    have hback1 : ∀ e2 ∈ L, ∃ w, (s1.emit (.lock .engine_list_mutex)).engines e2 = some w ∧
        backlog (s1.emit (.lock .engine_list_mutex)).items w.list_first (B e2) := by
      intro e2 he2
      obtain ⟨w, hw, hbw⟩ := hback e2 he2
      refine ⟨w, by show s1.engines e2 = some w; rw [g10']; exact hw, ?_⟩
      show backlog s1.items w.list_first (B e2)
      refine backlog_frame ?_ hbw
      intro p hp
      exact hsame p (List.mem_flatMap.2 ⟨e2, he2, hp⟩)
    have hred := redistribute_spec ops hadd B L (s1.emit (.lock .engine_list_mutex)) fuel
      s1.engine_list_head hc1 hback1 hsep hfuel
    have hp0m : p0 ∈ L.flatMap B :=
      List.mem_flatMap.2 ⟨e, heL, by rw [hBe]; exact List.mem_cons_self _ _⟩
    have h01 : s1.items p0 = some r0 := by rw [hsame p0 hp0m]; exact h0
    refine ⟨ends, s1,
      { s1 with
        items := unlink_all s1.items (L.flatMap B),
        engines := settle_all s1.engines L,
        workq := add_all ops s1.workq (L.flatMap fun e2 => (B e2).tail),
        trace := s1.trace ++ [Event.lock .engine_list_mutex] ++
          (L.flatMap fun e2 => redistribute_events e2 (B e2)) ++
          [Event.unlock .engine_list_mutex] }, ?_⟩
    have hs2heap : heap_ok ({ s1 with
        items := unlink_all s1.items (L.flatMap B),
        engines := settle_all s1.engines L,
        workq := add_all ops s1.workq (L.flatMap fun e2 => (B e2).tail),
        trace := s1.trace ++ [Event.lock .engine_list_mutex] ++
          (L.flatMap fun e2 => redistribute_events e2 (B e2)) ++
          [Event.unlock .engine_list_mutex] } : State) :=
      heap_ok_of_maps g1 rfl (fun q hq => unlink_all_none _ _ q hq)
        (fun q hq => settle_all_none _ _ q hq)
    have hv2 : settle_all s1.engines L e = some { v with list_last := v.list_first } := by
      simp [settle_all, heL, g10', hv]
    have hi2 : unlink_all s1.items (L.flatMap B) p0 = some { r0 with link := NULL } := by
      simp [unlink_all, hp0m, h01]
    have hb2 : backlog (unlink_all s1.items (L.flatMap B)) p0 [p0] :=
      (backlog_cons_iff _ _ _ _).2 ⟨rfl, hp0, _, hi2, rfl⟩
    have hcs2 : backlog (unlink_all s1.items (L.flatMap B)) ends.first cs := by
      refine backlog_frame ?_ g2
      intro c hc
      simp [unlink_all, hfresh c hc]
    have hpay2 : [p0].map (payload_at (unlink_all s1.items (L.flatMap B))) = [x].map some := by
      simp only [List.map_cons, List.map_nil, payload_at, hi2, Option.map_some']
      rw [← hx]; rfl
    have hcp2 : cs.map (payload_at (unlink_all s1.items (L.flatMap B))) =
        (branch_children x).map some := by
      rw [← g4']
      exact List.map_congr_left (fun c _ => payload_at_unlink_all _ _ c)
    have hdisj2 : ∀ c ∈ cs, c ∉ [p0] := by
      intro c hc hm
      rw [List.mem_singleton] at hm
      subst hm
      exact hfresh c hc hp0m
    obtain ⟨temp, s3, v3, e3, k1, k2, k3, _⟩ := engine_advance_spec _ e
      { v with list_last := v.list_first } ends p0 [] cs x [] (branch_children x) hs2heap hv2 hf
      hb2 (by simp [hf]) hpay2 hcs2 g3 hcp2 hdisj2
    refine ⟨temp, s3, cs, v3, e1, ?_, ?_, ?_, e3, by simpa using k1, k2, k3, ?_⟩
    · have hred2 : redistribute ops fuel (s1.emit (.lock .engine_list_mutex)).engine_list_head
          (s1.emit (.lock .engine_list_mutex)) = _ := hred
      have hh : (s1.emit (.lock .engine_list_mutex)).engine_list_head = s.engine_list_head := g12'
      rw [hh] at hred2
      simp only [control_scan, hh, hred2, res_bind_ok, res_pure]
      simp [State.emit, g12']
    · exact ⟨hs2heap, { v with list_last := v.list_first }, hv2, by rw [hf]; exact hb2,
        by simp [hf], hpay2⟩
    · simp [List.filterMap_append, added_redistribute_events, Event.added]
    · obtain ⟨_, w, hw, hbw, _⟩ := k1
      rw [k2] at hw; cases hw
      rw [← k3]
      simpa using backlog_head hbw

theorem two_engines_worker_inv :
    worker_inv two_engines_state 10 [1, 2, 3] [seed, seed, seed] :=
  ⟨two_engines_heap_ok, ⟨NULL, 11, 1, 1, 3⟩, rfl, by decide, by decide, by decide⟩

theorem two_engines_backlogs : ∀ e ∈ [10, 11], ∃ v, two_engines_state.engines e = some v ∧
    backlog two_engines_state.items v.list_first (two_engines_backlog e) := by
  intro e he
  simp only [List.mem_cons, List.mem_singleton, List.not_mem_nil, or_false] at he
  rcases he with rfl | rfl
  · exact ⟨_, rfl, by decide⟩
  · exact ⟨_, rfl, by decide⟩

/-- C12 for the engine 10 of a registry of two engines, whose backlog is
the cells 1, 2, 3, each holding the first space; the control loop finds
the registry 10, 11 with the backlogs 1, 2, 3 and 4. -/
theorem engine_iteration_fifo_witness :
    worker_inv two_engines_state 10 [1, 2, 3] [seed, seed, seed] ∧
    (∃ temp s2 cs v2, engine_iteration branch 10 1 two_engines_state = .ok (temp, s2) ∧
      worker_inv s2 10 ([2, 3] ++ cs) ([seed, seed] ++ branch_children seed) ∧
      cs.length = (branch_children seed).length ∧
      (∀ c ∈ cs, two_engines_state.items c = none) ∧ 1 ∉ [2, 3] ++ cs ∧
      s2.engines 10 = some v2 ∧ v2.list_first = temp ∧
      temp = ([2, 3] ++ cs).head?.getD NULL ∧
      ∀ n, engine_loop branch 10 (n + 1) 1 two_engines_state = engine_loop branch 10 n temp s2) ∧
    registry two_engines_state [10, 11] ∧
    (∃ ends s1 s2 temp s3 cs v3,
      branch 1 (two_engines_state.emit (.branch seed)) = .ok (ends, s1) ∧
      control_scan sample_ops 10 s1 = .ok (two_engines_state.engine_list_head, s2) ∧
      worker_inv s2 10 [1] [seed] ∧
      (s2.trace.drop s1.trace.length).filterMap Event.added =
        [10, 11].flatMap (fun e2 => (two_engines_backlog e2).tail) ∧
      engine_advance 10 ends s2 = .ok (temp, s3) ∧
      worker_inv s3 10 cs (branch_children seed) ∧
      s3.engines 10 = some v3 ∧ v3.list_first = temp ∧ temp = cs.head?.getD NULL) :=
  ⟨two_engines_worker_inv,
    (engine_iteration_fifo sample_ops 10 two_engines_state 1 [2, 3] seed [seed, seed]
      two_engines_worker_inv).1,
    by decide,
    (engine_iteration_fifo sample_ops 10 two_engines_state 1 [2, 3] seed [seed, seed]
      two_engines_worker_inv).2 [10, 11] two_engines_backlog 10 (by decide) (by decide) rfl
      two_engines_backlogs (by decide) (fun _ _ => rfl) (by decide)⟩

end ProjGame

namespace ProjGame

/-! ## The children of an item, subset by subset -/

set_option maxRecDepth 100000 in
theorem all_subsets_masks : all_subsets.map mask_of = List.range 32 := by decide

set_option maxRecDepth 100000 in
theorem all_subsets_complete : ∀ S : Finset (Fin 5), S ∈ all_subsets := by decide

theorem all_subsets_nodup : all_subsets.Nodup := by
  apply List.Nodup.of_map mask_of
  rw [all_subsets_masks]
  exact List.nodup_range 32

set_option maxRecDepth 100000 in
theorem count_bits_card_option : ∀ n ∈ List.range 32,
    (count_bits 8 (n : Int) 0).toOption = some ((subset_of_mask n).card : Int) := by
  decide!

theorem count_bits_card (n : Nat) (hn : n ∈ List.range 32) :
    count_bits 8 (n : Int) 0 = .ok ((subset_of_mask n).card : Int) := by
  have h := count_bits_card_option n hn
  cases hc : count_bits 8 (n : Int) 0 with
  | error e => rw [hc] at h; cases h
  | ok j =>
    rw [hc] at h
    simp only [Except.toOption, Option.some.injEq] at h
    rw [h]

theorem lor_within_flags : ∀ b0 b1 b2 b3 b4 : Bool, ∀ n ∈ List.range 32,
    decide (Int.lor (idx_of_flags b0 b1 b2 b3 b4) (~~~(n : Int)) = -1) =
      within_flags n b0 b1 b2 b3 b4 := by
  decide!

theorem branch_idx_flags (a : proj_space) :
    branch_idx a = idx_of_flags (decide (a.A 0 * a.minA 0 1 < a.minA 0 0 * (a.k + 1)))
      (decide (a.A 1 * a.minA 1 1 < a.minA 1 0 * (a.k + 1)))
      (decide (a.A 2 * a.minA 2 1 < a.minA 2 0 * (a.k + 1)))
      (decide (a.A 3 * a.minA 3 1 < a.minA 3 0 * (a.k + 1)))
      (decide (a.A 4 * a.minA 4 1 < a.minA 4 0 * (a.k + 1))) := by
  simp only [branch_idx, finRange5, List.foldl, idx_of_flags]
  by_cases h0 : a.A 0 * a.minA 0 1 < a.minA 0 0 * (a.k + 1) <;>
  by_cases h1 : a.A 1 * a.minA 1 1 < a.minA 1 0 * (a.k + 1) <;>
  by_cases h2 : a.A 2 * a.minA 2 1 < a.minA 2 0 * (a.k + 1) <;>
  by_cases h3 : a.A 3 * a.minA 3 1 < a.minA 3 0 * (a.k + 1) <;>
  by_cases h4 : a.A 4 * a.minA 4 1 < a.minA 4 0 * (a.k + 1) <;>
  simp [h0, h1, h2, h3, h4]

theorem shift_bits : ∀ n ∈ List.range 32,
    decide ((n : Int) % 2 ≠ 0) = n.testBit 0 ∧
    decide (((n : Int) >>> 1) % 2 ≠ 0) = n.testBit 1 ∧
    decide ((((n : Int) >>> 1) >>> 1) % 2 ≠ 0) = n.testBit 2 ∧
    decide (((((n : Int) >>> 1) >>> 1) >>> 1) % 2 ≠ 0) = n.testBit 3 ∧
    decide ((((((n : Int) >>> 1) >>> 1) >>> 1) >>> 1) % 2 ≠ 0) = n.testBit 4 := by
  decide!

theorem decide_eq_iff {p : Prop} [Decidable p] {b : Bool} (h : decide p = b) : p ↔ b = true := by
  subst h; simp

theorem bump_raised (A : Fin 5 → Int) (n : Nat) (hn : n ∈ List.range 32) :
    bump A (n : Int) = raised A (subset_of_mask n) := by
  obtain ⟨b0, b1, b2, b3, b4⟩ := shift_bits n hn
  have c0 := decide_eq_iff b0
  have c1 := decide_eq_iff b1
  have c2 := decide_eq_iff b2
  have c3 := decide_eq_iff b3
  have c4 := decide_eq_iff b4
  funext j
  simp only [bump, finRange5, List.foldl, c0, c1, c2, c3, c4, raised, subset_of_mask,
    Finset.mem_filter, Finset.mem_univ, true_and]
  cases h0 : n.testBit 0 <;> cases h1 : n.testBit 1 <;> cases h2 : n.testBit 2 <;>
  cases h3 : n.testBit 3 <;> cases h4 : n.testBit 4 <;> fin_cases j <;>
  simp [Function.update, h0, h1, h2, h3, h4]

theorem lor_iff_subset (a : proj_space) (n : Nat) (hn : n ∈ List.range 32) :
    Int.lor (branch_idx a) (~~~(n : Int)) = -1 ↔ subset_of_mask n ⊆ flagged a := by
  rw [branch_idx_flags]
  have h := lor_within_flags (decide (a.A 0 * a.minA 0 1 < a.minA 0 0 * (a.k + 1)))
      (decide (a.A 1 * a.minA 1 1 < a.minA 1 0 * (a.k + 1)))
      (decide (a.A 2 * a.minA 2 1 < a.minA 2 0 * (a.k + 1)))
      (decide (a.A 3 * a.minA 3 1 < a.minA 3 0 * (a.k + 1)))
      (decide (a.A 4 * a.minA 4 1 < a.minA 4 0 * (a.k + 1))) n hn
  rw [decide_eq_iff h]
  simp only [within_flags, Bool.and_eq_true, Bool.or_eq_true, Bool.not_eq_true',
    decide_eq_true_eq, Finset.subset_iff, subset_of_mask, flagged, Finset.mem_filter,
    Finset.mem_univ, true_and]
  constructor
  · rintro ⟨⟨⟨⟨h0, h1⟩, h2⟩, h3⟩, h4⟩ i hi
    fin_cases i
    · exact h0.resolve_left (by rw [show n.testBit 0 = true from hi]; simp)
    · exact h1.resolve_left (by rw [show n.testBit 1 = true from hi]; simp)
    · exact h2.resolve_left (by rw [show n.testBit 2 = true from hi]; simp)
    · exact h3.resolve_left (by rw [show n.testBit 3 = true from hi]; simp)
    · exact h4.resolve_left (by rw [show n.testBit 4 = true from hi]; simp)
  · intro H
    refine ⟨⟨⟨⟨?_, ?_⟩, ?_⟩, ?_⟩, ?_⟩
    · cases hb : n.testBit 0
      · exact Or.inl rfl
      · exact Or.inr (@H 0 hb)
    · cases hb : n.testBit 1
      · exact Or.inl rfl
      · exact Or.inr (@H 1 hb)
    · cases hb : n.testBit 2
      · exact Or.inl rfl
      · exact Or.inr (@H 2 hb)
    · cases hb : n.testBit 3
      · exact Or.inl rfl
      · exact Or.inr (@H 3 hb)
    · cases hb : n.testBit 4
      · exact Or.inl rfl
      · exact Or.inr (@H 4 hb)

theorem filterMap_ite {α β : Type} (p : α → Prop) [DecidablePred p] (f : α → β) (l : List α) :
    l.filterMap (fun x => if p x then some (f x) else none) = (l.filter (fun x => decide (p x))).map f := by
  induction l with
  | nil => rfl
  | cons x r ih =>
    by_cases h : p x
    · simp [List.filterMap_cons, h, ih]
    · simp [List.filterMap_cons, h, ih]

theorem child_admissible (a : proj_space) (n : Nat) (hn : n ∈ List.range 32) :
    child a (n : Int) =
      if admissible a (subset_of_mask n) then some (child_for a (subset_of_mask n)) else none := by
  rw [child_eq a _ _ (count_bits_card n hn)]
  have hb := bump_raised a.A n hn
  by_cases h : admissible a (subset_of_mask n)
  · obtain ⟨h1, h2, h3, h4⟩ := h
    have h2' : a.k + 3 - (a.A 0 + a.A 1 + a.A 2 + a.A 3 + a.A 4) ≤
        ((subset_of_mask n).card : Int) := h2
    have h3' : ((subset_of_mask n).card : Int) ≤
        a.k + 4 - (a.A 0 + a.A 1 + a.A 2 + a.A 3 + a.A 4) := h3
    rw [if_pos ⟨(lor_iff_subset a n hn).2 h1, h3', h2'⟩, if_pos (by rw [hb]; exact h4),
      if_pos ⟨h1, h2, h3, h4⟩, hb]
    rfl
  · rw [if_neg h]
    by_cases hc : Int.lor (branch_idx a) (~~~(n : Int)) = -1 ∧
        ((subset_of_mask n).card : Int) ≤ a.k + 4 - (a.A 0 + a.A 1 + a.A 2 + a.A 3 + a.A 4) ∧
        ((subset_of_mask n).card : Int) ≥ a.k + 3 - (a.A 0 + a.A 1 + a.A 2 + a.A 3 + a.A 4)
    · rw [if_pos hc]
      have ho : ¬ ordered (bump a.A (n : Int)) := by
        rw [hb]
        exact fun ho => h ⟨(lor_iff_subset a n hn).1 hc.1, hc.2.2, hc.2.1, ho⟩
      rw [if_neg ho]
    · rw [if_neg hc]

theorem branch_children_eq (a : proj_space) :
    branch_children a =
      (all_subsets.filter (fun S => decide (admissible a S))).map (child_for a) := by
  have h : branch_children a = (List.range 32).filterMap (fun n =>
      if admissible a (subset_of_mask n) then some (child_for a (subset_of_mask n))
      else none) := by
    simp only [branch_children, subsets, List.filterMap_map]
    apply List.filterMap_congr
    intro n hn
    exact child_admissible a n hn
  rw [h, all_subsets, List.filter_map, List.map_map, filterMap_ite (fun n => admissible a (subset_of_mask n))]
  rfl
set_option maxRecDepth 100000 in
theorem card_indicators : ∀ S : Finset (Fin 5),
    (S.card : Int) = (if (0 : Fin 5) ∈ S then 1 else 0) + (if (1 : Fin 5) ∈ S then 1 else 0) +
      (if (2 : Fin 5) ∈ S then 1 else 0) + (if (3 : Fin 5) ∈ S then 1 else 0) +
      (if (4 : Fin 5) ∈ S then 1 else 0) := by
  decide

theorem raised_sum (A : Fin 5 → Int) (S : Finset (Fin 5)) :
    weight_sum (raised A S) = weight_sum A + (S.card : Int) := by
  rw [card_indicators S]
  simp only [weight_sum, raised]
  split_ifs <;> omega

set_option maxRecDepth 100000 in
theorem card_le_five : ∀ S : Finset (Fin 5), S.card ≤ 5 := by decide

end ProjGame

namespace ProjGame

/-! ## The ends of the list that `branch` returns -/

theorem append_element_ends {v v2 : BranchVars} {st st2 : State}
    (h : append_element v st = .ok (v2, st2)) (ht : v.temp_element ≠ NULL) :
    v2.temp_element ≠ NULL ∧ v2.stack_ends.first ≠ NULL := by
  simp only [append_element] at h
  have key : ∀ (f : Ptr) (y : State), f ≠ NULL →
      (if (y.malloc_item junk_item).1 = NULL then do
          throw (Err.abort ENOMEM Diag.pool_out_of_memory)
          pure
              (({ stack_ends := { first := f, last := v.temp_element },
                  temp_element := (y.malloc_item junk_item).1 } : BranchVars),
                (y.malloc_item junk_item).2)
        else do
          pure PUnit.unit
          pure
              (({ stack_ends := { first := f, last := v.temp_element },
                  temp_element := (y.malloc_item junk_item).1 } : BranchVars),
                (y.malloc_item junk_item).2)) = (Except.ok (v2, st2) : Res (BranchVars × State)) →
      v2.temp_element ≠ NULL ∧ v2.stack_ends.first ≠ NULL := by
    intro f y hf hy
    simp only [State.malloc_item, Nat.add_one_ne_zero, if_false, res_pure, res_bind_ok,
      Except.ok.injEq, Prod.mk.injEq] at hy
    obtain ⟨h1, _⟩ := hy
    subst h1
    exact ⟨Nat.add_one_ne_zero _, hf⟩
  split at h
  · obtain ⟨y, _, h⟩ := res_bind_eq_ok h
    exact key _ y ht h
  · obtain ⟨y, _, h⟩ := res_bind_eq_ok h
    exact key _ y (by assumption) h

theorem branch_step_ends {arg : Ptr} {idx dmin dmax s : Int} {v v2 : BranchVars}
    {st st2 : State} (h : branch_step arg idx dmin dmax s v st = .ok (v2, st2))
    (hI : v.temp_element ≠ NULL ∧ (v.stack_ends.first = NULL → v.stack_ends.last = NULL)) :
    v2.temp_element ≠ NULL ∧ (v2.stack_ends.first = NULL → v2.stack_ends.last = NULL) := by
  simp only [branch_step] at h
  obtain ⟨j, _, h⟩ := res_bind_eq_ok h
  by_cases hc : Int.lor idx (~~~s) = -1 ∧ j ≤ dmax ∧ j ≥ dmin
  · rw [if_pos hc] at h
    obtain ⟨a, _, h⟩ := res_bind_eq_ok h
    obtain ⟨st1, _, h⟩ := res_bind_eq_ok h
    obtain ⟨t, _, h⟩ := res_bind_eq_ok h
    by_cases ho : ordered t.A
    · rw [if_pos ho] at h
      obtain ⟨a2, _, h⟩ := res_bind_eq_ok h
      obtain ⟨st3, _, h⟩ := res_bind_eq_ok h
      obtain ⟨k1, k2⟩ := append_element_ends h hI.1
      exact ⟨k1, fun h0 => absurd h0 k2⟩
    · rw [if_neg ho] at h
      cases h
      exact hI
  · rw [if_neg hc] at h
    cases h
    exact hI

theorem branch_loop_ends {arg : Ptr} {idx dmin dmax : Int} :
    ∀ (l : List Int) (v v2 : BranchVars) (st st2 : State),
      branch_loop arg idx dmin dmax l v st = .ok (v2, st2) →
      (v.temp_element ≠ NULL ∧ (v.stack_ends.first = NULL → v.stack_ends.last = NULL)) →
      v2.temp_element ≠ NULL ∧ (v2.stack_ends.first = NULL → v2.stack_ends.last = NULL) := by
  intro l
  induction l with
  | nil =>
    intro v v2 st st2 h hI
    simp only [branch_loop, Except.ok.injEq, Prod.mk.injEq] at h
    rw [← h.1]; exact hI
  | cons s rest ih =>
    intro v v2 st st2 h hI
    simp only [branch_loop] at h
    obtain ⟨⟨v1, st1⟩, h1, h⟩ := res_bind_eq_ok h
    exact ih v1 v2 st1 st2 h (branch_step_ends h1 hI)

theorem branch_ends {arg : Ptr} {s s2 : State} {ends : list_ends}
    (h : branch arg s = .ok (ends, s2)) : ends.first = NULL → ends.last = NULL := by
  simp only [branch, State.malloc_item, Nat.add_one_ne_zero, if_false] at h
  obtain ⟨_, _, h⟩ := res_bind_eq_ok h
  obtain ⟨a, _, h⟩ := res_bind_eq_ok h
  obtain ⟨⟨v, st⟩, hl, h⟩ := res_bind_eq_ok h
  have hI := branch_loop_ends _ _ _ _ _ hl ⟨Nat.add_one_ne_zero _, fun _ => rfl⟩
  simp only [branch_finish] at h
  obtain ⟨st1, _, h⟩ := res_bind_eq_ok h
  split at h <;>
  · obtain ⟨y, _, h⟩ := res_bind_eq_ok h
    simp only [res_pure, Except.ok.injEq, Prod.mk.injEq] at h
    rw [← h.1]
    exact hI.2

theorem admissible_count (x : proj_space) :
    (all_subsets.filter (fun S => decide (admissible x S))).length =
      (Finset.univ.filter (fun S => admissible x S)).card := by
  have h1 : (all_subsets.filter (fun S => decide (admissible x S))).Nodup :=
    all_subsets_nodup.filter _
  rw [← List.toFinset_card_of_nodup h1]
  congr 1
  ext S
  simp [all_subsets_complete S]

theorem admissible_none_iff (x : proj_space) :
    all_subsets.filter (fun S => decide (admissible x S)) = [] ↔ ∀ S, ¬ admissible x S := by
  rw [List.filter_eq_nil_iff]
  constructor
  · intro h S
    simpa using h S (all_subsets_complete S)
  · intro h S _
    simpa using h S

/-- Claim C13 (children of `branch`).  For every live item `x` in a
well-formed heap, `branch` returns, and the list it returns consists of
new cells `cs`, linked in this order from `first` to `last` and ended by a
NULL link, that carry exactly the children `child_for x S` (weights
raised on `S`, depth `k + 1`) of the admissible subsets `S` of the indices
0..4, one cell for each such subset, in increasing order of the bitmask of
`S`; a subset is admissible when it lies within the flagged indices `F`,
has between `dmin` and `dmax` members and leaves the raised weights
non-decreasing.  `first = last = NULL` exactly when no subset is
admissible. -/
theorem branch_children_by_subset (s : State) (arg : Ptr) (x : proj_space) (hheap : heap_ok s)
    (hx : s.items arg = some x) :
    ∃ ends s2 cs, branch arg s = .ok (ends, s2) ∧
      backlog s2.items ends.first cs ∧ (cs ≠ [] → cs.getLast? = some ends.last) ∧
      cs.map (payload_at s2.items) =
        ((all_subsets.filter (fun S => decide (admissible x S))).map (child_for x)).map some ∧
      cs.length = (Finset.univ.filter (fun S => admissible x S)).card ∧
      ((ends.first = NULL ∧ ends.last = NULL) ↔ ∀ S, ¬ admissible x S) ∧
      (∀ S i, (child_for x S).k = x.k + 1 ∧ (child_for x S).link = NULL ∧
        (child_for x S).A i = if i ∈ S then x.A i + 1 else x.A i) ∧
      all_subsets.map mask_of = List.range 32 ∧ all_subsets.Nodup ∧
      (∀ S : Finset (Fin 5), S ∈ all_subsets) := by
  obtain ⟨ends, s2, cs, h1, _, h3, h4, h5, _, _, h8, _⟩ := branch_spec s hheap arg x hx
  rw [branch_children_eq] at h5 h8
  refine ⟨ends, s2, cs, h1, h3, h4, h5, ?_, ?_, ?_, all_subsets_masks, all_subsets_nodup,
    all_subsets_complete⟩
  · have := congrArg List.length h5
    simp only [List.length_map] at this
    rw [this, admissible_count]
  · rw [← admissible_none_iff, ← List.map_eq_nil_iff, ← h8]
    exact ⟨fun h => h.1, fun h => ⟨h, branch_ends h1 h⟩⟩
  · intro S i
    exact ⟨rfl, rfl, rfl⟩

/-- C13 for the first space, alone in the heap at address 1. -/
theorem branch_children_by_subset_witness :
    ∃ ends s2 cs, branch 1 (one_item_state seed) = .ok (ends, s2) ∧
      backlog s2.items ends.first cs ∧ (cs ≠ [] → cs.getLast? = some ends.last) ∧
      cs.map (payload_at s2.items) =
        ((all_subsets.filter (fun S => decide (admissible seed S))).map
          (child_for seed)).map some ∧
      cs.length = (Finset.univ.filter (fun S => admissible seed S)).card ∧
      ((ends.first = NULL ∧ ends.last = NULL) ↔ ∀ S, ¬ admissible seed S) ∧
      (∀ S i, (child_for seed S).k = seed.k + 1 ∧ (child_for seed S).link = NULL ∧
        (child_for seed S).A i = if i ∈ S then seed.A i + 1 else seed.A i) ∧
      all_subsets.map mask_of = List.range 32 ∧ all_subsets.Nodup ∧
      (∀ S : Finset (Fin 5), S ∈ all_subsets) :=
  branch_children_by_subset (one_item_state seed) 1 seed (one_item_heap_ok seed) rfl

end ProjGame

namespace ProjGame

/-! ## The cells of the list that `branch` returns -/

theorem mem_branch_children {x y : proj_space} (h : y ∈ branch_children x) :
    ∃ S, admissible x S ∧ y = child_for x S := by
  rw [branch_children_eq] at h
  obtain ⟨S, hS, rfl⟩ := List.mem_map.1 h
  exact ⟨S, by simpa using (List.mem_filter.1 hS).2, rfl⟩

theorem mem_of_map_eq_map_some {cs : List Ptr} {ys : List proj_space}
    {f : Ptr → Option proj_space} (h : cs.map f = ys.map some) {c : Ptr} (hc : c ∈ cs) :
    ∃ y ∈ ys, f c = some y := by
  have : f c ∈ ys.map some := by rw [← h]; exact List.mem_map_of_mem f hc
  obtain ⟨y, hy, e⟩ := List.mem_map.1 this
  exact ⟨y, hy, e.symm⟩

/-- The cells of the list `branch` returns hold the children of the
admissible subsets. -/
theorem branch_cells (s : State) (hheap : heap_ok s) (arg : Ptr) (x : proj_space)
    (hx : s.items arg = some x) :
    ∃ ends s2 cs, branch arg s = .ok (ends, s2) ∧ backlog s2.items ends.first cs ∧
      cs.length = (branch_children x).length ∧
      ∀ c ∈ cs, ∃ r S, s2.items c = some r ∧ admissible x S ∧ r.k = x.k + 1 ∧
        r.A = raised x.A S ∧ r.minA = new_minA x (raised x.A S) := by
  obtain ⟨ends, s2, cs, h1, _, h3, _, h5, _⟩ := branch_spec s hheap arg x hx
  refine ⟨ends, s2, cs, h1, h3, by simpa using congrArg List.length h5, ?_⟩
  intro c hc
  obtain ⟨y, hy, e⟩ := mem_of_map_eq_map_some h5 hc
  obtain ⟨S, hS, rfl⟩ := mem_branch_children hy
  simp only [payload_at] at e
  cases hr : s2.items c with
  | none => rw [hr] at e; cases e
  | some r =>
    rw [hr] at e
    simp only [Option.map_some', Option.some.injEq] at e
    refine ⟨r, S, rfl, hS, ?_, ?_, ?_⟩
    · exact congrArg proj_space.k e
    · exact congrArg proj_space.A e
    · exact congrArg proj_space.minA e

/-! ## The fractions of a child -/

theorem new_minA_min (x : proj_space) (A : Fin 5 → Int) (i : Fin 5) (hk : 0 < x.k + 1)
    (hden : 0 < x.minA i 1) :
    ((new_minA x A i 0 : ℚ) / (new_minA x A i 1 : ℚ) =
      min ((x.minA i 0 : ℚ) / (x.minA i 1 : ℚ)) ((A i : ℚ) / ((x.k + 1 : Int) : ℚ))) ∧
    ((x.minA i 0 : ℚ) / (x.minA i 1 : ℚ) < (A i : ℚ) / ((x.k + 1 : Int) : ℚ) →
      new_minA x A i 0 = x.minA i 0 ∧ new_minA x A i 1 = x.minA i 1) ∧
    (¬ (x.minA i 0 : ℚ) / (x.minA i 1 : ℚ) < (A i : ℚ) / ((x.k + 1 : Int) : ℚ) →
      new_minA x A i 0 = A i ∧ new_minA x A i 1 = x.k + 1) := by
  have hkq : (0 : ℚ) < ((x.k + 1 : Int) : ℚ) := by exact_mod_cast hk
  have hdq : (0 : ℚ) < (x.minA i 1 : ℚ) := by exact_mod_cast hden
  have hiff : (x.minA i 0 : ℚ) / (x.minA i 1 : ℚ) < (A i : ℚ) / ((x.k + 1 : Int) : ℚ) ↔
      x.minA i 0 * (x.k + 1) < x.minA i 1 * A i := by
    rw [div_lt_div_iff₀ hdq hkq]
    constructor
    · intro h
      have h2 : ((x.minA i 0 * (x.k + 1) : Int) : ℚ) < ((x.minA i 1 * A i : Int) : ℚ) := by
        push_cast
        rw [mul_comm (x.minA i 1 : ℚ)]
        push_cast at h
        exact h
      exact_mod_cast h2
    · intro h
      have h2 : ((x.minA i 0 * (x.k + 1) : Int) : ℚ) < ((x.minA i 1 * A i : Int) : ℚ) := by
        exact_mod_cast h
      push_cast at h2 ⊢
      rw [mul_comm (A i : ℚ)]
      exact h2
  by_cases hj : x.minA i 0 * (x.k + 1) < x.minA i 1 * A i
  · have h0 : new_minA x A i 0 = x.minA i 0 := by simp [new_minA, hj]
    have h1 : new_minA x A i 1 = x.minA i 1 := by simp [new_minA, hj]
    refine ⟨?_, fun _ => ⟨h0, h1⟩, fun h => absurd (hiff.2 hj) h⟩
    rw [h0, h1, min_eq_left (le_of_lt (hiff.2 hj))]
  · have h0 : new_minA x A i 0 = A i := by simp [new_minA, hj]
    have h1 : new_minA x A i 1 = x.k + 1 := by simp [new_minA, hj]
    refine ⟨?_, fun h => absurd (hiff.1 h) hj, fun _ => ⟨h0, h1⟩⟩
    rw [h0, h1, min_eq_right (le_of_not_lt (fun h => hj (hiff.1 h)))]

/-- Claim C14 (minA update).  For every live item `x` with `k + 1 > 0`
and every `minA[i][1] > 0`, `branch` returns, and in every cell of the
list it returns, for each index `i`, the fraction
`minA'[i][0] / minA'[i][1]` is, as an exact rational, the smaller of the
parent's `minA[i][0] / minA[i][1]` and `A'[i] / (k + 1)`; the pair of the
parent is kept when its fraction is strictly smaller, and otherwise the
pair `(A'[i], k + 1)` is stored. -/
theorem branch_minA_update (s : State) (arg : Ptr) (x : proj_space) (hheap : heap_ok s)
    (hx : s.items arg = some x) (hk : 0 < x.k + 1) (hden : ∀ i, 0 < x.minA i 1) :
    ∃ ends s2 cs, branch arg s = .ok (ends, s2) ∧ backlog s2.items ends.first cs ∧
      cs.length = (branch_children x).length ∧
      ∀ c ∈ cs, ∃ r, s2.items c = some r ∧ ∀ i : Fin 5,
        ((r.minA i 0 : ℚ) / (r.minA i 1 : ℚ) =
          min ((x.minA i 0 : ℚ) / (x.minA i 1 : ℚ)) ((r.A i : ℚ) / ((x.k + 1 : Int) : ℚ))) ∧
        ((x.minA i 0 : ℚ) / (x.minA i 1 : ℚ) < (r.A i : ℚ) / ((x.k + 1 : Int) : ℚ) →
          r.minA i 0 = x.minA i 0 ∧ r.minA i 1 = x.minA i 1) ∧
        (¬ (x.minA i 0 : ℚ) / (x.minA i 1 : ℚ) < (r.A i : ℚ) / ((x.k + 1 : Int) : ℚ) →
          r.minA i 0 = r.A i ∧ r.minA i 1 = x.k + 1) := by
  obtain ⟨ends, s2, cs, h1, h2, h3, h4⟩ := branch_cells s hheap arg x hx
  refine ⟨ends, s2, cs, h1, h2, h3, ?_⟩
  intro c hc
  obtain ⟨r, S, hr, _, _, hA, hm⟩ := h4 c hc
  refine ⟨r, hr, ?_⟩
  intro i
  rw [hm, hA]
  exact new_minA_min x (raised x.A S) i hk (hden i)

/-- C14 for the first space, alone in the heap at address 1. -/
theorem branch_minA_update_witness :
    0 < seed.k + 1 ∧ (∀ i, 0 < seed.minA i 1) ∧
    ∃ ends s2 cs, branch 1 (one_item_state seed) = .ok (ends, s2) ∧
      backlog s2.items ends.first cs ∧
      cs.length = (branch_children seed).length ∧
      ∀ c ∈ cs, ∃ r, s2.items c = some r ∧ ∀ i : Fin 5,
        ((r.minA i 0 : ℚ) / (r.minA i 1 : ℚ) =
          min ((seed.minA i 0 : ℚ) / (seed.minA i 1 : ℚ))
            ((r.A i : ℚ) / ((seed.k + 1 : Int) : ℚ))) ∧
        ((seed.minA i 0 : ℚ) / (seed.minA i 1 : ℚ) < (r.A i : ℚ) / ((seed.k + 1 : Int) : ℚ) →
          r.minA i 0 = seed.minA i 0 ∧ r.minA i 1 = seed.minA i 1) ∧
        (¬ (seed.minA i 0 : ℚ) / (seed.minA i 1 : ℚ) <
            (r.A i : ℚ) / ((seed.k + 1 : Int) : ℚ) →
          r.minA i 0 = r.A i ∧ r.minA i 1 = seed.k + 1) :=
  ⟨by decide, by decide,
    branch_minA_update (one_item_state seed) 1 seed (one_item_heap_ok seed) rfl (by decide)
      (by decide)⟩

end ProjGame

namespace ProjGame

/-! ## The locks held during Redistribute -/

theorem held_after_cons (held : List Mutex) (ev : Event) (evs : List Event) :
    held_after held (ev :: evs) = held_after (held_after held [ev]) evs := by
  cases ev <;> rfl

theorem held_after_append (a b : List Event) :
    ∀ held, held_after held (a ++ b) = held_after (held_after held a) b := by
  induction a with
  | nil => intro held; rfl
  | cons ev r ih =>
    intro held
    rw [List.cons_append, held_after_cons, ih, ← held_after_cons]

theorem calls_with_held_append (a b : List Event) :
    ∀ held, calls_with_held held (a ++ b) =
      calls_with_held held a ++ calls_with_held (held_after held a) b := by
  induction a with
  | nil => intro held; rfl
  | cons ev r ih =>
    intro held
    rw [List.cons_append, calls_with_held, ih, calls_with_held, List.cons_append,
      ← held_after_cons]

theorem held_after_adds (held : List Mutex) (ps : List Ptr) :
    held_after held (ps.map Event.workq_add) = held := by
  induction ps with
  | nil => rfl
  | cons p r ih => exact ih

theorem calls_with_held_adds (held : List Mutex) (ps : List Ptr) :
    calls_with_held held (ps.map Event.workq_add) = ps.map (fun p => (held, Event.workq_add p)) := by
  induction ps with
  | nil => rfl
  | cons p r ih =>
    simp only [List.map_cons, calls_with_held, List.cons.injEq, true_and]
    exact ih

/-- The calls of Redistribute for one engine, with the locks held. -/
theorem calls_redistribute_events (e : Ptr) (b : List Ptr) :
    calls_with_held [.engine_list_mutex] (redistribute_events e b) =
        ([Mutex.engine_list_mutex], Event.lock (.my_list_mutex e)) ::
          b.tail.map (fun p =>
            ([Mutex.my_list_mutex e, Mutex.engine_list_mutex], Event.workq_add p)) ++
          [([Mutex.my_list_mutex e, Mutex.engine_list_mutex], Event.unlock (.my_list_mutex e))] ∧
      held_after [.engine_list_mutex] (redistribute_events e b) = [.engine_list_mutex] := by
  have h1 : calls_with_held [.engine_list_mutex]
      (Event.lock (.my_list_mutex e) :: b.tail.map Event.workq_add) =
      ([Mutex.engine_list_mutex], Event.lock (.my_list_mutex e)) ::
        b.tail.map (fun p =>
          ([Mutex.my_list_mutex e, Mutex.engine_list_mutex], Event.workq_add p)) := by
    show ([Mutex.engine_list_mutex], Event.lock (.my_list_mutex e)) ::
      calls_with_held [.my_list_mutex e, .engine_list_mutex] (b.tail.map Event.workq_add) = _
    rw [calls_with_held_adds]
  have h2 : held_after [.engine_list_mutex]
      (Event.lock (.my_list_mutex e) :: b.tail.map Event.workq_add) =
      [.my_list_mutex e, .engine_list_mutex] := by
    show held_after [.my_list_mutex e, .engine_list_mutex] (b.tail.map Event.workq_add) = _
    exact held_after_adds _ _
  unfold redistribute_events
  constructor
  · rw [calls_with_held_append, h1, h2]
    rfl
  · rw [held_after_append, h2]
    simp [held_after]

theorem disciplined_mono {L : List Ptr} {B : Ptr → List Ptr} {c : List Mutex × Event} (e0 : Ptr)
    (h : disciplined L B c) : disciplined (e0 :: L) B c := by
  obtain ⟨h1, h2, h3, h4, h5, h6⟩ := h
  refine ⟨h1, h2, h3, h4, h5, ?_⟩
  intro p hp
  obtain ⟨e, he, k⟩ := h6 p hp
  exact ⟨e, List.mem_cons_of_mem _ he, k⟩

theorem redistribute_calls (B : Ptr → List Ptr) (L : List Ptr) :
    (∀ c ∈ calls_with_held [.engine_list_mutex]
        (L.flatMap fun e => redistribute_events e (B e)), disciplined L B c) ∧
      held_after [.engine_list_mutex] (L.flatMap fun e => redistribute_events e (B e)) =
        [.engine_list_mutex] := by
  induction L with
  | nil => exact ⟨fun c hc => (by cases hc), rfl⟩
  | cons e rest ih =>
    obtain ⟨k1, k2⟩ := calls_redistribute_events e (B e)
    simp only [List.flatMap_cons]
    rw [calls_with_held_append, held_after_append, k2]
    refine ⟨?_, ih.2⟩
    intro c hc
    rcases List.mem_append.1 hc with hc | hc
    · rw [k1] at hc
      simp only [List.mem_cons, List.mem_append, List.mem_map, List.mem_singleton,
        List.not_mem_nil, or_false] at hc
      rcases hc with (rfl | ⟨p, hp, rfl⟩) | rfl
      · refine ⟨by simp, by simp, by simp, by simp [Mutex.is_context], fun _ _ => rfl, ?_⟩
        intro p hp; cases hp
      · refine ⟨by simp, by simp, by simp, by simp [Mutex.is_context], ?_, ?_⟩
        · intro _ h; cases h
        · intro q hq
          cases hq
          exact ⟨e, List.mem_cons_self _ _, hp, rfl⟩
      · refine ⟨by simp, by simp, by simp, by simp [Mutex.is_context], ?_, ?_⟩
        · intro _ h; cases h
        · intro q hq; cases hq
    · exact disciplined_mono e (ih.1 c hc)

/-- Claim C15 (lock discipline of Redistribute).  On a well-formed
registry `L` with well-formed, pairwise disjoint backlogs `B`, when no
`workq_add` fails, Scan and Redistribute return and the calls they make
are: lock of the registry, the calls `mid` of the traversal, unlock of the
registry.  At every call of the traversal the registry lock is held (and
is neither taken nor released), at most one context lock is held, a
context lock is taken only when no context lock is held, and every
`workq_add` is made for an item behind the head of the backlog of an
engine `e` of `L` while the lock of `e` (and the registry lock) is held;
these are all the `workq_add` calls, and no lock is held at the end.  When
a thread registers its context (lines 213-233) it takes its own context
lock and, holding it, the registry lock; it makes no `workq_add` call. -/
theorem redistribute_lock_discipline (ops : WorkqOps) (s : State) (fuel : Nat) (L : List Ptr)
    (B : Ptr → List Ptr)
    (hreg : registry s L)
    (hback : ∀ e ∈ L, ∃ v, s.engines e = some v ∧ backlog s.items v.list_first (B e))
    (hsep : (L.flatMap B).Nodup)
    (hadd : ∀ w p, (ops.workq_add w p).1 = 0)
    (hfuel : L.length + (L.flatMap B).length < fuel) :
    (∃ s2 mid, control_scan ops fuel s = .ok (s.engine_list_head, s2) ∧
      s2.trace = s.trace ++
        (Event.lock .engine_list_mutex :: mid ++ [Event.unlock .engine_list_mutex]) ∧
      (∀ c ∈ calls_with_held [.engine_list_mutex] mid, disciplined L B c) ∧
      held_after [] (Event.lock .engine_list_mutex :: mid ++
        [Event.unlock .engine_list_mutex]) = [] ∧
      mid.filterMap Event.added = L.flatMap (fun e => (B e).tail)) ∧
    (∀ t : Thread, heap_ok s → s.engine_key t.id = NULL → t.mutex_init_status = 0 →
      t.setspecific_status = 0 →
      ∃ s1, engine_lookup t s = .ok (s.brk + 1, s1) ∧
        calls_with_held [] (s1.trace.drop s.trace.length) =
          [([], Event.lock (.my_list_mutex (s.brk + 1))),
            ([.my_list_mutex (s.brk + 1)], Event.lock .engine_list_mutex),
            ([.engine_list_mutex, .my_list_mutex (s.brk + 1)], Event.unlock .engine_list_mutex),
            ([.my_list_mutex (s.brk + 1)], Event.unlock (.my_list_mutex (s.brk + 1)))]) := by
  constructor
  · have hc : chain (next_of (s.emit (.lock .engine_list_mutex)).engines)
        s.engine_list_head L := registry_from_chain hreg
    have hred := redistribute_spec ops hadd B L (s.emit (.lock .engine_list_mutex)) fuel
      s.engine_list_head hc hback hsep hfuel
    obtain ⟨k1, k2⟩ := redistribute_calls B L
    refine ⟨{ s with
        items := unlink_all s.items (L.flatMap B),
        engines := settle_all s.engines L,
        workq := add_all ops s.workq (L.flatMap fun e => (B e).tail),
        trace := s.trace ++ [Event.lock .engine_list_mutex] ++
          (L.flatMap fun e => redistribute_events e (B e)) ++
          [Event.unlock .engine_list_mutex] },
      L.flatMap fun e => redistribute_events e (B e), ?_, ?_, k1, ?_,
      added_redistribute_events B L⟩
    · have hred2 : redistribute ops fuel (s.emit (.lock .engine_list_mutex)).engine_list_head
          (s.emit (.lock .engine_list_mutex)) = _ := hred
      simp only [control_scan, hred2, res_bind_ok, res_pure]
      rfl
    · simp
    · have h1 : held_after [] (Event.lock .engine_list_mutex ::
          L.flatMap fun e => redistribute_events e (B e)) = [.engine_list_mutex] := k2
      rw [held_after_append, h1]
      simp [held_after]
  · intro t hheap hkey hinit hset
    have hfresh : s.engines (s.brk + 1) = none := (hheap _ (Nat.lt_succ_self _)).2
    have hhead : s.engine_list_head = NULL ∨ ∃ v, s.engines s.engine_list_head = some v := by
      cases L with
      | nil => exact Or.inl hreg
      | cons h rest =>
        obtain ⟨h1, _, v, h3, _⟩ := (registry_from_cons_iff _ _ _ _ _).1 hreg
        exact Or.inr ⟨v, by rw [h1]; exact h3⟩
    obtain ⟨s1, e1, _, _, _, _, _, _, _, _, _, _, e12⟩ :=
      engine_lookup_new s t hkey hinit hset hfresh hhead
    refine ⟨s1, e1, ?_⟩
    rw [e12, List.drop_left]
    simp [calls_with_held, held_after]

/-- C15 on a registry of two engines with the backlogs 1, 2, 3 and 4,
and for a third thread that registers its context. -/
theorem redistribute_lock_discipline_witness :
    registry two_engines_state [10, 11] ∧
    (∃ s2 mid, control_scan sample_ops 10 two_engines_state =
        .ok (two_engines_state.engine_list_head, s2) ∧
      s2.trace = two_engines_state.trace ++
        (Event.lock .engine_list_mutex :: mid ++ [Event.unlock .engine_list_mutex]) ∧
      (∀ c ∈ calls_with_held [.engine_list_mutex] mid,
        disciplined [10, 11] two_engines_backlog c) ∧
      held_after [] (Event.lock .engine_list_mutex :: mid ++
        [Event.unlock .engine_list_mutex]) = [] ∧
      mid.filterMap Event.added = [10, 11].flatMap (fun e => (two_engines_backlog e).tail)) ∧
    (∃ s1, engine_lookup new_thread two_engines_state = .ok (two_engines_state.brk + 1, s1) ∧
      calls_with_held [] (s1.trace.drop two_engines_state.trace.length) =
        [([], Event.lock (.my_list_mutex (two_engines_state.brk + 1))),
          ([.my_list_mutex (two_engines_state.brk + 1)], Event.lock .engine_list_mutex),
          ([.engine_list_mutex, .my_list_mutex (two_engines_state.brk + 1)],
            Event.unlock .engine_list_mutex),
          ([.my_list_mutex (two_engines_state.brk + 1)],
            Event.unlock (.my_list_mutex (two_engines_state.brk + 1)))]) :=
  ⟨by decide,
    (redistribute_lock_discipline sample_ops two_engines_state 10 [10, 11] two_engines_backlog
      (by decide) two_engines_backlogs (by decide) (fun _ _ => rfl) (by decide)).1,
    (redistribute_lock_discipline sample_ops two_engines_state 10 [10, 11] two_engines_backlog
      (by decide) two_engines_backlogs (by decide) (fun _ _ => rfl) (by decide)).2 new_thread
      two_engines_heap_ok rfl rfl rfl⟩

end ProjGame

namespace ProjGame

/-! ## The report of a new best -/

theorem key_injective (a b : proj_space) (h : a.key = b.key) : a = b := by
  simp only [proj_space.key, proj_space.longs, finRange5, finRange2, List.map_cons, List.map_nil,
    List.flatMap_cons, List.flatMap_nil, List.cons_append, List.nil_append, List.append_nil,
    Prod.mk.injEq, List.cons.injEq, and_true] at h
  obtain ⟨h1, h2, a0, a1, a2, a3, a4, m00, m01, m10, m11, m20, m21, m30, m31, m40, m41⟩ := h
  cases a with
  | mk l k A M =>
    cases b with
    | mk l2 k2 A2 M2 =>
      simp only [proj_space.mk.injEq]
      refine ⟨h1, h2, ?_, ?_⟩
      · funext i
        fin_cases i
        · exact a0
        · exact a1
        · exact a2
        · exact a3
        · exact a4
      · funext i j
        fin_cases i <;> fin_cases j
        · exact m00
        · exact m01
        · exact m10
        · exact m11
        · exact m20
        · exact m21
        · exact m30
        · exact m31
        · exact m40
        · exact m41

theorem trail_reachable (root : proj_space) :
    ∀ (trail : List (Int × proj_space)) (x : proj_space), trail_ok x trail = true →
      reachable branch_children root x →
      reachable branch_children root ((trail.getLast?.map Prod.snd).getD x) := by
  intro trail
  induction trail with
  | nil => intro x _ hx; exact hx
  | cons p rest ih =>
    intro x h hx
    obtain ⟨s, y⟩ := p
    simp only [trail_ok, Bool.and_eq_true, decide_eq_true_eq] at h
    obtain ⟨⟨hs, hc⟩, hrest⟩ := h
    have hchild : child x s = some y := by
      cases hcs : child x s with
      | none => rw [hcs] at hc; cases hc
      | some c =>
        rw [hcs] at hc
        simp only [Option.map_some', Option.some.injEq] at hc
        rw [key_injective c y hc]
    have hy : reachable branch_children root y :=
      reachable.child hx (List.mem_filterMap.2 ⟨s, hs, hchild⟩)
    have := ih y hrest hy
    cases rest with
    | nil => exact hy
    | cons q r => simpa [List.getLast?_cons_cons] using this

set_option maxRecDepth 100000 in
theorem reached_terminal_trail_ok : trail_ok seed reached_terminal_trail = true := by
  decide!

set_option maxRecDepth 100000 in
theorem reached_terminal_no_children : branch_children reached_terminal = [] := by
  decide!

theorem reached_terminal_heap_ok : heap_ok reached_terminal_state :=
  one_item_heap_ok reached_terminal

/-- Claim C16 against the code.  The item `reached_terminal` belongs to the
expansion tree of the first space and has no children.  When `branch`
meets it while the best is 2, it records the new best 11 and reports the
depth 11, the weights (2, 2, 3, 3, 3) and the fractions 1/7, 1/6, 2/7,
2/9, 2/8: the third fraction has the numerator `minA[2][0] = 2` of the
item and the denominator `minA[0][1] = 7`, whereas the item has
`minA[2][1] = 10`. -/
theorem report_third_denominator :
    reachable branch_children seed reached_terminal ∧
    branch_children reached_terminal = [] ∧
    (∃ ends s2, branch 1 reached_terminal_state = .ok (ends, s2) ∧
      s2.max_k = 11 ∧
      s2.trace = [Event.lock .max_k_mutex,
        Event.new_max 11 [2, 2, 3, 3, 3] [(1, 7), (1, 6), (2, 7), (2, 9), (2, 8)],
        Event.unlock .max_k_mutex]) ∧
    (reached_terminal.minA 2 0, reached_terminal.minA 2 1) = (2, 10) ∧
    reached_terminal.minA 0 1 = 7 := by
  refine ⟨?_, reached_terminal_no_children, ?_, rfl, rfl⟩
  · exact trail_reachable seed reached_terminal_trail seed reached_terminal_trail_ok reachable.root
  · obtain ⟨ends, s2, cs, h1, _, _, _, _, _, _, _, h9, h10, _⟩ :=
      branch_spec reached_terminal_state reached_terminal_heap_ok 1 reached_terminal rfl
    refine ⟨ends, s2, h1, ?_, ?_⟩
    · rw [h9, if_pos reached_terminal_no_children]; rfl
    · rw [h10, if_pos reached_terminal_no_children]; rfl

end ProjGame

namespace ProjGame

/-! ## The sum of the weights -/

/-- The state in which `control_init` calls `workq_add`: the first space
has been built at the new address. -/
theorem control_init_run (ops : WorkqOps) (s : State)
    (hadd : (ops.workq_add s.workq (s.brk + 1)).1 = 0) :
    ∃ s1, control_init ops s = .ok (s.engine_list_head, s1) ∧
      s1.items (s.brk + 1) = some seed ∧
      s1.trace = s.trace ++ [Event.workq_add (s.brk + 1), Event.sleep 1,
        Event.lock .engine_list_mutex, Event.unlock .engine_list_mutex] ∧
      (∀ q, q ≠ s.brk + 1 → s1.items q = s.items q) ∧ s1.engines = s.engines ∧
      s1.brk = s.brk + 1 := by
  refine ⟨{ s with
      items := upd s.items (s.brk + 1) (some seed),
      brk := s.brk + 1,
      max_k := 2,
      workq := (ops.workq_add s.workq (s.brk + 1)).2,
      trace := s.trace ++ [Event.workq_add (s.brk + 1), Event.sleep 1,
        Event.lock .engine_list_mutex, Event.unlock .engine_list_mutex] }, ?_, ?_, rfl, ?_, rfl,
    rfl⟩
  · have hi : upd (upd (upd (upd s.items (s.brk + 1) (some junk_item)) (s.brk + 1)
        (some { junk_item with link := NULL })) (s.brk + 1)
        (some { junk_item with link := NULL, A := seed.A, minA := seed.minA })) (s.brk + 1)
        (some { junk_item with link := NULL, A := seed.A, minA := seed.minA, k := 2 }) =
        upd s.items (s.brk + 1) (some seed) := by
      funext q
      by_cases hq : q = s.brk + 1
      · subst hq
        simp only [upd_same]
        rfl
      · simp only [upd_other _ _ _ _ hq]
    simp only [control_init, State.malloc_item, State.set_item, upd_same, res_bind_ok,
      State.workq_add, State.emit, hadd, ne_eq, not_true_eq_false, if_false, res_pure, hi,
      List.append_assoc, List.singleton_append]
    rfl
  · show upd _ (s.brk + 1) _ (s.brk + 1) = some seed
    rw [upd_same]
  · intro q hq
    show upd _ _ _ q = _
    rw [upd_other _ _ _ _ hq]

theorem admissible_child_sum (x : proj_space) (S : Finset (Fin 5)) (h : admissible x S) :
    (x.k + 1) + 2 ≤ weight_sum (raised x.A S) ∧ weight_sum (raised x.A S) ≤ (x.k + 1) + 3 := by
  obtain ⟨_, h2, h3, _⟩ := h
  rw [raised_sum]
  constructor <;> omega

theorem branch_children_sum (x y : proj_space) (h : y ∈ branch_children x) :
    y.k + 2 ≤ weight_sum y.A ∧ weight_sum y.A ≤ y.k + 3 := by
  obtain ⟨S, hS, rfl⟩ := mem_branch_children h
  exact admissible_child_sum x S hS

/-- Claim C17 (weight-sum invariant).  For every live item `x` in a
well-formed heap, `branch` returns and every cell of the list it returns
holds a child `(k', A')` with `k' + 2 <= A'[0] + ... + A'[4] <= k' + 3`.
The first space that `control_thread_routine` builds and hands to
`workq_add` (`k = 2`, every `A[i] = 1`) satisfies the same bounds.  Hence
every item of the expansion tree of the first space satisfies them, and
for each of them `dmin = k + 3 - h` is 0 or 1 and `dmax = k + 4 - h` is 1
or 2. -/
theorem weight_sum_invariant (s : State) (arg : Ptr) (x : proj_space) (hheap : heap_ok s)
    (hx : s.items arg = some x) :
    (∃ ends s2 cs, branch arg s = .ok (ends, s2) ∧ backlog s2.items ends.first cs ∧
      cs.length = (branch_children x).length ∧
      ∀ c ∈ cs, ∃ r, s2.items c = some r ∧ r.k = x.k + 1 ∧
        r.k + 2 ≤ weight_sum r.A ∧ weight_sum r.A ≤ r.k + 3) ∧
    (∀ (ops : WorkqOps) (s0 : State), (ops.workq_add s0.workq (s0.brk + 1)).1 = 0 →
      ∃ s1, control_init ops s0 = .ok (s0.engine_list_head, s1) ∧
        s1.items (s0.brk + 1) = some seed) ∧
    (seed.k = 2 ∧ (∀ i, seed.A i = 1) ∧
      seed.k + 2 ≤ weight_sum seed.A ∧ weight_sum seed.A ≤ seed.k + 3) ∧
    (∀ y, reachable branch_children seed y →
      y.k + 2 ≤ weight_sum y.A ∧ weight_sum y.A ≤ y.k + 3 ∧
      (y.k + 3 - weight_sum y.A = 0 ∨ y.k + 3 - weight_sum y.A = 1) ∧
      (y.k + 4 - weight_sum y.A = 1 ∨ y.k + 4 - weight_sum y.A = 2)) := by
  refine ⟨?_, ?_, ⟨rfl, fun _ => rfl, by decide, by decide⟩, ?_⟩
  · obtain ⟨ends, s2, cs, h1, h2, h3, h4⟩ := branch_cells s hheap arg x hx
    refine ⟨ends, s2, cs, h1, h2, h3, ?_⟩
    intro c hc
    obtain ⟨r, S, hr, hS, hk, hA, _⟩ := h4 c hc
    refine ⟨r, hr, hk, ?_⟩
    rw [hk, hA]
    exact admissible_child_sum x S hS
  · intro ops s0 hadd
    obtain ⟨s1, h1, h2, _⟩ := control_init_run ops s0 hadd
    exact ⟨s1, h1, h2⟩
  · intro y hy
    have hb : y.k + 2 ≤ weight_sum y.A ∧ weight_sum y.A ≤ y.k + 3 := by
      cases hy with
      | root => exact ⟨by decide, by decide⟩
      | child _ hc => exact branch_children_sum _ _ hc
    obtain ⟨h1, h2⟩ := hb
    refine ⟨h1, h2, ?_, ?_⟩ <;> omega

/-- C17 for the children of the first space, alone in the heap at
address 1, for the first space built in the initial state, and for the
first space as an item of its own expansion tree. -/
theorem weight_sum_invariant_witness :
    (∃ ends s2 cs, branch 1 (one_item_state seed) = .ok (ends, s2) ∧
      backlog s2.items ends.first cs ∧
      cs.length = (branch_children seed).length ∧
      ∀ c ∈ cs, ∃ r, s2.items c = some r ∧ r.k = seed.k + 1 ∧
        r.k + 2 ≤ weight_sum r.A ∧ weight_sum r.A ≤ r.k + 3) ∧
    (∃ s1, control_init sample_ops initial_state = .ok (initial_state.engine_list_head, s1) ∧
      s1.items (initial_state.brk + 1) = some seed) ∧
    (seed.k = 2 ∧ (∀ i, seed.A i = 1) ∧
      seed.k + 2 ≤ weight_sum seed.A ∧ weight_sum seed.A ≤ seed.k + 3) ∧
    (seed.k + 2 ≤ weight_sum seed.A ∧ weight_sum seed.A ≤ seed.k + 3 ∧
      (seed.k + 3 - weight_sum seed.A = 0 ∨ seed.k + 3 - weight_sum seed.A = 1) ∧
      (seed.k + 4 - weight_sum seed.A = 1 ∨ seed.k + 4 - weight_sum seed.A = 2)) :=
  ⟨(weight_sum_invariant (one_item_state seed) 1 seed (one_item_heap_ok seed) rfl).1,
    (weight_sum_invariant (one_item_state seed) 1 seed (one_item_heap_ok seed) rfl).2.1
      sample_ops initial_state rfl,
    (weight_sum_invariant (one_item_state seed) 1 seed (one_item_heap_ok seed) rfl).2.2.1,
    (weight_sum_invariant (one_item_state seed) 1 seed (one_item_heap_ok seed) rfl).2.2.2
      seed reachable.root⟩

end ProjGame

namespace ProjGame

/-! ## The backlog of a context that has just been registered -/

/-- Claim C18 against the code.  A third thread enters `engine_routine`
in a state with two registered engines; `malloc` gives it an object whose
members hold the value 5.  After lines 206-234 the new context 12 is the
head of the well-formed registry 12, 10, 11 and no lock is held, but its
`list_first` is still the value 5 left by `malloc`: it is not `NULL` and
no list of live items starts there.  A Scan and Redistribute of the
control thread at this point dereferences it and faults. -/
theorem registered_backlog_unset :
    engine_lookup new_thread two_engines_state = .ok (12, registered_state) ∧
    registry registered_state [12, 10, 11] ∧
    held_after [] registered_state.trace = [] ∧
    (∃ v, registered_state.engines 12 = some v ∧ v.list_first = new_thread.junk.list_first ∧
      v.list_first ≠ NULL ∧ ¬ ∃ L, backlog registered_state.items v.list_first L) ∧
    control_scan sample_ops 20 registered_state = .error .fault := by
  refine ⟨rfl, by decide, by decide, ⟨⟨NULL, 10, 3, 5, 5⟩, rfl, rfl, by decide, ?_⟩, rfl⟩
  rintro ⟨L, h⟩
  cases L with
  | nil => exact absurd h (by decide)
  | cons x rest =>
    obtain ⟨h1, _, r, h3, _⟩ := (backlog_cons_iff _ _ _ _).1 h
    rw [← h1] at h3
    have h5 : registered_state.items 5 = none := rfl
    rw [show registered_state.items
      (⟨NULL, 10, 3, 5, 5⟩ : engine_t).list_first = registered_state.items 5 from rfl, h5] at h3
    cases h3

end ProjGame

namespace ProjGame

/-! ## The state at the calls of `workq_add` -/

theorem control_init_with_real (ops : WorkqOps) (s : State) :
    control_init_with (real_add ops) junk_item s = control_init ops s := rfl

theorem detach_loop_with_real (ops : WorkqOps) (ce : Ptr) :
    ∀ (fuel : Nat) (s : State), detach_loop_with (real_add ops) ce fuel s = detach_loop ops ce fuel s := by
  intro fuel
  induction fuel with
  | zero => intro s; rfl
  | succ fuel ih =>
    intro s
    simp only [detach_loop_with, detach_loop, real_add, res_bind_ok, ih]

theorem redistribute_with_real (ops : WorkqOps) :
    ∀ (fuel : Nat) (ce : Ptr) (s : State),
      redistribute_with (real_add ops) fuel ce s = redistribute ops fuel ce s := by
  intro fuel
  induction fuel with
  | zero => intro ce s; rfl
  | succ fuel ih =>
    intro ce s
    simp only [redistribute_with, redistribute, detach_loop_with_real, ih]

theorem control_loop_with_real (ops : WorkqOps) :
    ∀ (fuel : Nat) (c : Ptr × State),
      control_loop_with (real_add ops) ops fuel c = control_loop ops fuel c := by
  intro fuel
  induction fuel with
  | zero => intro c; rfl
  | succ fuel ih =>
    intro c
    simp only [control_loop_with, control_loop, control_step, control_iteration_with,
      control_iteration, control_scan_with, control_scan, redistribute_with_real]
    by_cases h : c.1 = NULL
    · simp [h]
    · simp only [ne_eq, h, not_false_eq_true, if_true]
      cases hr : redistribute ops fuel (c.2.emit (.lock .engine_list_mutex)).engine_list_head
          (c.2.emit (.lock .engine_list_mutex)) with
      | error e => simp [hr, Functor.map, Except.map]
      | ok s1 =>
        simp only [hr, res_bind_ok, res_pure]
        cases hp : control_persist ops (s1.emit (.unlock .engine_list_mutex)) with
        | error e => simp [hp, Functor.map, Except.map]
        | ok s2 => simp [hp, Functor.map, Except.map, ih]

theorem control_thread_routine_with_real (ops : WorkqOps) (fuel : Nat) (s : State) :
    control_thread_routine_with (real_add ops) junk_item ops fuel s =
      control_thread_routine ops fuel s := by
  simp only [control_thread_routine_with, control_thread_routine, control_init_with_real,
    control_loop_with_real]

theorem set_item_link_null {s s2 : State} {p : Ptr}
    (h : s.set_item p (fun t => { t with link := NULL }) = .ok s2) :
    ∃ r, s2.items p = some r ∧ r.link = NULL := by
  unfold State.set_item at h
  cases hp : s.items p with
  | none => rw [hp] at h; cases h
  | some v =>
    rw [hp] at h
    cases h
    exact ⟨{ v with link := NULL }, by simp, rfl⟩

theorem control_init_with_agree (add1 add2 : State → Ptr → Res (Int × State))
    (h : agree_on_unlinked add1 add2) (junk : proj_space) (s : State) :
    control_init_with add1 junk s = control_init_with add2 junk s := by
  have hi : ({ s with
      items := upd (upd (upd (upd s.items (s.brk + 1) (some junk)) (s.brk + 1)
        (some { junk with link := NULL })) (s.brk + 1)
        (some { junk with link := NULL, A := seed.A, minA := seed.minA })) (s.brk + 1)
        (some { junk with link := NULL, A := seed.A, minA := seed.minA, k := 2 }),
      brk := s.brk + 1, max_k := 2 } : State).items (s.brk + 1) =
      some { junk with link := NULL, A := seed.A, minA := seed.minA, k := 2 } := by
    simp
  simp only [control_init_with, State.malloc_item, State.set_item, upd_same, res_bind_ok]
  rw [h _ _ _ hi rfl]

theorem detach_loop_with_agree (add1 add2 : State → Ptr → Res (Int × State))
    (h : agree_on_unlinked add1 add2) (ce : Ptr) :
    ∀ (fuel : Nat) (s : State), detach_loop_with add1 ce fuel s = detach_loop_with add2 ce fuel s := by
  intro fuel
  induction fuel with
  | zero => intro s; rfl
  | succ fuel ih =>
    intro s
    simp only [detach_loop_with]
    cases he : s.engine ce with
    | error e => rfl
    | ok e =>
      simp only [res_bind_ok]
      cases hf : s.item e.list_first with
      | error e => rfl
      | ok first =>
        simp only [res_bind_ok]
        by_cases hl : first.link ≠ NULL
        · rw [if_pos hl, if_pos hl]
          cases ht : s.item first.link with
          | error e => rfl
          | ok t =>
            simp only [res_bind_ok]
            cases ha : s.set_item e.list_first (fun f => { f with link := t.link }) with
            | error e => rfl
            | ok sa =>
              simp only [res_bind_ok]
              cases hb : sa.set_item first.link (fun t => { t with link := NULL }) with
              | error e => rfl
              | ok sb =>
                simp only [res_bind_ok]
                obtain ⟨r, hr, hn⟩ := set_item_link_null hb
                rw [h sb first.link r hr hn]
                cases add2 sb first.link with
                | error e => rfl
                | ok c =>
                  simp only [res_bind_ok, ih]
        · rw [if_neg hl, if_neg hl]

theorem redistribute_with_agree (add1 add2 : State → Ptr → Res (Int × State))
    (h : agree_on_unlinked add1 add2) :
    ∀ (fuel : Nat) (ce : Ptr) (s : State),
      redistribute_with add1 fuel ce s = redistribute_with add2 fuel ce s := by
  intro fuel
  induction fuel with
  | zero => intro ce s; rfl
  | succ fuel ih =>
    intro ce s
    simp only [redistribute_with, detach_loop_with_agree add1 add2 h, ih]

theorem control_loop_with_agree (add1 add2 : State → Ptr → Res (Int × State))
    (h : agree_on_unlinked add1 add2) (ops : WorkqOps) :
    ∀ (fuel : Nat) (c : Ptr × State),
      control_loop_with add1 ops fuel c = control_loop_with add2 ops fuel c := by
  intro fuel
  induction fuel with
  | zero => intro c; rfl
  | succ fuel ih =>
    intro c
    simp only [control_loop_with, control_iteration_with, control_scan_with,
      redistribute_with_agree add1 add2 h, ih]

theorem control_thread_routine_with_agree (add1 add2 : State → Ptr → Res (Int × State))
    (h : agree_on_unlinked add1 add2) (junk : proj_space) (ops : WorkqOps) (fuel : Nat)
    (s : State) :
    control_thread_routine_with add1 junk ops fuel s =
      control_thread_routine_with add2 junk ops fuel s := by
  simp only [control_thread_routine_with, control_init_with_agree add1 add2 h,
    control_loop_with_agree add1 add2 h]

theorem asserting_add_agrees (ops : WorkqOps) :
    agree_on_unlinked (real_add ops) (asserting_add ops) := by
  intro s data r hr hl
  simp [real_add, asserting_add, hr, hl]

end ProjGame

namespace ProjGame

/-! ## Items handed to the work queue -/

/-- Save followed by load at the same position gives back the record. -/
theorem save_load_item (s : State) (file : FILE) (arg : Ptr) (r : proj_space)
    (hr : s.items arg = some r) (hin : r.in_range) :
    ∃ file1 s1 file2 s2, proj_space_save arg file s = .ok (file1, s1) ∧
      proj_space_load { file1 with pos := file.pos } s1 = .ok (s.brk + 1, file2, s2) ∧
      s2.items (s.brk + 1) = some r := by
  have hlen := bytes_length r
  have hw := fwrite_window r.bytes file
  have hfit : file.pos + sizeof_proj_space ≤ (fwrite_unlocked r.bytes file).2.data.length := by
    simp [fwrite_unlocked, List.length_take, hlen]; omega
  refine ⟨(fwrite_unlocked r.bytes file).2, { s with items := upd s.items arg none },
    (fwrite_unlocked r.bytes file).2,
    { s with items := upd (upd (upd s.items arg none) (s.brk + 1) (some junk_item)) (s.brk + 1)
                (some r), brk := s.brk + 1 }, ?_, ?_, by simp⟩
  · simp [proj_space_save, item_of_some hr, free_item_of_some hr]
  · simp only [proj_space_load, State.malloc_item, fread_unlocked, hfit, if_true]
    rw [hlen] at hw
    have hj : List.drop r.bytes.length junk_item.bytes = [] := by
      apply List.drop_eq_nil_of_le; rw [bytes_length, bytes_length]
    simp only [State.set_item, upd_same, hw, hj, List.append_nil, of_bytes_bytes r hin]
    simp [fwrite_unlocked, hlen]

/-- The effect of Scan and Redistribute, in closed form. -/
theorem control_scan_spec (ops : WorkqOps) (hadd : ∀ w p, (ops.workq_add w p).1 = 0)
    (B : Ptr → List Ptr) (L : List Ptr) (s : State) (fuel : Nat) (hreg : registry s L)
    (hback : ∀ e ∈ L, ∃ v, s.engines e = some v ∧ backlog s.items v.list_first (B e))
    (hsep : (L.flatMap B).Nodup) (hfuel : L.length + (L.flatMap B).length < fuel) :
    control_scan ops fuel s = .ok (s.engine_list_head,
      { s with
        items := unlink_all s.items (L.flatMap B),
        engines := settle_all s.engines L,
        workq := add_all ops s.workq (L.flatMap fun e => (B e).tail),
        trace := s.trace ++ [Event.lock .engine_list_mutex] ++
          (L.flatMap fun e => redistribute_events e (B e)) ++
          [Event.unlock .engine_list_mutex] }) := by
  have hc : chain (next_of (s.emit (.lock .engine_list_mutex)).engines)
      s.engine_list_head L := registry_from_chain hreg
  have hred : redistribute ops fuel (s.emit (.lock .engine_list_mutex)).engine_list_head
      (s.emit (.lock .engine_list_mutex)) = _ :=
    redistribute_spec ops hadd B L (s.emit (.lock .engine_list_mutex)) fuel
      s.engine_list_head hc hback hsep hfuel
  simp only [control_scan, hred, res_bind_ok, res_pure]
  rfl

/-- Claim C19 (queued items have no successor).  The control thread is
the only caller of `workq_add` (lines 277 and 301).  Written over an
abstract `workq_add` that receives the state at the moment of the call, it
behaves the same for any two such functions that agree on the calls in
which the item handed over is live with `link = NULL`, whatever they do
on other calls and whatever `malloc` left in the new object: so every call
it makes hands over an item with `link = NULL` at the moment of the call.
This holds for the seeding, for Redistribute and for the whole routine;
in particular the routine behaves the same when `workq_add` refuses every
other item.  After a complete Scan and Redistribute on a well-formed
registry, every item that was handed to `workq_add` is live with
`link = NULL`.  An item with `link = NULL` that arrives at
`engine_routine` becomes a backlog of exactly one node, and an item with
`link = NULL` that is saved to the spill file and loaded again has
`link = NULL`. -/
theorem queued_items_unlinked (ops : WorkqOps) (s : State) (fuel : Nat) (L : List Ptr)
    (B : Ptr → List Ptr)
    (hreg : registry s L)
    (hback : ∀ e ∈ L, ∃ v, s.engines e = some v ∧ backlog s.items v.list_first (B e))
    (hsep : (L.flatMap B).Nodup)
    (hadd : ∀ w p, (ops.workq_add w p).1 = 0)
    (hfuel : L.length + (L.flatMap B).length < fuel) :
    ((∀ s0, control_init_with (real_add ops) junk_item s0 = control_init ops s0) ∧
      (∀ n ce s0, redistribute_with (real_add ops) n ce s0 = redistribute ops n ce s0) ∧
      (∀ n s0, control_thread_routine_with (real_add ops) junk_item ops n s0 =
        control_thread_routine ops n s0)) ∧
    (∀ add1 add2 : State → Ptr → Res (Int × State), agree_on_unlinked add1 add2 →
      (∀ junk s0, control_init_with add1 junk s0 = control_init_with add2 junk s0) ∧
      (∀ n ce s0, redistribute_with add1 n ce s0 = redistribute_with add2 n ce s0) ∧
      (∀ junk n s0, control_thread_routine_with add1 junk ops n s0 =
        control_thread_routine_with add2 junk ops n s0)) ∧
    (∀ n s0, control_thread_routine_with (asserting_add ops) junk_item ops n s0 =
      control_thread_routine ops n s0) ∧
    (∃ s2, control_scan ops fuel s = .ok (s.engine_list_head, s2) ∧
      (s2.trace.drop s.trace.length).filterMap Event.added = L.flatMap (fun e => (B e).tail) ∧
      ∀ p ∈ L.flatMap (fun e => (B e).tail), ∃ r, s2.items p = some r ∧ r.link = NULL) ∧
    (∀ (s1 : State) (e arg : Ptr) (v : engine_t) (x : proj_space), heap_ok s1 →
      s1.engines e = some v → arg ≠ NULL → s1.items arg = some x → x.link = NULL →
      ∃ s2, engine_start e arg s1 = .ok (arg, s2) ∧ worker_inv s2 e [arg] [x]) ∧
    (∀ (s1 : State) (file : FILE) (arg : Ptr) (r : proj_space), s1.items arg = some r →
      r.in_range → r.link = NULL →
      ∃ file1 sa file2 sb r2, proj_space_save arg file s1 = .ok (file1, sa) ∧
        proj_space_load { file1 with pos := file.pos } sa = .ok (s1.brk + 1, file2, sb) ∧
        sb.items (s1.brk + 1) = some r2 ∧ r2.link = NULL) := by
  refine ⟨⟨control_init_with_real ops, redistribute_with_real ops,
    control_thread_routine_with_real ops⟩, ?_, ?_, ?_, ?_, ?_⟩
  · intro add1 add2 h
    exact ⟨control_init_with_agree add1 add2 h, redistribute_with_agree add1 add2 h,
      fun junk n s0 => control_thread_routine_with_agree add1 add2 h junk ops n s0⟩
  · intro n s0
    rw [← control_thread_routine_with_real,
      control_thread_routine_with_agree _ _ (asserting_add_agrees ops)]
  · refine ⟨_, control_scan_spec ops hadd B L s fuel hreg hback hsep hfuel, ?_, ?_⟩
    · simp [List.filterMap_append, added_redistribute_events, Event.added]
    · intro p hp
      obtain ⟨e, he, hpe⟩ := List.mem_flatMap.1 hp
      have hpB : p ∈ L.flatMap B := List.mem_flatMap.2 ⟨e, he, List.mem_of_mem_tail hpe⟩
      obtain ⟨v, _, hb⟩ := hback e he
      obtain ⟨r, hr⟩ := backlog_live hb (List.mem_of_mem_tail hpe)
      exact ⟨{ r with link := NULL }, by simp [unlink_all, hpB, hr], rfl⟩
  · intro s1 e arg v x hheap hv harg hx hlink
    obtain ⟨s2, _, h1, h2, _⟩ := engine_start_spec s1 e arg v x hheap hv harg hx hlink
    exact ⟨s2, h1, h2⟩
  · intro s1 file arg r hr hin hlink
    obtain ⟨file1, sa, file2, sb, h1, h2, h3⟩ := save_load_item s1 file arg r hr hin
    exact ⟨file1, sa, file2, sb, r, h1, h2, h3, hlink⟩

/-- C19 on a registry of two engines with the backlogs 1, 2, 3 and 4:
the routine started there behaves the same when `workq_add` refuses every
item that is not live with `link = NULL`; the complete Redistribute; item
4 arriving at engine 11; the first space saved to an empty file and loaded
again. -/
theorem queued_items_unlinked_witness :
    registry two_engines_state [10, 11] ∧
    agree_on_unlinked (real_add sample_ops) (asserting_add sample_ops) ∧
    (control_init_with (real_add sample_ops) junk_item two_engines_state =
        control_init_with (asserting_add sample_ops) junk_item two_engines_state ∧
      redistribute_with (real_add sample_ops) 10 10 two_engines_state =
        redistribute_with (asserting_add sample_ops) 10 10 two_engines_state ∧
      control_thread_routine_with (real_add sample_ops) junk_item sample_ops 10
          two_engines_state =
        control_thread_routine_with (asserting_add sample_ops) junk_item sample_ops 10
          two_engines_state) ∧
    (∃ s2, control_scan sample_ops 10 two_engines_state =
        .ok (two_engines_state.engine_list_head, s2) ∧
      (s2.trace.drop two_engines_state.trace.length).filterMap Event.added =
        [10, 11].flatMap (fun e => (two_engines_backlog e).tail) ∧
      ∀ p ∈ [10, 11].flatMap (fun e => (two_engines_backlog e).tail),
        ∃ r, s2.items p = some r ∧ r.link = NULL) ∧
    (∃ s2, engine_start 11 4 two_engines_state = .ok (4, s2) ∧ worker_inv s2 11 [4] [seed]) ∧
    (∃ file1 sa file2 sb r2, proj_space_save 1 ⟨[], 0⟩ (one_item_state seed) = .ok (file1, sa) ∧
      proj_space_load { file1 with pos := 0 } sa = .ok ((one_item_state seed).brk + 1, file2, sb) ∧
      sb.items ((one_item_state seed).brk + 1) = some r2 ∧ r2.link = NULL) :=
  ⟨by decide, asserting_add_agrees sample_ops,
    ⟨((queued_items_unlinked sample_ops two_engines_state 10 [10, 11] two_engines_backlog
        (by decide) two_engines_backlogs (by decide) (fun _ _ => rfl) (by decide)).2.1
        _ _ (asserting_add_agrees sample_ops)).1 junk_item two_engines_state,
      ((queued_items_unlinked sample_ops two_engines_state 10 [10, 11] two_engines_backlog
        (by decide) two_engines_backlogs (by decide) (fun _ _ => rfl) (by decide)).2.1
        _ _ (asserting_add_agrees sample_ops)).2.1 10 10 two_engines_state,
      ((queued_items_unlinked sample_ops two_engines_state 10 [10, 11] two_engines_backlog
        (by decide) two_engines_backlogs (by decide) (fun _ _ => rfl) (by decide)).2.1
        _ _ (asserting_add_agrees sample_ops)).2.2 junk_item 10 two_engines_state⟩,
    (queued_items_unlinked sample_ops two_engines_state 10 [10, 11] two_engines_backlog
      (by decide) two_engines_backlogs (by decide) (fun _ _ => rfl) (by decide)).2.2.2.1,
    (queued_items_unlinked sample_ops two_engines_state 10 [10, 11] two_engines_backlog
      (by decide) two_engines_backlogs (by decide) (fun _ _ => rfl) (by decide)).2.2.2.2.1
      two_engines_state 11 4 ⟨10, NULL, 2, 4, 4⟩ seed two_engines_heap_ok rfl (by decide) rfl rfl,
    (queued_items_unlinked sample_ops two_engines_state 10 [10, 11] two_engines_backlog
      (by decide) two_engines_backlogs (by decide) (fun _ _ => rfl) (by decide)).2.2.2.2.2
      (one_item_state seed) ⟨[], 0⟩ 1 seed rfl (by decide) rfl⟩

end ProjGame

namespace ProjGame

/-! ## The number of children -/

set_option maxRecDepth 100000 in
theorem size_window_count (d : Int) :
    (all_subsets.filter
      (fun S => decide (d ≤ (S.card : Int) ∧ (S.card : Int) ≤ d + 1))).length ≤ 20 := by
  by_cases h1 : d < -1
  · have : all_subsets.filter
        (fun S => decide (d ≤ (S.card : Int) ∧ (S.card : Int) ≤ d + 1)) = [] := by
      rw [List.filter_eq_nil_iff]
      intro S _
      have : (0 : Int) ≤ (S.card : Int) := Int.natCast_nonneg _
      simp only [decide_eq_true_eq, not_and, not_le]
      intro _
      omega
    rw [this]; simp
  · by_cases h2 : 5 < d
    · have : all_subsets.filter
          (fun S => decide (d ≤ (S.card : Int) ∧ (S.card : Int) ≤ d + 1)) = [] := by
        rw [List.filter_eq_nil_iff]
        intro S _
        have : (S.card : Int) ≤ 5 := by exact_mod_cast card_le_five S
        simp only [decide_eq_true_eq, not_and, not_le]
        intro _
        omega
      rw [this]; simp
    · have h3 : -1 ≤ d := by omega
      have h4 : d ≤ 5 := by omega
      interval_cases d <;> decide

theorem branch_children_length_le (x : proj_space) : (branch_children x).length ≤ 20 := by
  rw [branch_children_eq, List.length_map]
  refine le_trans (List.Sublist.length_le ?_) (size_window_count (x.k + 3 - weight_sum x.A))
  apply List.monotone_filter_right
  intro S hS
  simp only [decide_eq_true_eq] at hS ⊢
  obtain ⟨_, h2, h3, _⟩ := hS
  exact ⟨h2, by omega⟩

set_option maxRecDepth 100000 in
theorem wide_item_children : (branch_children wide_item).length = 20 := by
  rw [branch_children_eq, List.length_map]
  decide

/-- Claim C20 (bounded fan-out).  For every live item `x` in a
well-formed heap, whatever its `k`, `A` and `minA`, `branch` returns a
list of at most 20 cells, because every subset that yields a child has
`dmin` or `dmin + 1` members, where `dmin = k + 3 - h`. -/
theorem branch_fan_out (s : State) (arg : Ptr) (x : proj_space) (hheap : heap_ok s)
    (hx : s.items arg = some x) :
    ∃ ends s2 cs, branch arg s = .ok (ends, s2) ∧ backlog s2.items ends.first cs ∧
      cs.length ≤ 20 ∧
      cs.map (payload_at s2.items) =
        ((all_subsets.filter (fun S => decide (admissible x S))).map (child_for x)).map some ∧
      ∀ S, admissible x S →
        (S.card : Int) = x.k + 3 - weight_sum x.A ∨
          (S.card : Int) = x.k + 3 - weight_sum x.A + 1 := by
  obtain ⟨ends, s2, cs, h1, _, h3, _, h5, _⟩ := branch_spec s hheap arg x hx
  refine ⟨ends, s2, cs, h1, h3, ?_, ?_, ?_⟩
  · have := congrArg List.length h5
    simp only [List.length_map] at this
    rw [this]
    exact branch_children_length_le x
  · rw [← branch_children_eq]; exact h5
  · intro S hS
    obtain ⟨_, h2, h3, _⟩ := hS
    omega

/-- C20 for an item that has 20 children, alone in the heap at
address 1: the bound is attained. -/
theorem branch_fan_out_witness :
    (branch_children wide_item).length = 20 ∧
    ∃ ends s2 cs, branch 1 (one_item_state wide_item) = .ok (ends, s2) ∧
      backlog s2.items ends.first cs ∧ cs.length ≤ 20 ∧
      cs.map (payload_at s2.items) =
        ((all_subsets.filter (fun S => decide (admissible wide_item S))).map
          (child_for wide_item)).map some ∧
      ∀ S, admissible wide_item S →
        (S.card : Int) = wide_item.k + 3 - weight_sum wide_item.A ∨
          (S.card : Int) = wide_item.k + 3 - weight_sum wide_item.A + 1 :=
  ⟨wide_item_children,
    branch_fan_out (one_item_state wide_item) 1 wide_item (one_item_heap_ok wide_item) rfl⟩

end ProjGame

namespace ProjGame

/-! ## Redistribute when `workq_add` may fail -/

theorem try_add_all_append (ops : WorkqOps) (ys : List Ptr) :
    ∀ (xs : List Ptr) (w : workq_t),
      try_add_all ops w (xs ++ ys) = try_add_all ops w xs >>= fun w2 => try_add_all ops w2 ys := by
  intro xs
  induction xs with
  | nil => intro w; rfl
  | cons p r ih =>
    intro w
    simp only [List.cons_append, try_add_all]
    by_cases h : (ops.workq_add w p).1 ≠ 0
    · rw [if_pos h, if_pos h]; rfl
    · rw [if_neg h, if_neg h]; exact ih _

theorem try_add_all_ok (ops : WorkqOps) (hadd : ∀ w p, (ops.workq_add w p).1 = 0) :
    ∀ (xs : List Ptr) (w : workq_t), try_add_all ops w xs = .ok (add_all ops w xs) := by
  intro xs
  induction xs with
  | nil => intro w; rfl
  | cons p r ih =>
    intro w
    simp only [try_add_all, hadd, ne_eq, not_true_eq_false, if_false, ih]
    rfl

theorem try_add_all_eq_ok (ops : WorkqOps) :
    ∀ (xs : List Ptr) (w w2 : workq_t), try_add_all ops w xs = .ok w2 → w2 = add_all ops w xs := by
  intro xs
  induction xs with
  | nil => intro w w2 h; cases h; rfl
  | cons p r ih =>
    intro w w2 h
    simp only [try_add_all] at h
    by_cases hs : (ops.workq_add w p).1 ≠ 0
    · rw [if_pos hs] at h; cases h
    · rw [if_neg hs] at h
      exact ih _ _ h

/-- A failure of `try_add_all` is the abort of the first call of
`workq_add` that returns a status other than 0, all calls before it having
returned 0. -/
theorem try_add_all_error (ops : WorkqOps) :
    ∀ (xs : List Ptr) (w : workq_t) (e : Err), try_add_all ops w xs = .error e →
      ∃ pre p post, xs = pre ++ p :: post ∧ try_add_all ops w pre = .ok (add_all ops w pre) ∧
        (ops.workq_add (add_all ops w pre) p).1 ≠ 0 ∧
        e = .abort (ops.workq_add (add_all ops w pre) p).1 .add_to_work_queue := by
  intro xs
  induction xs with
  | nil => intro w e h; cases h
  | cons p r ih =>
    intro w e h
    simp only [try_add_all] at h
    by_cases hs : (ops.workq_add w p).1 ≠ 0
    · rw [if_pos hs] at h
      cases h
      exact ⟨[], p, r, rfl, rfl, hs, rfl⟩
    · rw [if_neg hs] at h
      obtain ⟨pre, q, post, h1, h2, h3, h4⟩ := ih _ e h
      refine ⟨p :: pre, q, post, by rw [h1]; rfl, ?_, h3, h4⟩
      simp only [try_add_all, if_neg hs]
      exact h2

theorem detach_loop_gen (ops : WorkqOps) (ce : Ptr) (v : engine_t) (x0 : Ptr)
    (hv : v.list_first = x0) :
    ∀ (rest : List Ptr) (s : State) (fuel : Nat), s.engines ce = some v →
      backlog s.items x0 (x0 :: rest) → rest.length < fuel →
      detach_loop ops ce fuel s =
        (try_add_all ops s.workq rest).map (fun w =>
          { s with
            items := unlink_all s.items (x0 :: rest),
            workq := w,
            trace := s.trace ++ rest.map Event.workq_add }) := by
  intro rest
  induction rest with
  | nil =>
    intro s fuel he hb hf
    obtain ⟨_, _, r0, h0, hn⟩ := (backlog_cons_iff _ _ _ _).1 hb
    have hl : r0.link = NULL := hn
    obtain ⟨fuel, rfl⟩ : ∃ f, fuel = f + 1 := ⟨fuel - 1, by omega⟩
    have hi : unlink_all s.items [x0] = s.items := by
      funext q
      by_cases hq : q = x0
      · subst hq
        simp only [unlink_all, List.mem_singleton, if_true, h0, Option.map_some']
        rw [← hl]
      · simp [unlink_all, hq]
    simp only [detach_loop, engine_of_some he, res_bind_ok, hv, item_of_some h0, hl]
    simp [hi, try_add_all, Except.map]
  | cons x1 rest ih =>
    intro s fuel he hb hf
    have hnd : (x0 :: x1 :: rest).Nodup := chain_nodup hb
    obtain ⟨_, _, r0, h0, hb1⟩ := (backlog_cons_iff _ _ _ _).1 hb
    obtain ⟨hl0, hx1, r1, h1, hb2⟩ := (backlog_cons_iff _ _ _ _).1 hb1
    obtain ⟨fuel, rfl⟩ : ∃ f, fuel = f + 1 := ⟨fuel - 1, by omega⟩
    have h01 : x0 ≠ x1 := by
      intro e; subst e; simp at hnd
    have hx1n : x1 ≠ 0 := hx1
    have h1' : upd s.items x0 (some { r0 with link := r1.link }) x1 = some r1 := by
      rw [upd_other _ _ _ _ (Ne.symm h01)]; exact h1
    by_cases hst : (ops.workq_add s.workq x1).1 ≠ 0
    · simp only [detach_loop, engine_of_some he, res_bind_ok, hv, item_of_some h0, hl0,
        item_of_some h1, ne_eq, hx1n, not_false_eq_true, if_true,
        State.set_item, h0, h1', State.workq_add, hst, try_add_all]
      rfl
    · have hst0 : (ops.workq_add s.workq x1).1 = 0 := not_not.1 hst
      simp only [detach_loop, engine_of_some he, res_bind_ok, hv, item_of_some h0, hl0,
        item_of_some h1, ne_eq, hx1n, not_false_eq_true, if_true,
        State.set_item, h0, h1', State.workq_add, hst0, not_true_eq_false, if_false, res_pure,
        try_add_all]
      have hb' : backlog (upd (upd s.items x0 (some { r0 with link := r1.link })) x1
          (some { r1 with link := NULL })) x0 (x0 :: rest) := by
        refine (backlog_cons_iff _ _ _ _).2 ⟨rfl, chain_ne_null hb (List.mem_cons_self _ _),
          { r0 with link := r1.link }, ?_, ?_⟩
        · rw [upd_other _ _ _ _ h01, upd_same]
        · refine backlog_frame ?_ hb2
          intro y hy
          have hy0 : y ≠ x0 := by
            intro e; subst e; simp [hy] at hnd
          have hy1 : y ≠ x1 := by
            intro e; subst e; simp [hy] at hnd
          rw [upd_other _ _ _ _ hy1, upd_other _ _ _ _ hy0]
      have := ih { s with
          items := upd (upd s.items x0 (some { r0 with link := r1.link })) x1
            (some { r1 with link := NULL }),
          workq := (ops.workq_add s.workq x1).2,
          trace := s.trace ++ [Event.workq_add x1] } fuel he hb' (by simpa using hf)
      rw [this]
      have hi : unlink_all (upd (upd s.items x0 (some { r0 with link := r1.link })) x1
          (some { r1 with link := NULL })) (x0 :: rest) = unlink_all s.items (x0 :: x1 :: rest) := by
        funext q
        by_cases hq0 : q = x0
        · subst hq0
          simp [unlink_all, upd_other _ _ _ _ h01, h0]
        · by_cases hq1 : q = x1
          · subst hq1
            have : q ∉ rest := by
              intro hm; simp [hm] at hnd
            simp [unlink_all, hq0, this, h1]
          · simp [unlink_all, hq0, hq1, upd_other _ _ _ _ hq1, upd_other _ _ _ _ hq0]
      cases try_add_all ops (ops.workq_add s.workq x1).2 rest with
      | error e => rfl
      | ok w => simp [hi, Except.map]

theorem detach_phase_gen (ops : WorkqOps) (ce : Ptr) (v : engine_t) (b : List Ptr) (s : State)
    (fuel : Nat) (he : s.engines ce = some v) (hb : backlog s.items v.list_first b)
    (hf : b.length ≤ fuel) :
    (if v.list_first ≠ NULL then detach_loop ops ce fuel s else pure s) =
      (try_add_all ops s.workq b.tail).map (fun w =>
        { s with
          items := unlink_all s.items b,
          workq := w,
          trace := s.trace ++ b.tail.map Event.workq_add }) := by
  cases b with
  | nil =>
    have : v.list_first = NULL := hb
    simp [this, unlink_all_nil, try_add_all, Except.map]
  | cons x0 rest =>
    obtain ⟨h1, h2, _⟩ := (backlog_cons_iff _ _ _ _).1 hb
    rw [h1] at hb
    have h3 : v.list_first ≠ NULL := by rw [h1]; exact h2
    rw [if_pos h3, detach_loop_gen ops ce v x0 h1 rest s fuel he hb (by simpa using hf)]
    rfl

theorem redistribute_gen (ops : WorkqOps) (B : Ptr → List Ptr) :
    ∀ (L : List Ptr) (s : State) (fuel : Nat) (ce : Ptr),
      chain (next_of s.engines) ce L →
      (∀ e ∈ L, ∃ v, s.engines e = some v ∧ backlog s.items v.list_first (B e)) →
      (L.flatMap B).Nodup → L.length + (L.flatMap B).length < fuel →
      redistribute ops fuel ce s =
        (try_add_all ops s.workq (L.flatMap fun e => (B e).tail)).map (fun w =>
          { s with
            items := unlink_all s.items (L.flatMap B),
            engines := settle_all s.engines L,
            workq := w,
            trace := s.trace ++ L.flatMap fun e => redistribute_events e (B e) }) := by
  intro L
  induction L with
  | nil =>
    intro s fuel ce hc _ _ hf
    have : ce = NULL := hc
    obtain ⟨fuel, rfl⟩ : ∃ f, fuel = f + 1 := ⟨fuel - 1, by omega⟩
    simp [redistribute, this, unlink_all_nil, settle_all_nil, try_add_all, Except.map]
  | cons e rest ih =>
    intro s fuel ce hc hB hnd hf
    have hLnd : (e :: rest).Nodup := chain_nodup hc
    obtain ⟨h1, h2, n, h3, h4⟩ := (chain_cons_iff _ _ _ _).1 hc
    subst h1
    obtain ⟨v, he, hb⟩ := hB ce (List.mem_cons_self _ _)
    have hn : v.next = n := by simpa [next_of, he] using h3
    subst hn
    obtain ⟨fuel, rfl⟩ : ∃ f, fuel = f + 1 := ⟨fuel - 1, by omega⟩
    simp only [List.flatMap_cons, List.length_cons, List.length_append] at hf hnd
    have hce : ¬ ce = 0 := h2
    have hph := detach_phase_gen ops ce v (B ce) (s.emit (.lock (.my_list_mutex ce))) fuel
      he hb (by omega)
    simp only [redistribute, hce, if_false, engine_of_some he, res_bind_ok]
    have he1 : (s.emit (.lock (.my_list_mutex ce))).engine ce = .ok v := engine_of_some he
    rw [he1]
    simp only [res_bind_ok]
    have hnd2 := List.nodup_append.1 hnd
    have hw : (s.emit (.lock (.my_list_mutex ce))).workq = s.workq := rfl
    rw [hw] at hph
    simp only [List.flatMap_cons]
    rw [try_add_all_append]
    by_cases hlf : v.list_first ≠ NULL
    all_goals
      first
        | rw [if_pos hlf] at hph ⊢
        | rw [if_neg hlf] at hph ⊢
      rw [hph]
      cases hq : try_add_all ops s.workq (B ce).tail with
      | error e => rfl
      | ok w =>
        simp only [Except.map, res_bind_ok, State.set_engine, State.emit, he, State.engine,
          upd_same]
        rw [ih _ fuel v.next]
        · have hi : settle_all (upd s.engines ce (some { v with list_last := v.list_first })) rest
              = settle_all s.engines (ce :: rest) := by
            funext q
            by_cases hq : q = ce
            · subst hq
              have : q ∉ rest := (List.nodup_cons.1 hLnd).1
              simp [settle_all, this, he]
            · simp [settle_all, hq, upd_other _ _ _ _ hq]
          cases try_add_all ops w (rest.flatMap fun e => (B e).tail) with
          | error e => rfl
          | ok w2 => simp [hi, unlink_all_append, redistribute_events, Except.map]
        · show chain (next_of (upd s.engines ce (some { v with list_last := v.list_first })))
            v.next rest
          rw [next_of_settle _ _ _ he]; exact h4
        · intro e2 he2
          obtain ⟨v2, hv2, hb2⟩ := hB e2 (List.mem_cons_of_mem _ he2)
          have hne : e2 ≠ ce := by
            intro e; subst e; exact (List.nodup_cons.1 hLnd).1 he2
          refine ⟨v2, ?_, ?_⟩
          · show upd s.engines ce _ e2 = some v2
            rw [upd_other _ _ _ _ hne]; exact hv2
          · refine backlog_frame ?_ hb2
            intro y hy
            have : y ∉ B ce := fun hy1 =>
              hnd2.2.2 hy1 (List.mem_flatMap.2 ⟨e2, he2, hy⟩)
            simp [unlink_all, this]
        · exact hnd2.2.1
        · show rest.length + (rest.flatMap B).length < fuel
          omega

/-- Scan and Redistribute on a well-formed registry, whatever `workq_add`
returns. -/
theorem control_scan_gen (ops : WorkqOps) (B : Ptr → List Ptr) (L : List Ptr) (s : State)
    (fuel : Nat) (hreg : registry s L)
    (hback : ∀ e ∈ L, ∃ v, s.engines e = some v ∧ backlog s.items v.list_first (B e))
    (hsep : (L.flatMap B).Nodup) (hfuel : L.length + (L.flatMap B).length < fuel) :
    control_scan ops fuel s =
      (try_add_all ops s.workq (L.flatMap fun e => (B e).tail)).map (fun w =>
        (s.engine_list_head, after_scan s L B w)) := by
  have hc : chain (next_of (s.emit (.lock .engine_list_mutex)).engines)
      s.engine_list_head L := registry_from_chain hreg
  have hred : redistribute ops fuel (s.emit (.lock .engine_list_mutex)).engine_list_head
      (s.emit (.lock .engine_list_mutex)) = _ :=
    redistribute_gen ops B L (s.emit (.lock .engine_list_mutex)) fuel
      s.engine_list_head hc hback hsep hfuel
  simp only [control_scan, hred]
  have hw : (s.emit (.lock .engine_list_mutex)).workq = s.workq := rfl
  rw [hw]
  cases try_add_all ops s.workq (L.flatMap fun e => (B e).tail) with
  | error e => rfl
  | ok w => rfl

end ProjGame

namespace ProjGame

/-! ## The PersistenceCheck -/

theorem control_persist_eq (ops : WorkqOps) (s1 : State) :
    control_persist ops s1 =
      if (ops.workq_load_unload s1).1 = NOCHANGE then
        .ok { (ops.workq_load_unload s1).2 with
          trace := s1.trace ++ [.workq_load_unload NOCHANGE, .sleep CTRL_THREAD_WAIT_TIME] }
      else if (ops.workq_load_unload s1).1 = 0 then
        .ok { (ops.workq_load_unload s1).2 with trace := s1.trace ++ [.workq_load_unload 0] }
      else .error (.abort (ops.workq_load_unload s1).1 .file_dump) := by
  have hN : ¬ (0 : Int) = NOCHANGE := by decide
  simp only [control_persist, State.workq_load_unload, State.emit]
  by_cases h1 : (ops.workq_load_unload s1).1 = NOCHANGE
  · simp [h1]
  · by_cases h2 : (ops.workq_load_unload s1).1 = 0
    · simp [h2, hN]
    · simp [h1, h2]

theorem redistribute_events_not_load (B : Ptr → List Ptr) (L : List Ptr) :
    (L.flatMap fun e => redistribute_events e (B e)).countP Event.is_load_unload = 0 := by
  rw [List.countP_eq_zero]
  intro ev hev
  obtain ⟨e, _, he⟩ := List.mem_flatMap.1 hev
  simp only [redistribute_events, List.mem_cons, List.mem_append, List.mem_map,
    List.mem_singleton, List.not_mem_nil, or_false] at he
  rcases he with (rfl | ⟨p, _, rfl⟩) | rfl <;> simp [Event.is_load_unload]

/-- Claim C9 as stated fails.  With a `workq_add` that returns the status
7, the iteration of the control loop on a registry of two engines (one of
which has items to detach) aborts with the status 7 and the diagnostic
"Add to work queue": it does not reach line 312, and it aborts although
`workq_load_unload` reports `NOCHANGE` whenever it is called. -/
theorem iteration_aborts_at_add :
    control_iteration failing_add_ops 10 two_engines_state =
      .error (.abort 7 .add_to_work_queue) ∧
    (∀ s, (failing_add_ops.workq_load_unload s).1 = NOCHANGE) ∧
    registry two_engines_state [10, 11] :=
  ⟨rfl, fun _ => rfl, by decide⟩

/-- Claim C9 as amended.  On a well-formed registry `L` with well-formed,
pairwise disjoint backlogs `B`, an iteration of the control loop goes one
of two ways.  Either a `workq_add` of Redistribute returns a status other
than 0 (all calls before it having returned 0): then the iteration aborts
with this status and the diagnostic "Add to work queue", and
`workq_load_unload` is not called.  Or Scan and Redistribute complete and
`workq_load_unload` is called exactly once, on the state the traversal
left and after the registry lock is released: if it reports `NOCHANGE`
the iteration ends with `sleep (CTRL_THREAD_WAIT_TIME)`, if it reports 0
the iteration ends without any sleep, and otherwise the iteration aborts
with this status and the diagnostic "File dump".  So the iteration aborts
exactly when a `workq_add` fails or the status of `workq_load_unload` is
neither 0 nor `NOCHANGE`, and it sleeps exactly when no `workq_add` fails
and the status is `NOCHANGE`. -/
theorem persistence_check (ops : WorkqOps) (s : State) (fuel : Nat) (L : List Ptr)
    (B : Ptr → List Ptr)
    (hreg : registry s L)
    (hback : ∀ e ∈ L, ∃ v, s.engines e = some v ∧ backlog s.items v.list_first (B e))
    (hsep : (L.flatMap B).Nodup)
    (hfuel : L.length + (L.flatMap B).length < fuel) :
    (control_iteration ops fuel s =
      match try_add_all ops s.workq (L.flatMap fun e => (B e).tail) with
      | .error e => .error e
      | .ok w =>
        if (ops.workq_load_unload (after_scan s L B w)).1 = NOCHANGE then
          .ok (s.engine_list_head, { (ops.workq_load_unload (after_scan s L B w)).2 with
            trace := (after_scan s L B w).trace ++
              [.workq_load_unload NOCHANGE, .sleep CTRL_THREAD_WAIT_TIME] })
        else if (ops.workq_load_unload (after_scan s L B w)).1 = 0 then
          .ok (s.engine_list_head, { (ops.workq_load_unload (after_scan s L B w)).2 with
            trace := (after_scan s L B w).trace ++ [.workq_load_unload 0] })
        else .error (.abort (ops.workq_load_unload (after_scan s L B w)).1 .file_dump)) ∧
    (∀ e, try_add_all ops s.workq (L.flatMap fun e => (B e).tail) = .error e →
      ∃ pre p post, (L.flatMap fun e => (B e).tail) = pre ++ p :: post ∧
        try_add_all ops s.workq pre = .ok (add_all ops s.workq pre) ∧
        (ops.workq_add (add_all ops s.workq pre) p).1 ≠ 0 ∧
        e = .abort (ops.workq_add (add_all ops s.workq pre) p).1 .add_to_work_queue) ∧
    ((∀ w p, (ops.workq_add w p).1 = 0) →
      try_add_all ops s.workq (L.flatMap fun e => (B e).tail) =
        .ok (add_all ops s.workq (L.flatMap fun e => (B e).tail))) ∧
    ((∃ e, control_iteration ops fuel s = .error e) ↔
      ((∃ e, try_add_all ops s.workq (L.flatMap fun e => (B e).tail) = .error e) ∨
        ∃ w, try_add_all ops s.workq (L.flatMap fun e => (B e).tail) = .ok w ∧
          (ops.workq_load_unload (after_scan s L B w)).1 ≠ 0 ∧
          (ops.workq_load_unload (after_scan s L B w)).1 ≠ NOCHANGE)) ∧
    (∀ c, control_iteration ops fuel s = .ok c →
      ∃ w, try_add_all ops s.workq (L.flatMap fun e => (B e).tail) = .ok w ∧
        c.1 = s.engine_list_head ∧
        (c.2.trace.drop s.trace.length).countP Event.is_load_unload = 1 ∧
        (Event.sleep CTRL_THREAD_WAIT_TIME ∈ c.2.trace.drop (after_scan s L B w).trace.length ↔
          (ops.workq_load_unload (after_scan s L B w)).1 = NOCHANGE)) := by
  have hN : NOCHANGE ≠ 0 := by decide
  have hiter : control_iteration ops fuel s =
      match try_add_all ops s.workq (L.flatMap fun e => (B e).tail) with
      | .error e => .error e
      | .ok w =>
        if (ops.workq_load_unload (after_scan s L B w)).1 = NOCHANGE then
          .ok (s.engine_list_head, { (ops.workq_load_unload (after_scan s L B w)).2 with
            trace := (after_scan s L B w).trace ++
              [.workq_load_unload NOCHANGE, .sleep CTRL_THREAD_WAIT_TIME] })
        else if (ops.workq_load_unload (after_scan s L B w)).1 = 0 then
          .ok (s.engine_list_head, { (ops.workq_load_unload (after_scan s L B w)).2 with
            trace := (after_scan s L B w).trace ++ [.workq_load_unload 0] })
        else .error (.abort (ops.workq_load_unload (after_scan s L B w)).1 .file_dump) := by
    simp only [control_iteration, control_scan_gen ops B L s fuel hreg hback hsep hfuel]
    cases try_add_all ops s.workq (L.flatMap fun e => (B e).tail) with
    | error e => rfl
    | ok w =>
      simp only [Except.map, res_bind_ok, control_persist_eq]
      by_cases h1 : (ops.workq_load_unload (after_scan s L B w)).1 = NOCHANGE
      · simp only [h1, if_true]; rfl
      · by_cases h2 : (ops.workq_load_unload (after_scan s L B w)).1 = 0
        · simp only [h1, h2, if_true, if_false]; rfl
        · simp only [h1, h2, if_false]; rfl
  have hlen : ∀ w, (after_scan s L B w).trace = s.trace ++
      (Event.lock .engine_list_mutex :: (L.flatMap fun e => redistribute_events e (B e)) ++
        [Event.unlock .engine_list_mutex]) := by
    intro w; simp [after_scan]
  have hcount : ∀ w (tl : List Event),
      ((after_scan s L B w).trace ++ tl).drop s.trace.length =
        (Event.lock .engine_list_mutex :: (L.flatMap fun e => redistribute_events e (B e)) ++
          [Event.unlock .engine_list_mutex]) ++ tl := by
    intro w tl
    rw [hlen, List.append_assoc, List.drop_left]
  refine ⟨hiter, try_add_all_error ops _ _, fun hadd => try_add_all_ok ops hadd _ _, ?_, ?_⟩
  · rw [hiter]
    cases htry : try_add_all ops s.workq (L.flatMap fun e => (B e).tail) with
    | error e => simp
    | ok w =>
      by_cases h1 : (ops.workq_load_unload (after_scan s L B w)).1 = NOCHANGE
      · simp [h1]
      · by_cases h2 : (ops.workq_load_unload (after_scan s L B w)).1 = 0
        · simp [h2, hN.symm]
        · simp [h1, h2]
  · intro c hc
    rw [hiter] at hc
    cases htry : try_add_all ops s.workq (L.flatMap fun e => (B e).tail) with
    | error e => rw [htry] at hc; cases hc
    | ok w =>
      rw [htry] at hc
      simp only at hc
      refine ⟨w, rfl, ?_⟩
      by_cases h1 : (ops.workq_load_unload (after_scan s L B w)).1 = NOCHANGE
      · rw [if_pos h1] at hc
        cases hc
        refine ⟨rfl, ?_, ?_⟩
        · show List.countP _ (((after_scan s L B w).trace ++ _).drop s.trace.length) = 1
          rw [hcount]
          simp [List.countP_append, List.countP_cons, redistribute_events_not_load,
            Event.is_load_unload]
        · show _ ∈ ((after_scan s L B w).trace ++ _).drop (after_scan s L B w).trace.length ↔ _
          rw [List.drop_left]
          simp [h1]
      · by_cases h2 : (ops.workq_load_unload (after_scan s L B w)).1 = 0
        · rw [if_neg h1, if_pos h2] at hc
          cases hc
          refine ⟨rfl, ?_, ?_⟩
          · show List.countP _ (((after_scan s L B w).trace ++ _).drop s.trace.length) = 1
            rw [hcount]
            simp [List.countP_append, List.countP_cons, redistribute_events_not_load,
              Event.is_load_unload]
          · show _ ∈ ((after_scan s L B w).trace ++ _).drop (after_scan s L B w).trace.length ↔ _
            rw [List.drop_left]
            simp [h1]
        · rw [if_neg h1, if_neg h2] at hc
          cases hc

/-- C9 as amended, for an iteration on a registry of two engines: with a
queue that accepts every item and reports no change, and with a
`workq_add` that fails. -/
theorem persistence_check_witness :
    registry two_engines_state [10, 11] ∧
    try_add_all sample_ops two_engines_state.workq
      ([10, 11].flatMap fun e => (two_engines_backlog e).tail) =
      .ok (add_all sample_ops two_engines_state.workq
        ([10, 11].flatMap fun e => (two_engines_backlog e).tail)) ∧
    (control_iteration sample_ops 10 two_engines_state =
      match try_add_all sample_ops two_engines_state.workq
        ([10, 11].flatMap fun e => (two_engines_backlog e).tail) with
      | .error e => .error e
      | .ok w =>
        if (sample_ops.workq_load_unload
            (after_scan two_engines_state [10, 11] two_engines_backlog w)).1 = NOCHANGE then
          .ok (two_engines_state.engine_list_head,
            { (sample_ops.workq_load_unload
                (after_scan two_engines_state [10, 11] two_engines_backlog w)).2 with
              trace := (after_scan two_engines_state [10, 11] two_engines_backlog w).trace ++
                [.workq_load_unload NOCHANGE, .sleep CTRL_THREAD_WAIT_TIME] })
        else if (sample_ops.workq_load_unload
            (after_scan two_engines_state [10, 11] two_engines_backlog w)).1 = 0 then
          .ok (two_engines_state.engine_list_head,
            { (sample_ops.workq_load_unload
                (after_scan two_engines_state [10, 11] two_engines_backlog w)).2 with
              trace := (after_scan two_engines_state [10, 11] two_engines_backlog w).trace ++
                [.workq_load_unload 0] })
        else .error (.abort (sample_ops.workq_load_unload
            (after_scan two_engines_state [10, 11] two_engines_backlog w)).1 .file_dump)) ∧
    ((∃ e, control_iteration failing_add_ops 10 two_engines_state = .error e) ↔
      ((∃ e, try_add_all failing_add_ops two_engines_state.workq
          ([10, 11].flatMap fun e => (two_engines_backlog e).tail) = .error e) ∨
        ∃ w, try_add_all failing_add_ops two_engines_state.workq
            ([10, 11].flatMap fun e => (two_engines_backlog e).tail) = .ok w ∧
          (failing_add_ops.workq_load_unload
            (after_scan two_engines_state [10, 11] two_engines_backlog w)).1 ≠ 0 ∧
          (failing_add_ops.workq_load_unload
            (after_scan two_engines_state [10, 11] two_engines_backlog w)).1 ≠ NOCHANGE)) :=
  ⟨by decide,
    (persistence_check sample_ops two_engines_state 10 [10, 11] two_engines_backlog
      (by decide) two_engines_backlogs (by decide) (by decide)).2.2.1 (fun _ _ => rfl),
    (persistence_check sample_ops two_engines_state 10 [10, 11] two_engines_backlog
      (by decide) two_engines_backlogs (by decide) (by decide)).1,
    (persistence_check failing_add_ops two_engines_state 10 [10, 11] two_engines_backlog
      (by decide) two_engines_backlogs (by decide) (by decide)).2.2.2.1⟩

end ProjGame

namespace ProjGame

/-! ## Steps that leave the statistics alone -/

end ProjGame

namespace ProjGame

end ProjGame

